import Mathlib

/-!
# publ-website build tools and mail handler: a shallow embedding

The build scripts `assets/tools/generate-activities.mjs`,
`assets/tools/generate-indexes.mjs` and `assets/tools/generate-products.mjs` and the
request handler `functions/api/hipster-mail.js` are embedded as pure Lean functions.

* A JavaScript string is a `List Char`.  The tools read their inputs as UTF-8
  text, so every string they see is a sequence of Unicode scalar values; the strings
  of a request are taken to be such sequences too.  Where the code counts or compares
  UTF-16 code units (`slice`, `localeCompare`), the string is turned into its code
  units, `Units`.
* File contents, directory listings and modification times are passed in as
  arguments; what a script writes is part of the value it returns.  The handler takes
  the mail service of the host as an argument and returns its response together with
  the message it handed to that service.
* A function returns an `Option` where the script can throw on the values it
  reads: `none` is the exception.
* `Array.prototype.sort` is a stable sort (ECMAScript 2019 and later).
* `String.prototype.localeCompare` is the collation of the host: a parameter
  `Collation` of every function that sorts.
-/

namespace Publ

/-- A JavaScript string. -/
abbrev Str := List Char

/-! ## Character classes of ECMAScript -/

/-- ECMAScript `LineTerminator`: LF, CR, LS, PS.  These are the characters
that `.` does not match in a regular expression without the `s` flag. -/
def isLineTerminator (c : Char) : Bool :=
  c == '\n' || c == '\r' || c.toNat == 0x2028 || c.toNat == 0x2029

/-- ECMAScript `WhiteSpace` together with `LineTerminator`: the characters
removed by `trim`, `trimEnd` and matched by `\s`. -/
def isWhiteSpace (c : Char) : Bool :=
  c == '\t' || c == '\x0b' || c == '\x0c' || c == ' ' || c.toNat == 0xa0
    || c.toNat == 0xfeff || c.toNat == 0x1680
    || (0x2000 ≤ c.toNat && c.toNat ≤ 0x200a)
    || c.toNat == 0x202f || c.toNat == 0x205f || c.toNat == 0x3000
    || isLineTerminator c

/-- The method `String.prototype.trimStart`. -/
def trimStart (s : Str) : Str := s.dropWhile isWhiteSpace

/-- The method `String.prototype.trimEnd`. -/
def trimEnd (s : Str) : Str := (s.reverse.dropWhile isWhiteSpace).reverse

/-- The method `String.prototype.trim`. -/
def trim (s : Str) : Str := trimEnd (trimStart s)

/-- The call `s.replaceAll(c, r)` for a one-character search string `c`. -/
def replaceAllChar (c : Char) (r : Str) (s : Str) : Str :=
  s.flatMap fun x => if x = c then r else [x]

/-! ## generate-activities.mjs: `escapeHtml` -/

/-- The function `escapeHtml(s)`: four successive `replaceAll` passes, `&` first. -/
def escapeHtml (s : Str) : Str :=
  replaceAllChar '"' "&quot;".toList
    (replaceAllChar '>' "&gt;".toList
      (replaceAllChar '<' "&lt;".toList
        (replaceAllChar '&' "&amp;".toList s)))

/-- The entity that stands for one character after `escapeHtml`. -/
def escapeChar (c : Char) : Str :=
  if c = '&' then "&amp;".toList
  else if c = '<' then "&lt;".toList
  else if c = '>' then "&gt;".toList
  else if c = '"' then "&quot;".toList
  else [c]

/-- The four entities written by `escapeHtml`. -/
def entities : List Str :=
  ["&amp;".toList, "&lt;".toList, "&gt;".toList, "&quot;".toList]

/-- Reading the four entities back, left to right: the inverse direction
of `escapeHtml`. -/
def unescapeHtml : Str → Str
  | '&' :: 'a' :: 'm' :: 'p' :: ';' :: rest => '&' :: unescapeHtml rest
  | '&' :: 'l' :: 't' :: ';' :: rest => '<' :: unescapeHtml rest
  | '&' :: 'g' :: 't' :: ';' :: rest => '>' :: unescapeHtml rest
  | '&' :: 'q' :: 'u' :: 'o' :: 't' :: ';' :: rest => '"' :: unescapeHtml rest
  | c :: rest => c :: unescapeHtml rest
  | [] => []

/-! ## generate-activities.mjs: `mdToHtml` -/

/-- The call `md.replace(/\r\n/g, "\n")`. -/
def replaceCRLF : Str → Str
  | '\r' :: '\n' :: rest => '\n' :: replaceCRLF rest
  | c :: rest => c :: replaceCRLF rest
  | [] => []

/-- The call `s.split("\n")`: the pieces between line feeds; the empty string gives
one empty piece. -/
def splitLines : Str → List Str
  | [] => [[]]
  | c :: cs =>
    if c = '\n' then [] :: splitLines cs
    else
      match splitLines cs with
      | [] => [[c]]
      | l :: ls => (c :: l) :: ls

/-- The call `line.match(/^(#{1,3})\s+(.*)$/)`, returning the length of group 1 and
group 2.  `#{1,3}` can only stop where the run of `#` stops, because `\s`
must follow; `\s+` is greedy and giving characters back only lengthens what
`.*` has to cover; `.` matches no line terminator and `$` (no `m` flag) is
the end of the string. -/
def hMatch (line : Str) : Option (Nat × Str) :=
  let hashes := line.takeWhile (· == '#')
  let rest := line.dropWhile (· == '#')
  let text := rest.dropWhile isWhiteSpace
  if 1 ≤ hashes.length ∧ hashes.length ≤ 3 ∧ rest.head?.any isWhiteSpace = true
      ∧ text.all (fun c => !isLineTerminator c) = true then
    some (hashes.length, text)
  else none

/-- The call `line.match(/^\-\s+(.*)$/)`, returning group 1. -/
def liMatch (line : Str) : Option Str :=
  match line with
  | '-' :: rest =>
    let text := rest.dropWhile isWhiteSpace
    if rest.head?.any isWhiteSpace = true
        ∧ text.all (fun c => !isLineTerminator c) = true then
      some text
    else none
  | _ => none

/-- The two variables the loop of `mdToHtml` updates. -/
structure MdState where
  html : Str
  inList : Bool
deriving DecidableEq, Repr

/-- The closure `flushList` of `mdToHtml`. -/
def flushList (st : MdState) : MdState :=
  if st.inList then { html := st.html ++ "</ul>\n".toList, inList := false } else st

/-- The template literal for a heading of the given level. -/
def headingHtml (level : Nat) (text : Str) : Str :=
  "<h".toList ++ Nat.toDigits 10 level ++ ">".toList ++ escapeHtml text
    ++ "</h".toList ++ Nat.toDigits 10 level ++ ">\n".toList

/-- The template literal for a list entry. -/
def liHtml (text : Str) : Str :=
  "<li>".toList ++ escapeHtml text ++ "</li>\n".toList

/-- The template literal for a paragraph. -/
def pHtml (line : Str) : Str :=
  "<p>".toList ++ escapeHtml line ++ "</p>\n".toList

/-- One iteration of `for (const raw of lines)` in `mdToHtml`. -/
def mdStep (st : MdState) (raw : Str) : MdState :=
  let line := trimEnd raw
  if (trim line).isEmpty then flushList st
  else
    match hMatch line with
    | some (level, text) =>
      let st1 := flushList st
      { st1 with html := st1.html ++ headingHtml level text }
    | none =>
      match liMatch line with
      | some text =>
        let st1 : MdState :=
          if !st.inList then { html := st.html ++ "<ul>\n".toList, inList := true } else st
        { st1 with html := st1.html ++ liHtml text }
      | none =>
        let st1 := flushList st
        { st1 with html := st1.html ++ pHtml line }

/-- The function `mdToHtml(md)`. -/
def mdToHtml (md : Str) : Str :=
  let lines := splitLines (replaceCRLF md)
  let st := lines.foldl mdStep { html := [], inList := false }
  trim (flushList st).html

/-! ## Vocabulary of the statements about `mdToHtml` -/

/-- Every occurrence of the character `c` in `s` is the start of an occurrence of one
of the patterns `pats`. -/
def BeginsPattern (pats : List Str) (c : Char) (s : Str) : Prop :=
  ∀ i : Nat, s[i]? = some c → ∃ p ∈ pats, p <+: s.drop i

/-- What one Markdown line is to `mdToHtml`, in the order the loop body tests it. -/
inductive LineKind where
  | blank
  | heading (level : Nat) (text : Str)
  | item (text : Str)
  | para (line : Str)
deriving DecidableEq, Repr

/-- The branch of the loop body of `mdToHtml` that a raw line takes. -/
def classify (raw : Str) : LineKind :=
  let line := trimEnd raw
  if (trim line).isEmpty then .blank
  else
    match hMatch line with
    | some (level, text) => .heading level text
    | none =>
      match liMatch line with
      | some text => .item text
      | none => .para line

/-- What `flushList` appends when the list flag is `b`. -/
def closeUl (b : Bool) : Str := if b then "</ul>\n".toList else []

/-- The text one loop iteration appends to `html`, given the list flag before it. -/
def emitText (b : Bool) : LineKind → Str
  | .blank => closeUl b
  | .heading level text => closeUl b ++ headingHtml level text
  | .item text => (if b then [] else "<ul>\n".toList) ++ liHtml text
  | .para line => closeUl b ++ pHtml line

/-- The list flag after one loop iteration. -/
def emitFlag : LineKind → Bool
  | .item _ => true
  | _ => false

/-- Everything `mdToHtml` appends to `html` for the remaining lines, the closing
`flushList` included. -/
def render (b : Bool) : List Str → Str
  | [] => closeUl b
  | raw :: rest => emitText b (classify raw) ++ render (emitFlag (classify raw)) rest

/-- Text that is empty or runs from a `<` to a final `>` and line feed: the shape of
everything `mdToHtml` appends to `html`. -/
def Chunked (s : Str) : Prop :=
  s = [] ∨ ∃ mid : Str, s = '<' :: (mid ++ ['>', '\n'])

/-- The line begins with one to three `#` followed by a white-space character. -/
def startsHeading (s : Str) : Bool :=
  [1, 2, 3].any fun n => s.take n == List.replicate n '#' && (s.drop n).head?.any isWhiteSpace

/-- The line begins with `-` followed by a white-space character. -/
def startsListItem (s : Str) : Bool :=
  match s with
  | '-' :: c :: _ => isWhiteSpace c
  | _ => false

/-- The line begins with `-` followed by one space. -/
def startsDashSpace (s : Str) : Bool := "- ".toList.isPrefixOf s

/-- The conditions on the text of a heading or list entry: not empty, no line
terminator, no white space at either end. -/
def CleanText (x : Str) : Prop :=
  x ≠ [] ∧ (∀ c ∈ x, isLineTerminator c = false) ∧ (∀ c ∈ x.head?, isWhiteSpace c = false)
    ∧ (∀ c ∈ x.getLast?, isWhiteSpace c = false)

/-- The tags `mdToHtml` writes. -/
def emittedTags : List Str :=
  ["<h1>".toList, "<h2>".toList, "<h3>".toList, "<ul>".toList, "<li>".toList, "<p>".toList,
   "</h1>".toList, "</h2>".toList, "</h3>".toList, "</ul>".toList, "</li>".toList,
   "</p>".toList]

/-- The three list tags whose occurrences the output is scanned for. -/
inductive ListTag where
  | ulOpen
  | ulClose
  | li
deriving DecidableEq, Repr

/-- The list tag that starts at the head of `s`, if one does. -/
def tagAt (s : Str) : List ListTag :=
  if "<ul>".toList.isPrefixOf s then [.ulOpen]
  else if "</ul>".toList.isPrefixOf s then [.ulClose]
  else if "<li>".toList.isPrefixOf s then [.li]
  else []

/-- The occurrences of `<ul>`, `</ul>` and `<li>` in `s`, in the order of their
positions. -/
def listTags : Str → List ListTag
  | [] => []
  | c :: cs => tagAt (c :: cs) ++ listTags cs

/-- The tags alternate `<ul>`, `</ul>`, starting with `<ul>` unless a list is open and
ending with `</ul>`, and every `<li>` stands inside an open list. -/
def listBalanced : Bool → List ListTag → Bool
  | inside, [] => !inside
  | false, .ulOpen :: r => listBalanced true r
  | true, .li :: r => listBalanced true r
  | true, .ulClose :: r => listBalanced false r
  | _, _ => false

/-- The head of `b`, if any, is none of the characters that follow the first one in a
list tag. -/
def Boundary (b : Str) : Prop := ∀ c ∈ b.head?, c ∉ ['u', 'l', '>', '/', 'i']

/-! ## Values read from JSON files -/

/-- A JSON number as the build tools can observe it: whether it is zero (`ToBoolean`)
and the text that `String` gives for it. -/
structure JsNumber where
  isZero : Bool
  text : Str
deriving DecidableEq, Repr

/-- The result of `JSON.parse`.  An object lists its own properties, each key once. -/
inductive Json where
  | null
  | bool (b : Bool)
  | num (n : JsNumber)
  | str (s : Str)
  | arr (items : List Json)
  | obj (fields : List (Str × Json))
deriving Repr

mutual
/-- Whether `String(v)` returns: it throws a `TypeError` on an object that has an own
property `toString` (no value read from JSON is callable, and `valueOf` of the prototype
returns the object), and on an array that holds such a value. -/
def Json.stringable : Json → Bool
  | .obj fields => !(fields.any fun kv => kv.1 == "toString".toList)
  | .arr items => Json.allStringable items
  | _ => true
/-- Every element of the array can be converted by `String`. -/
def Json.allStringable : List Json → Bool
  | [] => true
  | v :: rest => Json.stringable v && Json.allStringable rest
end

mutual
/-- The conversion `String(v)` for a JSON value on which it returns
(see `Json.stringable`). -/
def Json.toJsString : Json → Str
  | .null => "null".toList
  | .bool b => if b then "true".toList else "false".toList
  | .num n => n.text
  | .str s => s
  | .arr items => Json.joinItems items
  | .obj _ => "[object Object]".toList
/-- The method `Array.prototype.join` with the default separator. -/
def Json.joinItems : List Json → Str
  | [] => []
  | [v] => Json.itemString v
  | v :: rest => Json.itemString v ++ ',' :: Json.joinItems rest
/-- One element inside `Array.prototype.join`: `null` gives the empty string. -/
def Json.itemString : Json → Str
  | .null => []
  | v => Json.toJsString v
end

/-- The conversion `ToBoolean` on a JSON value. -/
def Json.truthy : Json → Bool
  | .null => false
  | .bool b => b
  | .num n => !n.isZero
  | .str s => !s.isEmpty
  | .arr _ => true
  | .obj _ => true

/-- The conversion `ToBoolean` on a value that may be `undefined`. -/
def truthy? : Option Json → Bool
  | none => false
  | some v => v.truthy

/-- Property access `v.key` for the keys the tools read: present only on an object that
has the key; `none` is `undefined`. -/
def Json.getProp (v : Json) (key : Str) : Option Json :=
  match v with
  | .obj fields => (fields.find? fun kv => kv.1 == key).map Prod.snd
  | _ => none

/-- The expression `a || b` when `b` is a value. -/
def jsOr (a : Option Json) (b : Json) : Json :=
  match a with
  | some v => if v.truthy then v else b
  | none => b

/-- The expression `Array.isArray(v) ? v : []`. -/
def arrayOrEmpty : Option Json → List Json
  | some (.arr items) => items
  | _ => []

/-! ## Strings as UTF-16 code units, and sorting -/

/-- The UTF-16 code units of a JavaScript string: what `slice` counts and what a
comparison of two strings reads.  A string cut by `slice` can end with half of a
surrogate pair, so it is kept in this form. -/
abbrev Units := List Nat

/-- The UTF-16 encoding of one character: one code unit, or a surrogate pair for a
character beyond U+FFFF. -/
def utf16 (c : Char) : Units :=
  if c.toNat < 0x10000 then [c.toNat]
  else [0xd800 + (c.toNat - 0x10000) / 0x400, 0xdc00 + (c.toNat - 0x10000) % 0x400]

/-- The code units of a string of characters. -/
def toUnits (s : Str) : Units := s.flatMap utf16

/-- Lexical order on strings, code unit by code unit: the order of `<=` on JavaScript
strings. -/
def unitsLe : Units → Units → Bool
  | [], _ => true
  | _ :: _, [] => false
  | a :: as, b :: bs => decide (a < b) || (a == b && unitsLe as bs)

/-- Lexical order on strings of characters. -/
def lexLe (a b : Str) : Bool := unitsLe (toUnits a) (toUnits b)

/-- The method `String.prototype.localeCompare` of the host: the comparison of the
default locale's collation.  It is not code of the repository, so the build tools take it
as a parameter.  ECMAScript requires it to be a consistent comparison function on all
strings; the three laws say that: a string compares equal to itself, two strings are
comparable, and the order is transitive. -/
structure Collation where
  /-- The value of `a.localeCompare(b)`: negative, zero or positive. -/
  compare : Units → Units → Int
  self : ∀ a, compare a a = 0
  total : ∀ a b, compare a b ≤ 0 ∨ compare b a ≤ 0
  trans : ∀ a b c, compare a b ≤ 0 → compare b c ≤ 0 → compare a c ≤ 0

/-- The call `a.localeCompare(b)` on two strings of characters. -/
def localeCompare (c : Collation) (a b : Str) : Int := c.compare (toUnits a) (toUnits b)

/-- The collation that compares the keys of two strings lexically. -/
def Collation.ofKey (key : Units → Units) : Collation where
  compare a b := if key a = key b then 0 else if unitsLe (key a) (key b) then -1 else 1
  self a := by simp
  total a b := by
    have tot : ∀ x y : Units, unitsLe x y = true ∨ unitsLe y x = true := by
      intro x
      induction x with
      | nil => intro y; exact Or.inl rfl
      | cons c r ih =>
        intro y
        cases y with
        | nil => exact Or.inr rfl
        | cons d s =>
          simp only [unitsLe, Bool.or_eq_true, decide_eq_true_eq, Bool.and_eq_true, beq_iff_eq]
          rcases lt_trichotomy c d with h | h | h
          · exact Or.inl (Or.inl h)
          · rcases ih s with h2 | h2
            · exact Or.inl (Or.inr ⟨h, h2⟩)
            · exact Or.inr (Or.inr ⟨h.symm, h2⟩)
          · exact Or.inr (Or.inl h)
    by_cases e : key a = key b
    · simp [e]
    · rcases tot (key a) (key b) with h | h
      · left; simp [e, h]
      · right; simp [Ne.symm e, h]
  trans a b c h1 h2 := by
    have tr : ∀ x y z : Units, unitsLe x y = true → unitsLe y z = true → unitsLe x z = true := by
      intro x
      induction x with
      | nil => intro y z _ _; rfl
      | cons p r ih =>
        intro y z h1 h2
        cases y with
        | nil => simp [unitsLe] at h1
        | cons q s =>
          cases z with
          | nil => simp [unitsLe] at h2
          | cons w t =>
            simp only [unitsLe, Bool.or_eq_true, decide_eq_true_eq, Bool.and_eq_true,
              beq_iff_eq] at h1 h2 ⊢
            rcases h1 with h1 | ⟨e1, h1⟩
            · rcases h2 with h2 | ⟨e2, h2⟩
              · left; omega
              · left; omega
            · rcases h2 with h2 | ⟨e2, h2⟩
              · left; omega
              · right; exact ⟨by omega, ih s t h1 h2⟩
    have rf : ∀ x : Units, unitsLe x x = true := by
      intro x
      induction x with
      | nil => rfl
      | cons p r ih => simp [unitsLe, ih]
    have le_iff : ∀ x y : Units,
        (if key x = key y then (0 : Int) else if unitsLe (key x) (key y) then -1 else 1) ≤ 0
          ↔ unitsLe (key x) (key y) = true := by
      intro x y
      by_cases e : key x = key y
      · simp [e, rf]
      · by_cases h : unitsLe (key x) (key y) = true
        · simp [e, h]
        · simp [e, h]
    rw [le_iff] at h1 h2 ⊢
    exact tr _ _ _ h1 h2

/-- The code unit of a small letter for the code unit of an ASCII capital letter. -/
def foldCase (u : Nat) : Nat := if 0x41 ≤ u ∧ u ≤ 0x5a then u + 0x20 else u

/-- An example collation: ASCII capital letters count as the small letters, and the
strings are then compared code unit by code unit.  On the strings of the examples it
orders as the collation of Node does: `a` before `B`, `april 2024` before `Mai 2024`, and
dates written `YYYY-MM-DD` in their lexical order. -/
def caseBlindCollation : Collation := Collation.ofKey fun s => s.map foldCase

/-- The collation orders the strings of the list as the lexical order does. -/
def LexicalOn (c : Collation) (l : List Units) : Prop :=
  ∀ a ∈ l, ∀ b ∈ l, (c.compare a b ≤ 0 ↔ unitsLe a b = true)

/-- The method `Array.prototype.sort(cmp)`: a stable sort that keeps `a` before `b` unless
`cmp(a, b) > 0`.  For a comparator that is a consistent order every stable sort gives
this result. -/
def jsSort {α : Type} (cmp : α → α → Int) (l : List α) : List α :=
  l.insertionSort (fun a b => cmp a b ≤ 0)

/-- The expression `s || d` on strings. -/
def strOr (s d : Str) : Str := if s.isEmpty then d else s

/-! ## generate-indexes.mjs: the content indexes -/

/-- An item of `blog-index.json`, `projects-index.json` and `activities-index.json`.
`title`, `excerpt` and `alsoPublished` can carry any value of `meta.json`;
`alsoPublished` is absent on project items. -/
structure IndexItem where
  type : Str
  slug : Str
  title : Json
  updated : Str
  excerpt : Json
  cover : Str
  contentUrl : Str
  metaUrl : Str
  alsoPublished : Option Json

/-- The object `{ generatedAt, items }`. -/
structure Index (α : Type) where
  generatedAt : Str
  items : List α

/-- The comparator `(a, b) => String(b.updated || "").localeCompare(String(a.updated || ""))`. -/
def newestFirst (c : Collation) (a b : IndexItem) : Int :=
  localeCompare c (strOr b.updated []) (strOr a.updated [])

/-- The function `buildBlogIndex`, from the mapped folder items on: `resolved` is the value of
`folders.map(...)` and `generatedAt` the value of `new Date().toISOString()`. -/
def buildBlogIndex (c : Collation) (generatedAt : Str) (resolved : List IndexItem) :
    Index IndexItem :=
  { generatedAt := generatedAt, items := jsSort (newestFirst c) resolved }

/-- The function `buildProjectsIndex`, from the mapped folder items on. -/
def buildProjectsIndex (c : Collation) (generatedAt : Str) (resolved : List IndexItem) :
    Index IndexItem :=
  { generatedAt := generatedAt, items := jsSort (newestFirst c) resolved }

/-- The function `mergeActivities(blogIndex, projectIndex)`; an argument is the `items` field of an
index, `none` when the field is missing. -/
def mergeActivities (c : Collation) (generatedAt : Str)
    (blogItems projectItems : Option (List IndexItem)) : Index IndexItem :=
  { generatedAt := generatedAt,
    items := jsSort (newestFirst c) (blogItems.getD [] ++ projectItems.getD []) }

/-! ## generate-activities.mjs: the activities list -/

/-- An item of `activities.json`.  `updated`, `title` and `url` can carry any value of
`meta.json`. -/
structure ActivityItem where
  type : Str
  slug : Str
  title : Json
  updated : Json
  image : Str
  excerpt : Str
  url : Json
  contentUrl : Str

/-- The comparator `(a, b) => String(b.updated).localeCompare(String(a.updated))`. -/
def activityNewestFirst (c : Collation) (a b : ActivityItem) : Int :=
  localeCompare c b.updated.toJsString a.updated.toJsString

/-- The `items.sort(...)` of `main` in generate-activities.mjs, applied to the items
pushed for the blog and project folders.  The comparator runs on every item as soon as
there are two of them, so the sort throws (`none`) when `String` throws on the `updated`
value of one of them. -/
def sortActivities (c : Collation) (items : List ActivityItem) : Option (List ActivityItem) :=
  if 2 ≤ items.length ∧ (items.any fun a => !a.updated.stringable) = true then none
  else some (jsSort (activityNewestFirst c) items)

/-! ## generate-indexes.mjs: the calendar index -/

/-- An item of `calendar-index.json`. -/
structure CalendarItem where
  id : Json
  date : Units
  title : Json
  projects : List Json
  tags : List Json
  where_ : Json
  note : Json

/-- The call `f.toLowerCase().endsWith(".json")`; only the letters `J`, `S`, `O`, `N` have a
lower case in `.json`. -/
def isJsonFile (f : Str) : Bool :=
  ".json".toList.isSuffixOf (f.map Char.toLower)

/-- The call `f.replace(/\.json$/i, "")`. -/
def stripJsonExt (f : Str) : Str :=
  if isJsonFile f then f.take (f.length - 5) else f

/-- The call `s.slice(0, 10)`: the first ten UTF-16 code units of the string.  A character
beyond U+FFFF counts as two, and the cut can fall between the two. -/
def slice10 (s : Str) : Units := (toUnits s).take 10

/-- The object pushed for the file named `f` that parsed to `ev`, when `String` returns
on its date. -/
def calendarItem (f : Str) (ev : Json) : CalendarItem :=
  { id := jsOr (ev.getProp "id".toList) (.str (stripJsonExt f))
    date := slice10 (jsOr (ev.getProp "date".toList) (.str [])).toJsString
    title := jsOr (ev.getProp "title".toList) (.str "Termin".toList)
    projects := arrayOrEmpty (ev.getProp "projects".toList)
    tags := arrayOrEmpty (ev.getProp "tags".toList)
    where_ := jsOr (ev.getProp "where".toList) (.str [])
    note := jsOr (ev.getProp "note".toList) (.str []) }

/-- One iteration of `for (const f of files)` in `buildCalendarIndex`; `ev` is the result
of `safeReadJson`, `none` when reading or parsing threw.  The result is `none` when the
iteration throws, which `String(ev.date || "")` does on a value that is not
`Json.stringable`. -/
def calendarStep (items : List CalendarItem) (entry : Str × Option Json) :
    Option (List CalendarItem) :=
  match entry.2 with
  | none => some items
  | some ev =>
    if !ev.truthy || !truthy? (ev.getProp "date".toList) then some items
    else if (jsOr (ev.getProp "date".toList) (.str [])).stringable then
      some (items ++ [calendarItem entry.1 ev])
    else none

/-- The comparator `(a, b) => String(a.date).localeCompare(String(b.date))`; `a.date` is a
string already. -/
def byDate (c : Collation) (a b : CalendarItem) : Int := c.compare a.date b.date

/-- The function `buildCalendarIndex`; `dir` is `none` when the calendar folder is not a
directory, otherwise the names in it, each with the result of `safeReadJson` on it.  The
result is `none` when an iteration of the loop throws. -/
def buildCalendarIndex (c : Collation) (generatedAt : Str)
    (dir : Option (List (Str × Option Json))) : Option (Index CalendarItem) :=
  match dir with
  | none => some { generatedAt := generatedAt, items := [] }
  | some entries =>
    let files := entries.filter fun e => isJsonFile e.1
    (files.foldlM calendarStep []).map fun items =>
      { generatedAt := generatedAt, items := jsSort (byDate c) items }

/-- A calendar event file that holds only a date. -/
def dateOnlyEvent (date : Str) : Json := .obj [("date".toList, .str date)]

/-! ## The languages of the two regular expressions of `mdToHtml` -/

/-- The line is in the language of `/^#{1,3}\s+.*$/`: one to three `#`, then one or more
white-space characters, then characters other than line terminators up to the end. -/
def HeadingRegex (line : Str) : Prop :=
  ∃ (n : Nat) (ws text : Str), 1 ≤ n ∧ n ≤ 3 ∧ ws ≠ []
    ∧ (∀ c ∈ ws, isWhiteSpace c = true) ∧ (∀ c ∈ text, isLineTerminator c = false)
    ∧ line = List.replicate n '#' ++ (ws ++ text)

/-- The line is in the language of `/^\-\s+.*$/`. -/
def ListItemRegex (line : Str) : Prop :=
  ∃ (ws text : Str), ws ≠ []
    ∧ (∀ c ∈ ws, isWhiteSpace c = true) ∧ (∀ c ∈ text, isLineTerminator c = false)
    ∧ line = '-' :: (ws ++ text)

/-! ## node:path and file names -/

/-- The variables of the loop of `path.extname` in Node.js (`lib/path.js`, POSIX). -/
structure ExtState where
  startDot : Option Nat
  startPart : Nat
  endPos : Option Nat
  matchedSlash : Bool
  preDotState : Int
  stopped : Bool

/-- One iteration of the loop of `path.extname`, which runs from the last character
to the first; `stopped` records the `break`. -/
def extnameStep (st : ExtState) (ic : Nat × Char) : ExtState :=
  if st.stopped then st
  else if ic.2 = '/' then
    if !st.matchedSlash then { st with startPart := ic.1 + 1, stopped := true } else st
  else
    let st1 : ExtState :=
      if st.endPos.isNone then { st with matchedSlash := false, endPos := some (ic.1 + 1) }
      else st
    if ic.2 = '.' then
      if st1.startDot.isNone then { st1 with startDot := some ic.1 }
      else if st1.preDotState ≠ 1 then { st1 with preDotState := 1 }
      else st1
    else if st1.startDot.isSome then { st1 with preDotState := -1 }
    else st1

/-- The Node.js function `path.extname(p)` (POSIX): the text from the last `.` of the
last portion of `p` to its end, empty when there is no `.` or none but the first
character of that portion. -/
def extname (p : Str) : Str :=
  let st := p.enum.reverse.foldl extnameStep
    { startDot := none, startPart := 0, endPos := none, matchedSlash := true,
      preDotState := 0, stopped := false }
  match st.startDot, st.endPos with
  | some sd, some e =>
    if st.preDotState = 0 ∨ (st.preDotState = 1 ∧ sd = e - 1 ∧ sd = st.startPart + 1) then []
    else (p.drop sd).take (e - sd)
  | _, _ => []

/-- The method `String.prototype.toLowerCase` as far as the tools depend on it: they
compare the result with texts made of ASCII letters, digits and dots, and a character
outside ASCII never becomes one of those letters. -/
def toLowerCase (s : Str) : Str := s.map Char.toLower

/-- A regular expression `/\.(e1|e2|...)$/i` applied with `test`: the name ends, up to
ASCII case, with a dot and one of the alternatives. -/
def endsWithDotExt (alts : List Str) (name : Str) : Bool :=
  alts.any fun e => ('.' :: e).isSuffixOf (toLowerCase name)

/-- The call `/cover/i.test(f)`. -/
def containsCover (f : Str) : Bool :=
  (toLowerCase f).tails.any fun t => "cover".toList.isPrefixOf t

/-! ## generate-indexes.mjs: from a content folder to an index item -/

/-- The set `IMAGE_EXT`. -/
def IMAGE_EXT : List Str :=
  [".png".toList, ".jpg".toList, ".jpeg".toList, ".webp".toList, ".gif".toList]

/-- The set `TEXT_EXT`. -/
def TEXT_EXT : List Str := [".txt".toList, ".md".toList, ".html".toList]

/-- What the index builders read of one content folder. -/
structure Folder where
  /-- The value of `path.basename(folderPath)`. -/
  slug : Str
  /-- The value of `fs.readdirSync(folderPath)`. -/
  files : List Str
  /-- The value of `safeReadJson(metaPath)`: `none` when reading or parsing `meta.json`
  threw. -/
  meta : Option Json
  /-- The value of `fs.existsSync(metaPath)`. -/
  metaExists : Bool
  /-- The value of `new Date(fs.statSync(folderPath).mtime).toISOString()`: `none` when
  it threw. -/
  mtimeIso : Option Str
  /-- The value of `safeReadText(path.join(folderPath, name))`. -/
  readText : Str → Str

/-- The function `pickFirstByExt(files, exts)`. -/
def pickFirstByExt (files : List Str) (exts : List Str) : Str :=
  match files with
  | [] => []
  | f :: rest => if exts.contains (toLowerCase (extname f)) then f else pickFirstByExt rest exts

/-- The function `pickCoverImage(files)`. -/
def pickCoverImage (files : List Str) : Str :=
  match files.find? fun f => IMAGE_EXT.contains (toLowerCase (extname f)) && containsCover f with
  | some coverFirst => if coverFirst.isEmpty then pickFirstByExt files IMAGE_EXT else coverFirst
  | none => pickFirstByExt files IMAGE_EXT

/-- The value of `a || b || c || d` for property reads: the first truthy one. -/
def firstTruthy : List (Option Json) → Option Json
  | [] => none
  | a :: rest => if truthy? a then a else firstTruthy rest

/-- The `try` block at the end of `normalizeUpdated`: the folder's modification time as
an ISO string without milliseconds; `mtimeIso` is what `new Date(st.mtime).toISOString()`
gives for the folder, `none` when the block throws.  The text of `toISOString` is ASCII,
so `slice(0, 19)` takes its first 19 characters. -/
def folderStamp (mtimeIso : Option Str) : Str :=
  match mtimeIso with
  | some iso => iso.take 19 ++ "Z".toList
  | none => []

/-- The function `normalizeUpdated(meta, folderPath)`. -/
def normalizeUpdated (meta : Json) (mtimeIso : Option Str) : Str :=
  let mUpdated : Option Json :=
    if meta.truthy then
      firstTruthy [meta.getProp "updated".toList, meta.getProp "date".toList,
        meta.getProp "lastEdited".toList, meta.getProp "last_edit".toList]
    else none
  match mUpdated with
  | some (.str s) => if (trim s).isEmpty then folderStamp mtimeIso else trim s
  | _ => folderStamp mtimeIso

/-- The expression `safeReadJson(metaPath) || {}`. -/
def metaOrEmpty (m : Option Json) : Json :=
  match m with
  | some v => if v.truthy then v else .obj []
  | none => .obj []

/-- The expression `toWebPath(path.join(folderPath, name))` for a folder `slug` that lies
directly in `assets/<dir>`. -/
def toWebPath (dir slug name : Str) : Str :=
  "/assets/".toList ++ dir ++ "/".toList ++ slug ++ "/".toList ++ name

/-- The value of `articleFile` in `buildBlogIndex`. -/
def blogArticleFile (files : List Str) : Str :=
  if files.contains "article.html".toList then "article.html".toList
  else strOr (pickFirstByExt files [".html".toList]) (pickFirstByExt files [".md".toList])

/-- The value of `excerptFile` in `buildBlogIndex`. -/
def blogExcerptFile (files : List Str) : Str :=
  if files.contains "excerpt.txt".toList then "excerpt.txt".toList
  else pickFirstByExt files [".txt".toList]

/-- The callback of `folders.map(...)` in `buildBlogIndex`. -/
def buildBlogItem (f : Folder) : IndexItem :=
  let meta := metaOrEmpty f.meta
  let articleFile := blogArticleFile f.files
  let excerptFile := blogExcerptFile f.files
  let coverFile := pickCoverImage f.files
  { type := "blog".toList
    slug := f.slug
    title := jsOr (meta.getProp "title".toList) (jsOr (meta.getProp "name".toList) (.str f.slug))
    updated := normalizeUpdated meta f.mtimeIso
    excerpt :=
      if excerptFile.isEmpty then jsOr (meta.getProp "excerpt".toList) (.str [])
      else .str (trim (f.readText excerptFile))
    cover := if coverFile.isEmpty then [] else toWebPath "blog".toList f.slug coverFile
    contentUrl := if articleFile.isEmpty then [] else toWebPath "blog".toList f.slug articleFile
    metaUrl := if f.metaExists then toWebPath "blog".toList f.slug "meta.json".toList else []
    alsoPublished :=
      some (jsOr (meta.getProp "alsoPublished".toList) (jsOr (meta.getProp "links".toList) .null)) }

/-- The predicate of `files.find(...)` that picks the text file of a project. -/
def isProjectText (f : Str) : Bool :=
  if !TEXT_EXT.contains (toLowerCase (extname f)) then false
  else if toLowerCase f == "meta.json".toList then false
  else if toLowerCase f == "excerpt.txt".toList then false
  else if toLowerCase f == "article.html".toList then false
  else true

/-- The callback of `folders.map(...)` in `buildProjectsIndex`. -/
def buildProjectItem (f : Folder) : IndexItem :=
  let meta := metaOrEmpty f.meta
  let coverFile := pickCoverImage f.files
  let textFile := (f.files.find? isProjectText).getD []
  { type := "project".toList
    slug := f.slug
    title := jsOr (meta.getProp "title".toList) (jsOr (meta.getProp "name".toList) (.str f.slug))
    updated := normalizeUpdated meta f.mtimeIso
    excerpt :=
      if textFile.isEmpty then
        jsOr (meta.getProp "excerpt".toList) (jsOr (meta.getProp "synopsis".toList) (.str []))
      else .str (trim (f.readText textFile))
    cover := if coverFile.isEmpty then [] else toWebPath "projects".toList f.slug coverFile
    contentUrl := if textFile.isEmpty then [] else toWebPath "projects".toList f.slug textFile
    metaUrl := if f.metaExists then toWebPath "projects".toList f.slug "meta.json".toList else []
    alsoPublished := none }

/-- The whole of `buildBlogIndex`: map the folders, then sort. -/
def blogIndex (c : Collation) (generatedAt : Str) (folders : List Folder) : Index IndexItem :=
  buildBlogIndex c generatedAt (folders.map buildBlogItem)

/-- The whole of `buildProjectsIndex`: map the folders, then sort. -/
def projectsIndex (c : Collation) (generatedAt : Str) (folders : List Folder) :
    Index IndexItem :=
  buildProjectsIndex c generatedAt (folders.map buildProjectItem)

/-! ## generate-activities.mjs: `writeContentHtml` -/

/-- The template of `writeContentHtml` up to the text of `<title>`. -/
def shellHead : Str :=
  ("<!doctype html>\n" ++
    "<html lang=\"de\">\n" ++
    "<head>\n" ++
    "  <meta charset=\"utf-8\" />\n" ++
    "  <meta name=\"viewport\" content=\"width=device-width, initial-scale=1\" />\n" ++
    "  <title>").toList

/-- The template of `writeContentHtml` between the text of `<title>` and the
text of `<h1>`. -/
def shellAfterTitle : Str :=
  ("</title>\n" ++
    "  <link rel=\"stylesheet\" href=\"/assets/styles.css\" />\n" ++
    "  <meta name=\"color-scheme\" content=\"light dark\" />\n" ++
    "</head>\n" ++
    "<body class=\"page-content\">\n" ++
    "  <main class=\"container\">\n" ++
    "    <article class=\"section\">\n" ++
    "      <h1>").toList

/-- The template of `writeContentHtml` between the text of `<h1>` and the cover image. -/
def shellAfterH1 : Str :=
  ("</h1>\n" ++
    "      ").toList

/-- The inner template of the cover image up to the URL. -/
def shellImgOpen : Str :=
  ("<img src=\"").toList

/-- The inner template of the cover image after the URL. -/
def shellImgClose : Str :=
  ("\" alt=\"\" style=\"width:100%;height:auto;border-radius:16px;margin:14px 0;\" />").toList

/-- The template of `writeContentHtml` between the cover image and the body. -/
def shellAfterCover : Str :=
  ("\n" ++
    "      <div class=\"prose\">\n" ++
    "        ").toList

/-- The template of `writeContentHtml` after the body. -/
def shellTail : Str :=
  ("\n" ++
    "      </div>\n" ++
    "    </article>\n" ++
    "  </main>\n" ++
    "</body>\n" ++
    "</html>").toList

/-- The function `writeContentHtml(type, slug, title, coverUrl, bodyHtml)` with string
arguments: the document it writes and the path it returns. -/
def writeContentHtml (type slug title coverUrl bodyHtml : Str) : Str × Str :=
  (shellHead ++ escapeHtml title ++ shellAfterTitle ++ escapeHtml title ++ shellAfterH1
      ++ (if coverUrl.isEmpty then [] else shellImgOpen ++ coverUrl ++ shellImgClose)
      ++ shellAfterCover ++ bodyHtml ++ shellTail,
    "/assets/content/".toList ++ type ++ "/".toList ++ slug ++ ".html".toList)

/-! ## generate-activities.mjs: `pickFiles` and `buildItem` -/

/-- The test `IMG_RE`, `/\.(png|jpe?g|webp)$/i`. -/
def IMG_RE (name : Str) : Bool :=
  endsWithDotExt ["png".toList, "jpg".toList, "jpeg".toList, "webp".toList] name

/-- The test `TXT_RE`, `/\.txt$/i`. -/
def TXT_RE (name : Str) : Bool := endsWithDotExt ["txt".toList] name

/-- The test `HTML_RE`, `/\.html?$/i`. -/
def HTML_RE (name : Str) : Bool := endsWithDotExt ["htm".toList, "html".toList] name

/-- The test `MD_RE`, `/\.md$/i`. -/
def MD_RE (name : Str) : Bool := endsWithDotExt ["md".toList] name

/-- The test `IGNORE_RE`, `/\.(odt|docx?|pdf|psd|ai)$/i`. -/
def IGNORE_RE (name : Str) : Bool :=
  endsWithDotExt ["odt".toList, "doc".toList, "docx".toList, "pdf".toList, "psd".toList,
    "ai".toList] name

/-- The object returned by `pickFiles`. -/
structure PickedFiles where
  files : List Str
  cover : Str
  excerptFile : Str
  contentFile : Str
deriving DecidableEq, Repr

/-- The function `pickFiles`, from the names of the directory entries that are files. -/
def pickFiles (fileNames : List Str) : PickedFiles :=
  let files := fileNames.filter fun name => !IGNORE_RE name
  let cover := (files.find? IMG_RE).getD []
  let excerptFile :=
    strOr ((files.find? fun f => toLowerCase f == "excerpt.txt".toList).getD [])
      ((files.find? TXT_RE).getD [])
  let htmlFile := (files.find? HTML_RE).getD []
  let mdFile := (files.find? MD_RE).getD []
  { files := files, cover := cover, excerptFile := excerptFile,
    contentFile := strOr htmlFile mdFile }

/-- The function `webPathFor(type, slug, filename)`. -/
def webPathFor (type slug filename : Str) : Str :=
  (if type = "blog".toList then "/assets/blog".toList else "/assets/projects".toList)
    ++ "/".toList ++ slug ++ "/".toList ++ filename

/-- The function `defaultUrlFor(type, slug)`. -/
def defaultUrlFor (type slug : Str) : Str :=
  if type = "blog".toList then "/webpages/blog/".toList ++ slug ++ "/".toList
  else "/webpages/projects/".toList ++ slug ++ "/".toList

/-- What `buildItem` reads of one content folder. -/
structure ItemFolder where
  /-- The folder name, the argument `slug`. -/
  slug : Str
  /-- The names of the directory entries that are files, in the order of `readdir`. -/
  fileNames : List Str
  /-- The value of `readJsonIfExists`: `none` is the `null` returned when `meta.json` is
  absent or does not parse. -/
  meta : Option Json
  /-- The value of `new Date(stat.mtimeMs).toISOString()`, an ASCII text: `slice(0, 10)`
  takes its first 10 characters. -/
  mtimeIso : Str
  /-- The value of `fs.readFile(path.join(folderPath, name), "utf8")`. -/
  readFile : Str → Str

/-- The value of `(meta && meta.key) ? meta.key : fallback`. -/
def metaOr (meta : Option Json) (key : Str) (fallback : Json) : Json :=
  match meta with
  | some m => if m.truthy then jsOr (m.getProp key) fallback else fallback
  | none => fallback

/-- The item returned by `buildItem` together with the document that
`writeContentHtml` wrote, if it was called. -/
structure BuiltItem where
  item : ActivityItem
  written : Option Str

/-- The function `buildItem(type, baseDir, slug)`.  The result is `none` when
`escapeHtml(title)` throws, which it does on a title that is not a string. -/
def buildItem (type : Str) (f : ItemFolder) : Option BuiltItem :=
  let picked := pickFiles f.fileNames
  let updated := metaOr f.meta "updated".toList (.str (f.mtimeIso.take 10))
  let title := metaOr f.meta "title".toList (.str f.slug)
  let url := metaOr f.meta "url".toList (.str (defaultUrlFor type f.slug))
  let image := if picked.cover.isEmpty then [] else webPathFor type f.slug picked.cover
  let excerpt := if picked.excerptFile.isEmpty then [] else trim (f.readFile picked.excerptFile)
  let bodyHtml :=
    if picked.contentFile.isEmpty then []
    else if HTML_RE picked.contentFile then trim (f.readFile picked.contentFile)
    else if MD_RE picked.contentFile then mdToHtml (trim (f.readFile picked.contentFile))
    else []
  let base : ActivityItem :=
    { type := type, slug := f.slug, title := title, updated := updated, image := image,
      excerpt := excerpt, url := url, contentUrl := [] }
  if bodyHtml.isEmpty then some { item := base, written := none }
  else
    match title with
    | .str t =>
      let page := writeContentHtml type f.slug t image bodyHtml
      some { item := { base with contentUrl := page.2 }, written := some page.1 }
    | _ => none

/-! ## generate-products.mjs -/

/-- A product of `products.json`. -/
structure ProductItem where
  id : Str
  page : Str
  name : Json
  description : Json
  image : Str
  status : Json
  variants : List Json
  unit : Json
  pickupRequired : Bool
  decorateJuice : Bool

/-- The optional property read `meta?.key`. -/
def optProp (meta : Option Json) (key : Str) : Option Json :=
  match meta with
  | some .null => none
  | some m => m.getProp key
  | none => none

/-- The function `pickFirstImage`, from the names of the directory entries that are
files. -/
def pickFirstImage (fileNames : List Str) : Str :=
  ((fileNames.filter fun name => !IGNORE_RE name).find? IMG_RE).getD []

/-- The expression `Array.isArray(v) ? v : ["Standard"]`. -/
def arrayOrStandard : Option Json → List Json
  | some (.arr items) => items
  | _ => [.str "Standard".toList]

/-- The product pushed by one iteration of the loop of `main` in generate-products.mjs;
`meta` is the value of `readJsonIfExists`, `none` being `null`. -/
def buildProduct (slug : Str) (meta : Option Json) (fileNames : List Str) : ProductItem :=
  let cover := pickFirstImage fileNames
  { id := slug
    page := "webshop".toList
    name := jsOr (optProp meta "name".toList) (jsOr (optProp meta "title".toList) (.str slug))
    description :=
      jsOr (optProp meta "description".toList) (jsOr (optProp meta "desc".toList) (.str []))
    image := if cover.isEmpty then [] else "/assets/shop/".toList ++ slug ++ "/".toList ++ cover
    status := jsOr (optProp meta "status".toList) (.str "verfügbar".toList)
    variants := arrayOrStandard (optProp meta "variants".toList)
    unit := jsOr (optProp meta "unit".toList) (.str "Stück".toList)
    pickupRequired := truthy? (optProp meta "pickupRequired".toList)
    decorateJuice := truthy? (optProp meta "decorateJuice".toList) }

/-! ## Vocabulary and examples of the statements about the indexes -/

/-- The file parsed to a truthy value whose `date` is truthy: the loop of
`buildCalendarIndex` does not `continue` on it. -/
def calendarKeeps (e : Str × Option Json) : Bool :=
  match e.2 with
  | some ev => ev.truthy && truthy? (ev.getProp "date".toList)
  | none => false

/-- The entry is a `.json` file that the loop of `buildCalendarIndex` keeps. -/
def calendarValid (e : Str × Option Json) : Bool := isJsonFile e.1 && calendarKeeps e

/-- The item pushed for a kept entry. -/
def calendarItemOf (e : Str × Option Json) : CalendarItem := calendarItem e.1 (e.2.getD .null)

/-- The parsed value has a property `date`. -/
def hasDateField (ev : Json) : Bool := (ev.getProp "date".toList).isSome

/-- The function `String` returns on every `date` property of a parsed `.json` file. -/
def DatesStringable (entries : List (Str × Option Json)) : Prop :=
  ∀ e ∈ entries, ∀ ev d, e.2 = some ev → ev.getProp "date".toList = some d →
    d.stringable = true

/-- Example calendar folder: a dated event, a file that does not parse, an event with an
empty date, and a dated event in a file that is not `.json`. -/
def calendarExample : List (Str × Option Json) :=
  [("a.json".toList, some (dateOnlyEvent "2024-01-01".toList)),
   ("b.json".toList, none),
   ("c.json".toList, some (.obj [("date".toList, .str [])])),
   ("notes.txt".toList, some (dateOnlyEvent "2023-01-01".toList))]

/-- Example activities: two items whose `updated` values are strings. -/
def activitiesExample : List ActivityItem :=
  [{ type := "blog".toList, slug := "a".toList, title := .str "a".toList,
     updated := .str "2023-05-05".toList, image := [], excerpt := [],
     url := .str "/webpages/blog/a/".toList, contentUrl := [] },
   { type := "project".toList, slug := "b".toList, title := .str "b".toList,
     updated := .str "2024-01-01".toList, image := [], excerpt := [],
     url := .str "/webpages/projects/b/".toList, contentUrl := [] }]

/-- Example index item. -/
def indexItemExample : IndexItem :=
  { type := "blog".toList, slug := "a".toList, title := .str "a".toList,
    updated := "2024-01-01".toList, excerpt := .str [], cover := [], contentUrl := [],
    metaUrl := [], alsoPublished := some .null }

/-- Example folder for the index builders: no `meta.json`, one article, one cover. -/
def folderExample : Folder :=
  { slug := "post".toList, files := ["cover.png".toList, "article.html".toList],
    meta := none, metaExists := false, mtimeIso := some "2024-05-06T07:08:09.123Z".toList,
    readText := fun _ => [] }

/-- Example folder for `buildItem`: no `meta.json`, one Markdown file. -/
def itemFolderExample : ItemFolder :=
  { slug := "post".toList, fileNames := ["post.md".toList], meta := none,
    mtimeIso := "2024-05-06T07:08:09.123Z".toList, readFile := fun _ => "# Hi".toList }

/-- Example folder for `buildItem` whose `meta.json` gives a number as `updated`. -/
def numberUpdatedFolder : ItemFolder :=
  { slug := "post".toList, fileNames := [],
    meta := some (.obj [("updated".toList, .num { isZero := false, text := "2024".toList })]),
    mtimeIso := "2024-05-06T07:08:09.123Z".toList, readFile := fun _ => [] }

/-- The first truthy value among the four date properties that `normalizeUpdated`
reads. -/
def metaDate (meta : Json) : Option Json :=
  firstTruthy [meta.getProp "updated".toList, meta.getProp "date".toList,
    meta.getProp "lastEdited".toList, meta.getProp "last_edit".toList]

/-- The file has one of the extensions of `IMAGE_EXT`, in any case of letters. -/
def isImageFile (f : Str) : Bool := IMAGE_EXT.contains (toLowerCase (extname f))

/-- The file has the extension `ext`, in any case of letters. -/
def hasExt (ext : Str) (f : Str) : Bool := toLowerCase (extname f) == ext

/-- Example blog folder whose name is `<script>`, with a cover image and a Markdown
file. -/
def scriptFolder : ItemFolder :=
  { slug := "<script>".toList, fileNames := ["a.png".toList, "post.md".toList], meta := none,
    mtimeIso := "2024-05-06T07:08:09.123Z".toList, readFile := fun _ => "# Hi".toList }

/-- The document that `buildItem` writes for `scriptFolder`. -/
def scriptFolderPage : Str :=
  shellHead ++ "&lt;script&gt;".toList ++ shellAfterTitle ++ "&lt;script&gt;".toList
    ++ shellAfterH1
    ++ ("<img src=\"/assets/blog/".toList ++ ("<script>".toList ++ ("/a.png".toList
      ++ shellImgClose)))
    ++ shellAfterCover ++ "<h1>Hi</h1>".toList ++ shellTail

/-- The name is not `meta.json`. -/
def notMetaFile (name : Str) : Bool := name != "meta.json".toList

/-- The same folder without its `meta.json`. -/
def withoutMetaFile (f : Folder) : Folder :=
  { f with
    files := f.files.filter notMetaFile
    meta := none
    metaExists := false }

/-- Example blog folder whose `meta.json` does not parse. -/
def malformedMetaFolder : Folder :=
  { slug := "post".toList, files := ["article.html".toList, "meta.json".toList],
    meta := none, metaExists := true, mtimeIso := some "2024-05-06T07:08:09.123Z".toList,
    readText := fun _ => [] }

/-! ## functions/api/hipster-mail.js -/

/-- The function `esc(s)`, `String(s || "").replace(/\r/g, "").trim()`; `s` is `none` when
it is `undefined`.  The result is `none` when `String` throws. -/
def esc (s : Option Json) : Option Str :=
  let v := jsOr s (.str [])
  if v.stringable then some (trim (replaceAllChar '\r' [] v.toJsString)) else none

/-- What `onRequestPost` reads of `ctx.request`. -/
structure Request where
  /-- The value of `request.headers.get("Origin")`: `none` is the `null` returned when the
  request has no such header. -/
  origin : Option Str
  /-- The value of `new URL(request.url).origin`. -/
  host : Str
  /-- The value of `await request.json()`: `none` when it throws. -/
  json : Option Json
deriving Repr

/-- A `Response` as the handler builds it: the status, the `Content-Type` header and the
body text. -/
structure Response where
  status : Nat
  contentType : Str
  body : Str
deriving DecidableEq, Repr

/-- The abstract operation `UnicodeEscape` of `JSON.stringify`: `\u` and four lower-case
hexadecimal digits. -/
def unicodeEscape (n : Nat) : Str :=
  let digits := Nat.toDigits 16 n
  '\\' :: 'u' :: (List.replicate (4 - digits.length) '0' ++ digits)

/-- One character inside the abstract operation `QuoteJSONString`. -/
def quoteJSONChar (c : Char) : Str :=
  if c.toNat = 0x08 then ['\\', 'b']
  else if c = '\t' then ['\\', 't']
  else if c = '\n' then ['\\', 'n']
  else if c.toNat = 0x0c then ['\\', 'f']
  else if c = '\r' then ['\\', 'r']
  else if c = '"' then ['\\', '"']
  else if c = '\\' then ['\\', '\\']
  else if c.toNat < 0x20 then unicodeEscape c.toNat
  else [c]

/-- The abstract operation `QuoteJSONString`: what `JSON.stringify` writes for a
string. -/
def quoteJSONString (s : Str) : Str :=
  '"' :: (s.flatMap quoteJSONChar ++ ['"'])

/-- The text `JSON.stringify({ ok: false, error })`. -/
def errorBody (error : Str) : Str :=
  "\x7b\"ok\":false,\"error\":".toList ++ quoteJSONString error ++ "\x7d".toList

/-- The text `JSON.stringify({ ok: true })`. -/
def okBody : Str := "\x7b\"ok\":true\x7d".toList

/-- The call `new Response(body, { status, headers: { "Content-Type": "application/json" } })`. -/
def jsonResponse (status : Nat) (body : Str) : Response :=
  { status := status, contentType := "application/json".toList, body := body }

/-- The message that the handler builds for the mail API: the arguments of
`new EmailMessage(from, to, text)`, the argument of `setSubject`, and the argument of
`headers.set("Reply-To", ...)` when the handler makes that call. -/
structure Draft where
  from_ : Str
  to_ : Str
  text : Str
  subject : Str
  replyTo : Option Str
deriving DecidableEq, Repr

/-- What the mail API does with the calls of the handler.  The module `cloudflare:email`
and the binding `env.HIPSTER_SEND` belong to the host, so the handler takes this as a
parameter, and nothing is assumed about which of the three cases the host gives. -/
inductive Delivery where
  /-- The call `env.HIPSTER_SEND.send(msg)` returned. -/
  | sent
  /-- The call `env.HIPSTER_SEND.send(msg)` threw `e`; `error` is the value of
  `String(e?.message || e)`. -/
  | failed (error : Str)
  /-- One of `new EmailMessage`, `msg.setSubject` and `msg.headers.set` threw, before the
  `try` block. -/
  | threw
deriving DecidableEq, Repr

/-- What a call of the handler does. -/
structure Outcome where
  /-- The response the handler returns; `none` when the handler throws. -/
  response : Option Response
  /-- The message the handler builds for the mail API; `none` when the handler does not
  get as far as `new EmailMessage`, so that no email is sent. -/
  mail : Option Draft
deriving DecidableEq, Repr

/-- The property read `payload.key` for the four keys of the handler.  It throws a
`TypeError` (`none`) on `null`; a string, number, boolean or array has none of the four
properties. -/
def payloadProp (payload : Json) (key : Str) : Option (Option Json) :=
  match payload with
  | .null => none
  | v => some (v.getProp key)

/-- The four fields of the handler. -/
structure Fields where
  to_ : Str
  replyTo : Str
  subject : Str
  text : Str
deriving DecidableEq, Repr

/-- The four `const` lines that read `to`, `replyTo`, `subject` and `text`, in the order
of the source; `none` when one of them throws. -/
def readFields (payload : Json) : Option Fields := do
  let to_ ← esc (← payloadProp payload "to".toList)
  let replyTo ← esc (← payloadProp payload "replyTo".toList)
  let subject ← esc (← payloadProp payload "subject".toList)
  let text ← esc (← payloadProp payload "text".toList)
  pure { to_ := to_, replyTo := replyTo, subject := subject, text := text }

/-- The message built by `new EmailMessage(from, to, text)`, `msg.setSubject(subject)`
and, when `replyTo` is not empty, `msg.headers.set("Reply-To", replyTo)`. -/
def draftOf (f : Fields) : Draft :=
  { from_ := "anfrage@weichware-lohr.de".toList, to_ := f.to_, text := f.text,
    subject := f.subject, replyTo := if f.replyTo.isEmpty then none else some f.replyTo }

/-- The handler from `new EmailMessage` on. -/
def sendMail (mailer : Draft → Delivery) (f : Fields) : Outcome :=
  let msg := draftOf f
  match mailer msg with
  | .sent => { response := some (jsonResponse 200 okBody), mail := some msg }
  | .failed error => { response := some (jsonResponse 500 (errorBody error)), mail := some msg }
  | .threw => { response := none, mail := some msg }

/-- The function `onRequestPost(ctx)` of `functions/api/hipster-mail.js`. -/
def onRequestPost (mailer : Draft → Delivery) (request : Request) : Outcome :=
  let origin := request.origin.getD []
  if !origin.isEmpty && origin != request.host then
    { response := some (jsonResponse 403 (errorBody "forbidden".toList)), mail := none }
  else
    match request.json with
    | none => { response := some (jsonResponse 400 (errorBody "bad json".toList)), mail := none }
    | some payload =>
      match readFields payload with
      | none => { response := none, mail := none }
      | some f =>
        if f.to_.isEmpty || f.subject.isEmpty || f.text.isEmpty then
          { response := some (jsonResponse 400 (errorBody "missing fields".toList)), mail := none }
        else sendMail mailer f

/-! ## Vocabulary and examples of the statements about the mail handler, the calendar
dates, the denylist and the line endings -/

/-- Example payload: an order with all four fields. -/
def orderPayload : Json :=
  .obj [("to".toList, .str "anfrage@weichware-lohr.de".toList),
        ("replyTo".toList, .str "kundin@example.org".toList),
        ("subject".toList, .str "Bestellung".toList),
        ("text".toList, .str "Zwei Flaschen Saft".toList)]

/-- The message that the handler builds for `orderPayload`. -/
def orderDraft : Draft :=
  { from_ := "anfrage@weichware-lohr.de".toList, to_ := "anfrage@weichware-lohr.de".toList,
    text := "Zwei Flaschen Saft".toList, subject := "Bestellung".toList,
    replyTo := some "kundin@example.org".toList }

/-- The response with status 403 and body `{"ok":false,"error":"forbidden"}`. -/
def forbidden : Response :=
  { status := 403, contentType := "application/json".toList,
    body := "\x7b\"ok\":false,\"error\":\"forbidden\"\x7d".toList }

/-- The response with status 400 and body `{"ok":false,"error":"missing fields"}`. -/
def missingFields : Response :=
  { status := 400, contentType := "application/json".toList,
    body := "\x7b\"ok\":false,\"error\":\"missing fields\"\x7d".toList }

/-- The text `esc` gives for the property `key` of a payload on which it returns. -/
def fieldText (payload : Json) (key : Str) : Str :=
  trim (replaceAllChar '\r' [] (jsOr (payload.getProp key) (.str [])).toJsString)

/-- The function `String` returns on the property `key` of the payload, or the property is
missing. -/
def fieldStringable (payload : Json) (key : Str) : Bool :=
  (jsOr (payload.getProp key) (.str [])).stringable

/-- Example payload: a recipient that `String` cannot convert, and no subject. -/
def brokenRecipientPayload : Json :=
  .obj [("to".toList, .obj [("toString".toList, .null)]), ("text".toList, .str "Hallo".toList)]

/-- The call `Array.isArray(v)`. -/
def Json.isArray : Json → Bool
  | .arr _ => true
  | _ => false

/-- The value is not a number with an empty text; `String` gives no number the empty
text. -/
def numberTextPresent : Json → Bool
  | .num n => !n.text.isEmpty
  | _ => true

/-- Six times the character U+1F600, which takes two UTF-16 code units. -/
def emojiDate : Str := List.replicate 6 (Char.ofNat 0x1f600)

/-- Example calendar folder: one event file whose date is the letter `a` followed by six
times U+1F600. -/
def emojiDateExample : List (Str × Option Json) :=
  [("a.json".toList, some (dateOnlyEvent ('a' :: emojiDate)))]

/-- Example calendar folder: one event file whose date is the empty array. -/
def arrayDateExample : List (Str × Option Json) :=
  [("a.json".toList, some (.obj [("date".toList, .arr [])]))]

/-- The roles as `pickFiles` chooses them when the denylist filter is left out: every
`find` runs on all the names.  This is the selection that the claim compares `pickFiles`
with. -/
def pickFilesUnfiltered (fileNames : List Str) : PickedFiles :=
  let files := fileNames
  let cover := (files.find? IMG_RE).getD []
  let excerptFile :=
    strOr ((files.find? fun f => toLowerCase f == "excerpt.txt".toList).getD [])
      ((files.find? TXT_RE).getD [])
  let htmlFile := (files.find? HTML_RE).getD []
  let mdFile := (files.find? MD_RE).getD []
  { files := files, cover := cover, excerptFile := excerptFile,
    contentFile := strOr htmlFile mdFile }

/-- The three roles of a selection. -/
def PickedFiles.roles (p : PickedFiles) : Str × Str × Str := (p.cover, p.excerptFile, p.contentFile)

/-- No alternative of one list, with its dot, is the end of an alternative of the other
list with its dot. -/
def extsApart (as bs : List Str) : Bool :=
  as.all fun a => bs.all fun b =>
    !(('.' :: a).isSuffixOf ('.' :: b)) && !(('.' :: b).isSuffixOf ('.' :: a))

/-- The extensions of the denylist `IGNORE_RE`. -/
def ignoredExts : List Str :=
  ["odt".toList, "doc".toList, "docx".toList, "pdf".toList, "psd".toList, "ai".toList]

/-- The same text with every line feed replaced by a carriage return and a line feed. -/
def withCRLF (md : Str) : Str := replaceAllChar '\n' "\r\n".toList md

/-- The condition on the text `x` of a line `- x` under which `mdToHtml` renders the line
as a list entry: `x` lies on one line, is not blank, and holds no line terminator between
its first and its last character that is not white space. -/
def ItemText (x : Str) : Prop :=
  '\n' ∉ x ∧ trim x ≠ [] ∧ ∀ c ∈ trim x, isLineTerminator c = false

/-! # Theorems -/

/-! ## `escapeHtml` -/

theorem replaceAllChar_nil (c : Char) (r : Str) : replaceAllChar c r [] = [] := rfl

theorem replaceAllChar_append (c : Char) (r a b : Str) :
    replaceAllChar c r (a ++ b) = replaceAllChar c r a ++ replaceAllChar c r b := by
  simp [replaceAllChar, List.flatMap_append]

theorem replaceAllChar_cons (c : Char) (r : Str) (x : Char) (s : Str) :
    replaceAllChar c r (x :: s) = (if x = c then r else [x]) ++ replaceAllChar c r s := by
  simp [replaceAllChar, List.flatMap_cons]

theorem escapeHtml_nil : escapeHtml [] = [] := rfl

theorem escapeHtml_cons (c : Char) (s : Str) :
    escapeHtml (c :: s) = escapeChar c ++ escapeHtml s := by
  unfold escapeHtml escapeChar
  rw [replaceAllChar_cons]
  by_cases h1 : c = '&'
  · subst h1
    simp [replaceAllChar_append, replaceAllChar_cons, replaceAllChar_nil]
  · by_cases h2 : c = '<'
    · subst h2
      simp [replaceAllChar_append, replaceAllChar_cons, replaceAllChar_nil]
    · by_cases h3 : c = '>'
      · subst h3
        simp [replaceAllChar_append, replaceAllChar_cons, replaceAllChar_nil]
      · by_cases h4 : c = '"'
        · subst h4
          simp [replaceAllChar_append, replaceAllChar_cons, replaceAllChar_nil]
        · simp [replaceAllChar_append, replaceAllChar_cons, replaceAllChar_nil, h1, h2, h3, h4]

theorem escapeHtml_eq_flatMap (s : Str) : escapeHtml s = s.flatMap escapeChar := by
  induction s with
  | nil => rfl
  | cons c s ih => rw [escapeHtml_cons, ih, List.flatMap_cons]

theorem escapeHtml_append (a b : Str) : escapeHtml (a ++ b) = escapeHtml a ++ escapeHtml b := by
  simp [escapeHtml_eq_flatMap, List.flatMap_append]

theorem unescapeHtml_cons_of_ne (c : Char) (rest : Str) (h : c ≠ '&') :
    unescapeHtml (c :: rest) = c :: unescapeHtml rest := by
  rw [unescapeHtml]
  all_goals simp_all

theorem unescape_escapeChar (c : Char) (rest : Str) :
    unescapeHtml (escapeChar c ++ rest) = c :: unescapeHtml rest := by
  unfold escapeChar
  split_ifs with h1 h2 h3 h4
  · subst h1; simp [unescapeHtml]
  · subst h2; simp [unescapeHtml]
  · subst h3; simp [unescapeHtml]
  · subst h4; simp [unescapeHtml]
  · exact unescapeHtml_cons_of_ne c rest h1

theorem escapeChar_no_special (c x : Char) (hx : x ∈ escapeChar c) :
    x ≠ '<' ∧ x ≠ '>' ∧ x ≠ '"' := by
  unfold escapeChar at hx
  split_ifs at hx with h1 h2 h3 h4
  · simp at hx; rcases hx with h | h | h | h | h <;> subst h <;> decide
  · simp at hx; rcases hx with h | h | h | h <;> subst h <;> decide
  · simp at hx; rcases hx with h | h | h | h <;> subst h <;> decide
  · simp at hx; rcases hx with h | h | h | h | h | h <;> subst h <;> decide
  · simp at hx; subst hx; exact ⟨h2, h3, h4⟩

/-! ## Occurrences of a character that begin a pattern -/

theorem beginsPattern_of_not_mem (pats : List Str) (c : Char) (s : Str) (h : c ∉ s) :
    BeginsPattern pats c s := by
  intro i hi
  exact absurd (List.getElem?_mem hi) h

theorem beginsPattern_append (pats : List Str) (c : Char) (a b : Str)
    (ha : BeginsPattern pats c a) (hb : BeginsPattern pats c b) :
    BeginsPattern pats c (a ++ b) := by
  intro i hi
  by_cases hlt : i < a.length
  · rw [List.getElem?_append_left hlt] at hi
    obtain ⟨p, hp, hpre⟩ := ha i hi
    refine ⟨p, hp, ?_⟩
    rw [List.drop_append_of_le_length (le_of_lt hlt)]
    exact hpre.trans (List.prefix_append _ _)
  · have hge : a.length ≤ i := not_lt.mp hlt
    rw [List.getElem?_append_right hge] at hi
    obtain ⟨p, hp, hpre⟩ := hb _ hi
    refine ⟨p, hp, ?_⟩
    rw [List.drop_append_eq_append_drop, List.drop_of_length_le hge, List.nil_append]
    exact hpre

theorem beginsPattern_pattern (pats : List Str) (c : Char) (p : Str) (hp : p ∈ pats)
    (h0 : c ∉ p.tail) : BeginsPattern pats c p := by
  intro i hi
  cases i with
  | zero => exact ⟨p, hp, by simp⟩
  | succ j =>
    cases p with
    | nil => simp at hi
    | cons x t =>
      simp at hi
      exact absurd (List.getElem?_mem hi) h0

theorem beginsPattern_flatMap {α : Type} (pats : List Str) (c : Char) (f : α → Str) (l : List α)
    (h : ∀ a ∈ l, BeginsPattern pats c (f a)) : BeginsPattern pats c (l.flatMap f) := by
  induction l with
  | nil => intro i hi; simp at hi
  | cons a l ih =>
    rw [List.flatMap_cons]
    exact beginsPattern_append pats c _ _ (h a (List.mem_cons_self a l))
      (ih (fun b hb => h b (List.mem_cons_of_mem a hb)))

theorem beginsPattern_escapeChar (c : Char) : BeginsPattern entities '&' (escapeChar c) := by
  unfold escapeChar
  split_ifs with h1 h2 h3 h4
  · exact beginsPattern_pattern _ _ _ (by decide) (by decide)
  · exact beginsPattern_pattern _ _ _ (by decide) (by decide)
  · exact beginsPattern_pattern _ _ _ (by decide) (by decide)
  · exact beginsPattern_pattern _ _ _ (by decide) (by decide)
  · exact beginsPattern_of_not_mem _ _ _ (by simpa using Ne.symm h1)

/-! ## The loop of `mdToHtml` as a recursion over the lines -/

theorem flushList_html (st : MdState) : (flushList st).html = st.html ++ closeUl st.inList := by
  unfold flushList closeUl
  cases st.inList <;> simp

theorem flushList_inList (st : MdState) : (flushList st).inList = false := by
  unfold flushList
  cases h : st.inList <;> simp [h]

theorem mdStep_eq (st : MdState) (raw : Str) :
    mdStep st raw =
      { html := st.html ++ emitText st.inList (classify raw), inList := emitFlag (classify raw) } := by
  obtain ⟨h, b⟩ := st
  unfold mdStep classify
  simp only
  by_cases hb : (trim (trimEnd raw)).isEmpty = true
  · simp only [hb, if_true]
    cases b <;> simp [flushList, emitText, emitFlag, closeUl]
  · simp only [hb, if_false]
    cases hm : hMatch (trimEnd raw) with
    | some p =>
      obtain ⟨level, text⟩ := p
      cases b <;> simp [flushList, emitText, emitFlag, closeUl]
    | none =>
      cases hl : liMatch (trimEnd raw) with
      | some text => cases b <;> simp [emitText, emitFlag]
      | none => cases b <;> simp [flushList, emitText, emitFlag, closeUl]

theorem foldl_mdStep (lines : List Str) (st : MdState) :
    (flushList (lines.foldl mdStep st)).html = st.html ++ render st.inList lines := by
  induction lines generalizing st with
  | nil => simp [render, flushList_html]
  | cons raw rest ih =>
    rw [List.foldl_cons, ih, mdStep_eq]
    simp [render]

theorem mdToHtml_eq_render (md : Str) :
    mdToHtml md = trim (render false (splitLines (replaceCRLF md))) := by
  unfold mdToHtml
  simp only
  rw [foldl_mdStep]
  simp

/-! ## The characters of escaped text -/

theorem escapeHtml_no_special (s : Str) (x : Char) (hx : x ∈ escapeHtml s) :
    x ≠ '<' ∧ x ≠ '>' ∧ x ≠ '"' := by
  rw [escapeHtml_eq_flatMap, List.mem_flatMap] at hx
  obtain ⟨c, _, hc⟩ := hx
  exact escapeChar_no_special c x hc

theorem unescapeHtml_escapeHtml (s : Str) : unescapeHtml (escapeHtml s) = s := by
  induction s with
  | nil => rfl
  | cons c s ih => rw [escapeHtml_cons, unescape_escapeChar, ih]

/-- C6: the output of `escapeHtml` holds none of `<`, `>`, `"`; each `&` in it begins one
of the four entities; reading the entities back gives the input; and the output is the
input with each of `&`, `<`, `>`, `"` replaced by its entity and nothing else changed. -/
theorem escapeHtml_spec (s : Str) :
    ('<' ∉ escapeHtml s ∧ '>' ∉ escapeHtml s ∧ '"' ∉ escapeHtml s)
    ∧ (∀ i : Nat, (escapeHtml s)[i]? = some '&' →
        ∃ e ∈ entities, e <+: (escapeHtml s).drop i)
    ∧ unescapeHtml (escapeHtml s) = s
    ∧ escapeHtml s = s.flatMap escapeChar := by
  refine ⟨⟨?_, ?_, ?_⟩, ?_, unescapeHtml_escapeHtml s, escapeHtml_eq_flatMap s⟩
  · exact fun h => (escapeHtml_no_special s _ h).1 rfl
  · exact fun h => (escapeHtml_no_special s _ h).2.1 rfl
  · exact fun h => (escapeHtml_no_special s _ h).2.2 rfl
  · have h : BeginsPattern entities '&' (escapeHtml s) := by
      rw [escapeHtml_eq_flatMap]
      exact beginsPattern_flatMap _ _ _ _ (fun c _ => beginsPattern_escapeChar c)
    exact h

/-- C6 at the input `a<b & "c">`. -/
theorem escapeHtml_spec_witness :
    escapeHtml "a<b & \"c\">".toList = "a&lt;b &amp; &quot;c&quot;&gt;".toList
    ∧ unescapeHtml (escapeHtml "a<b & \"c\">".toList) = "a<b & \"c\">".toList :=
  ⟨by decide, (escapeHtml_spec "a<b & \"c\">".toList).2.2.1⟩

/-! ## Trimming the accumulated text -/

theorem trimEnd_append_ws (s : Str) (c : Char) (h : isWhiteSpace c = true) :
    trimEnd (s ++ [c]) = trimEnd s := by
  simp [trimEnd, List.dropWhile_cons, h]

theorem trimEnd_append_not_ws (s : Str) (c : Char) (h : isWhiteSpace c = false) :
    trimEnd (s ++ [c]) = s ++ [c] := by
  simp [trimEnd, List.dropWhile_cons, h]

theorem trimStart_cons_not_ws (s : Str) (c : Char) (h : isWhiteSpace c = false) :
    trimStart (c :: s) = c :: s := by
  simp [trimStart, List.dropWhile_cons, h]

theorem trim_chunk (mid : Str) : trim ('<' :: (mid ++ ['>', '\n'])) = '<' :: (mid ++ ['>']) := by
  unfold trim
  rw [trimStart_cons_not_ws _ _ (by decide)]
  have e : '<' :: (mid ++ ['>', '\n']) = (('<' :: mid) ++ ['>']) ++ ['\n'] := by simp
  rw [e, trimEnd_append_ws _ _ (by decide), trimEnd_append_not_ws _ _ (by decide)]
  simp

theorem trim_of_chunked (s : Str) (h : Chunked s) : trim s = s.dropLast := by
  rcases h with h | ⟨mid, h⟩
  · subst h; rfl
  · subst h
    rw [trim_chunk]
    have e : '<' :: (mid ++ ['>', '\n']) = (('<' :: mid) ++ ['>']) ++ ['\n'] := by simp
    rw [e, List.dropLast_concat]
    simp

theorem chunked_nil : Chunked [] := Or.inl rfl

theorem chunked_append (a b : Str) (ha : Chunked a) (hb : Chunked b) : Chunked (a ++ b) := by
  rcases ha with ha | ⟨m1, ha⟩
  · subst ha; simpa using hb
  · rcases hb with hb | ⟨m2, hb⟩
    · subst hb; simpa using Or.inr ⟨m1, ha⟩
    · subst ha; subst hb
      exact Or.inr ⟨m1 ++ ['>', '\n'] ++ '<' :: m2, by simp⟩

theorem chunked_closeUl (b : Bool) : Chunked (closeUl b) := by
  cases b
  · exact Or.inl rfl
  · exact Or.inr ⟨"/ul".toList, by decide⟩

theorem chunked_headingHtml (level : Nat) (text : Str) : Chunked (headingHtml level text) :=
  Or.inr ⟨"h".toList ++ Nat.toDigits 10 level ++ ">".toList ++ escapeHtml text
    ++ "</h".toList ++ Nat.toDigits 10 level, by simp [headingHtml]⟩

theorem chunked_liHtml (text : Str) : Chunked (liHtml text) :=
  Or.inr ⟨"li>".toList ++ escapeHtml text ++ "</li".toList, by simp [liHtml]⟩

theorem chunked_pHtml (line : Str) : Chunked (pHtml line) :=
  Or.inr ⟨"p>".toList ++ escapeHtml line ++ "</p".toList, by simp [pHtml]⟩

theorem chunked_emitText (b : Bool) (k : LineKind) : Chunked (emitText b k) := by
  cases k with
  | blank => exact chunked_closeUl b
  | heading level text => exact chunked_append _ _ (chunked_closeUl b) (chunked_headingHtml _ _)
  | item text =>
    refine chunked_append _ _ ?_ (chunked_liHtml _)
    cases b
    · exact Or.inr ⟨"ul".toList, by decide⟩
    · exact Or.inl rfl
  | para line => exact chunked_append _ _ (chunked_closeUl b) (chunked_pHtml _)

theorem chunked_render (lines : List Str) (b : Bool) : Chunked (render b lines) := by
  induction lines generalizing b with
  | nil => exact chunked_closeUl b
  | cons raw rest ih => exact chunked_append _ _ (chunked_emitText _ _) (ih _)

theorem mdToHtml_eq_dropLast (md : Str) :
    mdToHtml md = (render false (splitLines (replaceCRLF md))).dropLast := by
  rw [mdToHtml_eq_render, trim_of_chunked _ (chunked_render _ _)]

/-! ## Trimming, blank lines, and inputs of one line -/

theorem trimEnd_eq_rdropWhile (s : Str) : trimEnd s = s.rdropWhile isWhiteSpace := rfl

theorem trimEnd_eq_self (s : Str) (h : ∀ c ∈ s.getLast?, isWhiteSpace c = false) :
    trimEnd s = s := by
  rw [trimEnd_eq_rdropWhile, List.rdropWhile_eq_self_iff]
  intro hl
  have := h (s.getLast hl) (by simp [List.getLast?_eq_getLast _ hl])
  simp [this]

theorem trimEnd_eq_nil_iff (s : Str) : trimEnd s = [] ↔ ∀ c ∈ s, isWhiteSpace c = true := by
  rw [trimEnd_eq_rdropWhile, List.rdropWhile_eq_nil_iff]

theorem trimEnd_initial (s : Str) : trimEnd s <+: s := by
  rw [trimEnd_eq_rdropWhile]; exact List.rdropWhile_prefix _ _

theorem trimEnd_getLast_not_ws (s : Str) (c : Char) (h : c ∈ (trimEnd s).getLast?) :
    isWhiteSpace c = false := by
  have hne : trimEnd s ≠ [] := by
    intro e; rw [e] at h; simp at h
  have h2 : ¬ isWhiteSpace ((trimEnd s).getLast hne) = true :=
    List.rdropWhile_last_not isWhiteSpace s hne
  rw [List.getLast?_eq_getLast _ hne] at h
  simp at h
  rw [← h]
  simpa using h2

theorem trimEnd_idem (s : Str) : trimEnd (trimEnd s) = trimEnd s :=
  trimEnd_eq_self _ (trimEnd_getLast_not_ws s)

theorem trimStart_eq_nil_iff (s : Str) : trimStart s = [] ↔ ∀ c ∈ s, isWhiteSpace c = true := by
  simp [trimStart, List.dropWhile_eq_nil_iff]

theorem trim_eq_nil_iff (s : Str) : trim s = [] ↔ ∀ c ∈ s, isWhiteSpace c = true := by
  unfold trim
  rw [trimEnd_eq_nil_iff]
  constructor
  · intro h
    rw [← trimStart_eq_nil_iff]
    by_contra hne
    have h1 := List.head_dropWhile_not isWhiteSpace s hne
    have h2 := h _ (List.head_mem hne)
    unfold trimStart at h2
    rw [h1] at h2
    exact Bool.noConfusion h2
  · intro h c hc
    exact h c ((List.dropWhile_sublist _).subset hc)

theorem blank_iff (raw : Str) :
    (trim (trimEnd raw)).isEmpty = true ↔ ∀ c ∈ raw, isWhiteSpace c = true := by
  rw [List.isEmpty_iff, trim_eq_nil_iff]
  constructor
  · intro h
    rw [← trimEnd_eq_nil_iff]
    by_contra hne
    have h1 := trimEnd_getLast_not_ws raw ((trimEnd raw).getLast hne)
      (by simp [List.getLast?_eq_getLast _ hne])
    have h2 := h _ (List.getLast_mem hne)
    rw [h1] at h2
    exact Bool.noConfusion h2
  · intro h c hc
    exact h c ((trimEnd_initial raw).subset hc)

theorem replaceCRLF_of_no_lf (s : Str) (h : '\n' ∉ s) : replaceCRLF s = s := by
  induction s with
  | nil => rfl
  | cons c rest ih =>
    have hr : '\n' ∉ rest := fun hm => h (List.mem_cons_of_mem _ hm)
    rw [replaceCRLF]
    · rw [ih hr]
    · intro r hc
      intro e
      cases e
      exact h (by simp)

theorem splitLines_of_no_lf (s : Str) (h : '\n' ∉ s) : splitLines s = [s] := by
  induction s with
  | nil => rfl
  | cons c rest ih =>
    have hr : '\n' ∉ rest := fun hm => h (List.mem_cons_of_mem _ hm)
    have hc : c ≠ '\n' := fun e => h (by simp [e])
    simp [splitLines, hc, ih hr]

theorem not_lf_of_not_lineTerminator (c : Char) (h : isLineTerminator c = false) : c ≠ '\n' := by
  intro e; subst e; exact absurd h (by decide)

theorem not_ws_of_eq_hash : isWhiteSpace '#' = false := by decide

/-! ## Heading lines -/

theorem dropWhile_ws_of_head (t : Str) (h : ∀ c ∈ t.head?, isWhiteSpace c = false) :
    t.dropWhile isWhiteSpace = t := by
  cases t with
  | nil => rfl
  | cons c r => simp [List.dropWhile_cons, h c (by simp)]

theorem hMatch_of_shape (n : Nat) (ws text : Str) (h1 : 1 ≤ n) (h3 : n ≤ 3)
    (hws : ws ≠ []) (hall : ∀ c ∈ ws, isWhiteSpace c = true)
    (hhead : ∀ c ∈ text.head?, isWhiteSpace c = false)
    (hlt : ∀ c ∈ text, isLineTerminator c = false) :
    hMatch (List.replicate n '#' ++ (ws ++ text)) = some (n, text) := by
  have hrest : ∀ c ∈ (ws ++ text).head?, (c == '#') = false := by
    intro c hc
    cases ws with
    | nil => exact absurd rfl hws
    | cons w r =>
      simp at hc
      subst hc
      have := hall w (by simp)
      by_contra hx
      simp at hx
      subst hx
      exact absurd this (by decide)
  have htake : (List.replicate n '#' ++ (ws ++ text)).takeWhile (· == '#') = List.replicate n '#' := by
    rw [List.takeWhile_append_of_pos (by simp)]
    cases hr : ws ++ text with
    | nil => simp
    | cons c r =>
      rw [hr] at hrest
      simp [List.takeWhile_cons, hrest c (by simp)]
  have hdrop : (List.replicate n '#' ++ (ws ++ text)).dropWhile (· == '#') = ws ++ text := by
    rw [List.dropWhile_append_of_pos (by simp)]
    cases hr : ws ++ text with
    | nil => simp
    | cons c r =>
      rw [hr] at hrest
      simp [List.dropWhile_cons, hrest c (by simp)]
  have htext : (ws ++ text).dropWhile isWhiteSpace = text := by
    rw [List.dropWhile_append_of_pos hall]
    exact dropWhile_ws_of_head text hhead
  have hh : (ws ++ text).head?.any isWhiteSpace = true := by
    cases ws with
    | nil => exact absurd rfl hws
    | cons w r => simpa using hall w (by simp)
  unfold hMatch
  simp only [htake, hdrop, htext, List.length_replicate]
  rw [if_pos]
  refine ⟨h1, h3, hh, ?_⟩
  rw [List.all_eq_true]
  intro c hc
  simp [hlt c hc]

theorem render_single (raw : Str) :
    (render false [raw]).dropLast = (emitText false (classify raw) ++ closeUl (emitFlag (classify raw))).dropLast := by
  simp [render]

theorem headingHtml_dropLast (n : Nat) (t : Str) :
    (headingHtml n t).dropLast =
      "<h".toList ++ Nat.toDigits 10 n ++ ">".toList ++ escapeHtml t
        ++ "</h".toList ++ Nat.toDigits 10 n ++ ">".toList := by
  have e : headingHtml n t = ("<h".toList ++ Nat.toDigits 10 n ++ ">".toList ++ escapeHtml t
        ++ "</h".toList ++ Nat.toDigits 10 n ++ ">".toList) ++ ['\n'] := by
    simp [headingHtml]
  rw [e, List.dropLast_concat]

/-- C1: a line of `n` hashes (`n` from 1 to 3), one space and a text `t` that is not
empty, holds no line terminator and neither starts nor ends with white space renders as
`<hn>`, the escaped text, `</hn>`. -/
theorem mdToHtml_heading (n : Nat) (t : Str) (h1 : 1 ≤ n) (h3 : n ≤ 3) (hne : t ≠ [])
    (hlt : ∀ c ∈ t, isLineTerminator c = false)
    (hhead : ∀ c ∈ t.head?, isWhiteSpace c = false)
    (hlast : ∀ c ∈ t.getLast?, isWhiteSpace c = false) :
    mdToHtml (List.replicate n '#' ++ ' ' :: t) =
      "<h".toList ++ Nat.toDigits 10 n ++ ">".toList ++ escapeHtml t
        ++ "</h".toList ++ Nat.toDigits 10 n ++ ">".toList := by
  have hnolf : '\n' ∉ List.replicate n '#' ++ ' ' :: t := by
    intro hm
    rw [List.mem_append] at hm
    rcases hm with hm | hm
    · exact absurd (List.eq_of_mem_replicate hm) (by decide)
    · rcases List.mem_cons.mp hm with hm | hm
      · exact absurd hm (by decide)
      · exact not_lf_of_not_lineTerminator _ (hlt _ hm) rfl
  have hlast2 : ∀ c ∈ (List.replicate n '#' ++ ' ' :: t).getLast?, isWhiteSpace c = false := by
    intro c hc
    apply hlast
    have e : List.replicate n '#' ++ ' ' :: t = (List.replicate n '#' ++ [' ']) ++ t := by simp
    rw [e, List.getLast?_append_of_ne_nil _ hne] at hc
    exact hc
  have htrim := trimEnd_eq_self _ hlast2
  have hm : hMatch (List.replicate n '#' ++ ' ' :: t) = some (n, t) :=
    hMatch_of_shape n [' '] t h1 h3 (by simp) (by simp; decide) hhead hlt
  have hnb : ¬ (trim (trimEnd (List.replicate n '#' ++ ' ' :: t))).isEmpty = true := by
    rw [blank_iff]
    intro hall
    obtain ⟨c, r, e⟩ := List.exists_cons_of_ne_nil hne
    have hc := hhead c (by simp [e])
    have := hall c (by simp [e])
    rw [hc] at this
    exact Bool.noConfusion this
  have hcl : classify (List.replicate n '#' ++ ' ' :: t) = .heading n t := by
    unfold classify
    rw [htrim] at hnb
    simp only [htrim, hm]
    rw [if_neg hnb]
  rw [mdToHtml_eq_dropLast, replaceCRLF_of_no_lf _ hnolf, splitLines_of_no_lf _ hnolf,
    render_single, hcl]
  simp only [emitText, emitFlag, closeUl, List.nil_append, List.append_nil, Bool.false_eq_true,
    if_false]
  exact headingHtml_dropLast n t

/-- C1 at `# Title`. -/
theorem mdToHtml_heading_witness :
    mdToHtml "# Title".toList = "<h1>Title</h1>".toList :=
  mdToHtml_heading 1 "Title".toList (by decide) (by decide) (by decide) (by decide)
    (by decide) (by decide)

/-! ## Paragraph lines -/

theorem takeWhile_eq_replicate (s : Str) :
    s.takeWhile (· == '#') = List.replicate (s.takeWhile (· == '#')).length '#' := by
  rw [List.eq_replicate_iff]
  refine ⟨rfl, ?_⟩
  intro b hb
  simpa using List.mem_takeWhile_imp hb

theorem hMatch_isSome_shape (q : Str) (h : (hMatch q).isSome = true) :
    ∃ n c r, 1 ≤ n ∧ n ≤ 3 ∧ isWhiteSpace c = true ∧ q = List.replicate n '#' ++ c :: r := by
  unfold hMatch at h
  simp only at h
  split_ifs at h with hc
  swap
  · exact absurd h (by simp)
  obtain ⟨h1, h3, hws, _⟩ := hc
  cases hd : q.dropWhile (· == '#') with
  | nil => rw [hd] at hws; simp at hws
  | cons c r =>
    rw [hd] at hws
    refine ⟨_, c, r, h1, h3, by simpa using hws, ?_⟩
    rw [← takeWhile_eq_replicate, ← hd, List.takeWhile_append_dropWhile]

theorem startsHeading_of_shape (n : Nat) (c : Char) (r : Str) (h1 : 1 ≤ n) (h3 : n ≤ 3)
    (hc : isWhiteSpace c = true) : startsHeading (List.replicate n '#' ++ c :: r) = true := by
  unfold startsHeading
  rw [List.any_eq_true]
  refine ⟨n, by interval_cases n <;> simp, ?_⟩
  simp [List.take_append_eq_append_take, List.drop_append_eq_append_drop, hc]

theorem hMatch_none_of_prefix (q s : Str) (hq : q <+: s) (h : startsHeading s = false) :
    hMatch q = none := by
  by_contra hne
  have hs : (hMatch q).isSome = true := by
    cases hq2 : hMatch q with
    | none => exact absurd hq2 hne
    | some v => rfl
  obtain ⟨n, c, r, h1, h3, hc, e⟩ := hMatch_isSome_shape q hs
  obtain ⟨x, hx⟩ := hq
  have : startsHeading s = true := by
    rw [← hx, e, List.append_assoc, List.cons_append]
    exact startsHeading_of_shape n c _ h1 h3 hc
  rw [h] at this
  exact Bool.noConfusion this

theorem liMatch_none_of_prefix (q s : Str) (hq : q <+: s) (h : startsListItem s = false) :
    liMatch q = none := by
  obtain ⟨x, hx⟩ := hq
  subst hx
  unfold liMatch
  split
  · rename_i rest
    cases rest with
    | nil => simp
    | cons c r =>
      have hc : isWhiteSpace c = false := by simpa [startsListItem] using h
      simp [hc]
  · rfl

theorem classify_para (p : Str) (hnb : ∃ c ∈ p, isWhiteSpace c = false)
    (hh : startsHeading p = false) (hl : startsListItem p = false) :
    classify p = .para (trimEnd p) := by
  have hb : ¬ (trim (trimEnd p)).isEmpty = true := by
    rw [blank_iff]
    intro hall
    obtain ⟨c, hc, hw⟩ := hnb
    rw [hall c hc] at hw
    exact Bool.noConfusion hw
  unfold classify
  simp only
  rw [if_neg hb, hMatch_none_of_prefix _ _ (trimEnd_initial p) hh,
    liMatch_none_of_prefix _ _ (trimEnd_initial p) hl]

theorem pHtml_dropLast (line : Str) :
    (pHtml line).dropLast = "<p>".toList ++ escapeHtml line ++ "</p>".toList := by
  have e : pHtml line = ("<p>".toList ++ escapeHtml line ++ "</p>".toList) ++ ['\n'] := by
    simp [pHtml]
  rw [e, List.dropLast_concat]

/-- C5 (as amended): a single line that is not blank, does not begin with one to three `#`
followed by white space and does not begin with `-` followed by white space renders as one
paragraph holding the escaped line without its trailing white space. -/
theorem mdToHtml_paragraph (s : Str) (hline : '\n' ∉ s)
    (hnb : ∃ c ∈ s, isWhiteSpace c = false)
    (hh : startsHeading s = false) (hl : startsListItem s = false) :
    mdToHtml s = "<p>".toList ++ escapeHtml (trimEnd s) ++ "</p>".toList := by
  rw [mdToHtml_eq_dropLast, replaceCRLF_of_no_lf _ hline, splitLines_of_no_lf _ hline,
    render_single, classify_para s hnb hh hl]
  simp only [emitText, emitFlag, closeUl, List.nil_append, List.append_nil, Bool.false_eq_true,
    if_false]
  exact pHtml_dropLast _

/-- C5 at `#### x`. -/
theorem mdToHtml_paragraph_witness :
    mdToHtml "#### x".toList = "<p>#### x</p>".toList :=
  mdToHtml_paragraph "#### x".toList (by decide) ⟨'#', by decide, by decide⟩ (by decide)
    (by decide)

/-- C5 as written fails at the line made of `-`, a tab and `x`: it is one line, not
blank, does not begin with `#` and does not begin with `-` and a space, yet it renders
as a list, not as a paragraph. -/
theorem mdToHtml_paragraph_counterexample :
    '\n' ∉ "-\tx".toList
    ∧ (∃ c ∈ "-\tx".toList, isWhiteSpace c = false)
    ∧ "-\tx".toList.head? ≠ some '#'
    ∧ startsDashSpace "-\tx".toList = false
    ∧ mdToHtml "-\tx".toList = "<ul>\n<li>x</li>\n</ul>".toList
    ∧ mdToHtml "-\tx".toList
        ≠ "<p>".toList ++ escapeHtml (trimEnd "-\tx".toList) ++ "</p>".toList := by
  refine ⟨by decide, ⟨'x', by decide, by decide⟩, by decide, by decide, by decide, by decide⟩

/-! ## The list pattern and lines joined by line feeds -/

theorem liMatch_of_shape (ws text : Str) (hws : ws ≠ [])
    (hall : ∀ c ∈ ws, isWhiteSpace c = true)
    (hhead : ∀ c ∈ text.head?, isWhiteSpace c = false)
    (hlt : ∀ c ∈ text, isLineTerminator c = false) :
    liMatch ('-' :: (ws ++ text)) = some text := by
  have htext : (ws ++ text).dropWhile isWhiteSpace = text := by
    rw [List.dropWhile_append_of_pos hall]
    exact dropWhile_ws_of_head text hhead
  have hh : (ws ++ text).head?.any isWhiteSpace = true := by
    cases ws with
    | nil => exact absurd rfl hws
    | cons w r => simpa using hall w (by simp)
  have hallt : text.all (fun c => !isLineTerminator c) = true := by
    rw [List.all_eq_true]
    intro c hc
    simp [hlt c hc]
  simp only [liMatch, htext, hh, hallt, and_self, if_true]

theorem hMatch_dash (r : Str) : hMatch ('-' :: r) = none := by
  simp [hMatch, List.takeWhile_cons]

theorem splitLines_line (a b : Str) (hn : '\n' ∉ a) :
    splitLines (a ++ '\n' :: b) = a :: splitLines b := by
  induction a with
  | nil => simp [splitLines]
  | cons c rest ih =>
    have hc : c ≠ '\n' := fun e => hn (by simp [e])
    simp [splitLines, hc, ih (fun hm => hn (List.mem_cons_of_mem _ hm))]

theorem intercalate_cons_append (l : Str) (ls : List Str) (p : Str) :
    List.intercalate ['\n'] (l :: (ls ++ [p])) = l ++ '\n' :: List.intercalate ['\n'] (ls ++ [p]) := by
  cases ls <;> simp [List.intercalate, List.intersperse]

/-! ## Every `<` of the output begins a tag -/

theorem lt_not_mem_escapeHtml (s : Str) : '<' ∉ escapeHtml s :=
  fun h => (escapeHtml_no_special s _ h).1 rfl

theorem beginsTag_tag (t : Str) (ht : t ∈ emittedTags) : BeginsPattern emittedTags '<' t := by
  apply beginsPattern_pattern _ _ _ ht
  simp only [emittedTags, List.mem_cons, List.mem_singleton, List.not_mem_nil, or_false] at ht
  rcases ht with h | h | h | h | h | h | h | h | h | h | h | h <;> subst h <;> decide

theorem beginsTag_wrapped (o c text : Str) (ho : o ∈ emittedTags) (hc : c ∈ emittedTags) :
    BeginsPattern emittedTags '<' (o ++ escapeHtml text ++ c ++ ['\n']) := by
  refine beginsPattern_append _ _ _ _ (beginsPattern_append _ _ _ _
    (beginsPattern_append _ _ _ _ (beginsTag_tag o ho) ?_) (beginsTag_tag c hc)) ?_
  · exact beginsPattern_of_not_mem _ _ _ (lt_not_mem_escapeHtml text)
  · exact beginsPattern_of_not_mem _ _ _ (by decide)

theorem beginsTag_closeUl (b : Bool) : BeginsPattern emittedTags '<' (closeUl b) := by
  cases b
  · exact beginsPattern_of_not_mem _ _ _ (by simp [closeUl])
  · exact beginsPattern_append _ _ "</ul>".toList ['\n'] (beginsTag_tag _ (by decide))
      (beginsPattern_of_not_mem _ _ _ (by decide))

theorem beginsTag_headingHtml (level : Nat) (text : Str) (h1 : 1 ≤ level) (h3 : level ≤ 3) :
    BeginsPattern emittedTags '<' (headingHtml level text) := by
  interval_cases level
  · have e : headingHtml 1 text = "<h1>".toList ++ escapeHtml text ++ "</h1>".toList ++ ['\n'] := by
      simp [headingHtml, Nat.toDigits, Nat.toDigitsCore, Nat.digitChar]
    rw [e]; exact beginsTag_wrapped _ _ _ (by decide) (by decide)
  · have e : headingHtml 2 text = "<h2>".toList ++ escapeHtml text ++ "</h2>".toList ++ ['\n'] := by
      simp [headingHtml, Nat.toDigits, Nat.toDigitsCore, Nat.digitChar]
    rw [e]; exact beginsTag_wrapped _ _ _ (by decide) (by decide)
  · have e : headingHtml 3 text = "<h3>".toList ++ escapeHtml text ++ "</h3>".toList ++ ['\n'] := by
      simp [headingHtml, Nat.toDigits, Nat.toDigitsCore, Nat.digitChar]
    rw [e]; exact beginsTag_wrapped _ _ _ (by decide) (by decide)

theorem beginsTag_liHtml (text : Str) : BeginsPattern emittedTags '<' (liHtml text) := by
  have e : liHtml text = "<li>".toList ++ escapeHtml text ++ "</li>".toList ++ ['\n'] := by
    simp [liHtml]
  rw [e]; exact beginsTag_wrapped _ _ _ (by decide) (by decide)

theorem beginsTag_pHtml (line : Str) : BeginsPattern emittedTags '<' (pHtml line) := by
  have e : pHtml line = "<p>".toList ++ escapeHtml line ++ "</p>".toList ++ ['\n'] := by
    simp [pHtml]
  rw [e]; exact beginsTag_wrapped _ _ _ (by decide) (by decide)

theorem hMatch_level (q : Str) (level : Nat) (text : Str) (h : hMatch q = some (level, text)) :
    1 ≤ level ∧ level ≤ 3 := by
  unfold hMatch at h
  simp only at h
  split_ifs at h with hc
  simp only [Option.some.injEq, Prod.mk.injEq] at h
  rw [← h.1]
  exact ⟨hc.1, hc.2.1⟩

theorem classify_heading_level (raw : Str) (level : Nat) (text : Str)
    (h : classify raw = .heading level text) : 1 ≤ level ∧ level ≤ 3 := by
  unfold classify at h
  simp only at h
  by_cases hb : (trim (trimEnd raw)).isEmpty = true
  · rw [if_pos hb] at h; cases h
  · rw [if_neg hb] at h
    cases hm : hMatch (trimEnd raw) with
    | some v =>
      obtain ⟨l, t⟩ := v
      rw [hm] at h
      simp only [LineKind.heading.injEq] at h
      rw [← h.1]
      exact hMatch_level _ _ _ hm
    | none =>
      rw [hm] at h
      cases hl : liMatch (trimEnd raw) <;> rw [hl] at h <;> cases h

theorem beginsTag_emitText (b : Bool) (raw : Str) :
    BeginsPattern emittedTags '<' (emitText b (classify raw)) := by
  cases hk : classify raw with
  | blank => exact beginsTag_closeUl b
  | heading level text =>
    obtain ⟨h1, h3⟩ := classify_heading_level raw level text hk
    exact beginsPattern_append _ _ _ _ (beginsTag_closeUl b) (beginsTag_headingHtml _ _ h1 h3)
  | item text =>
    refine beginsPattern_append _ _ _ _ ?_ (beginsTag_liHtml text)
    cases b
    · exact beginsPattern_append _ _ "<ul>".toList ['\n'] (beginsTag_tag _ (by decide))
        (beginsPattern_of_not_mem _ _ _ (by decide))
    · exact beginsPattern_of_not_mem _ _ _ (by simp)
  | para line => exact beginsPattern_append _ _ _ _ (beginsTag_closeUl b) (beginsTag_pHtml _)

theorem beginsTag_render (lines : List Str) (b : Bool) :
    BeginsPattern emittedTags '<' (render b lines) := by
  induction lines generalizing b with
  | nil => exact beginsTag_closeUl b
  | cons raw rest ih => exact beginsPattern_append _ _ _ _ (beginsTag_emitText b raw) (ih _)

theorem beginsPattern_dropLast (pats : List Str) (c : Char) (s : Str)
    (hp : ∀ p ∈ pats, ∀ x ∈ s.getLast?, x ∉ p) (h : BeginsPattern pats c s) :
    BeginsPattern pats c s.dropLast := by
  rcases List.eq_nil_or_concat s with hs | ⟨body, x, hs⟩
  · subst hs; exact h
  · subst hs
    rw [List.concat_eq_append] at h hp ⊢
    rw [List.dropLast_concat]
    intro i hi
    have hlt : i < body.length := by
      by_contra hge
      rw [List.getElem?_eq_none (not_lt.mp hge)] at hi
      cases hi
    obtain ⟨p, hpm, hpre⟩ := h i (by rw [List.getElem?_append_left hlt]; exact hi)
    refine ⟨p, hpm, ?_⟩
    rw [List.drop_append_of_le_length (le_of_lt hlt), List.prefix_concat_iff] at hpre
    rcases hpre with hpre | hpre
    · exfalso
      exact hp p hpm x (by simp) (by rw [hpre]; simp)
    · exact hpre

theorem beginsTag_mdToHtml (md : Str) : BeginsPattern emittedTags '<' (mdToHtml md) := by
  rw [mdToHtml_eq_dropLast]
  apply beginsPattern_dropLast _ _ _ _ (beginsTag_render _ _)
  intro p hp x hx
  rcases chunked_render (splitLines (replaceCRLF md)) false with hc | ⟨mid, hc⟩
  · rw [hc] at hx; simp at hx
  · rw [hc] at hx
    have e : '<' :: (mid ++ ['>', '\n']) = ('<' :: mid ++ ['>']) ++ ['\n'] := by simp
    rw [e, List.getLast?_concat] at hx
    simp at hx
    subst hx
    simp only [emittedTags, List.mem_cons, List.mem_singleton, List.not_mem_nil, or_false] at hp
    rcases hp with h | h | h | h | h | h | h | h | h | h | h | h <;> subst h <;> decide

theorem script_not_prefix_with_tag (d t : Str) (ht : t ∈ emittedTags) (h1 : t <+: d)
    (h2 : "<script>".toList <+: d) : False := by
  obtain ⟨r1, e1⟩ := h1
  obtain ⟨r2, e2⟩ := h2
  rw [← e1] at e2
  simp only [emittedTags, List.mem_cons, List.mem_singleton, List.not_mem_nil, or_false] at ht
  rcases ht with h | h | h | h | h | h | h | h | h | h | h | h <;> subst h <;> simp at e2

/-- C3: every `<` in the output of `mdToHtml` is the first character of one of the tags
the renderer writes, and the text `<script>` occurs nowhere in the output. -/
theorem mdToHtml_lt_begins_tag (md : Str) :
    (∀ i : Nat, (mdToHtml md)[i]? = some '<' →
      ∃ t ∈ emittedTags, t <+: (mdToHtml md).drop i)
    ∧ ¬ ("<script>".toList <:+: mdToHtml md) := by
  refine ⟨beginsTag_mdToHtml md, ?_⟩
  intro hinf
  obtain ⟨a, b, e⟩ := hinf
  have hi : (mdToHtml md)[a.length]? = some '<' := by
    rw [← e, List.append_assoc, List.getElem?_append_right (le_refl _)]
    simp
  obtain ⟨t, ht, hpre⟩ := beginsTag_mdToHtml md a.length hi
  apply script_not_prefix_with_tag _ t ht hpre
  rw [← e]
  simp

/-- C3 at a line that holds a script tag. -/
theorem mdToHtml_lt_begins_tag_witness :
    mdToHtml "- <script>x</script>".toList
        = "<ul>\n<li>&lt;script&gt;x&lt;/script&gt;</li>\n</ul>".toList
    ∧ ¬ ("<script>".toList <:+: mdToHtml "- <script>x</script>".toList) :=
  ⟨by decide, (mdToHtml_lt_begins_tag "- <script>x</script>".toList).2⟩

/-! ## List blocks are closed -/

theorem tagAt_append (a b : Str) (ha : a ≠ []) (hb : Boundary b) : tagAt (a ++ b) = tagAt a := by
  have hb' : ∀ x r, b = x :: r → x ≠ 'u' ∧ x ≠ 'l' ∧ x ≠ '>' ∧ x ≠ '/' ∧ x ≠ 'i' := by
    intro x r e
    have := hb x (by simp [e])
    simpa using this
  unfold tagAt
  rcases a with _ | ⟨c1, _ | ⟨c2, _ | ⟨c3, _ | ⟨c4, _ | ⟨c5, a5⟩⟩⟩⟩⟩
  · exact absurd rfl ha
  all_goals
    rcases b with _ | ⟨x, r⟩
    · simp
    · obtain ⟨h1, h2, h3, h4, h5⟩ := hb' x r rfl
      simp [List.isPrefixOf, Ne.symm h1, Ne.symm h2, Ne.symm h3, Ne.symm h4, Ne.symm h5]

theorem listTags_append (a b : Str) (hb : Boundary b) :
    listTags (a ++ b) = listTags a ++ listTags b := by
  induction a with
  | nil => rfl
  | cons c rest ih =>
    have e : (c :: rest) ++ b = c :: (rest ++ b) := rfl
    rw [e, listTags, listTags, ih, ← e, tagAt_append _ _ (by simp) hb, List.append_assoc]

theorem tagAt_of_ne (c : Char) (s : Str) (h : c ≠ '<') : tagAt (c :: s) = [] := by
  have h' : ('<' == c) = false := by simpa using Ne.symm h
  simp [tagAt, List.isPrefixOf, h']

theorem listTags_of_not_mem (a b : Str) (h : '<' ∉ a) : listTags (a ++ b) = listTags b := by
  induction a with
  | nil => rfl
  | cons c rest ih =>
    have hc : c ≠ '<' := fun e => h (by simp [e])
    have e : (c :: rest) ++ b = c :: (rest ++ b) := rfl
    rw [e, listTags, tagAt_of_ne _ _ hc, ih (fun hm => h (List.mem_cons_of_mem _ hm))]
    rfl

theorem boundary_of_chunked (s : Str) (h : Chunked s) : Boundary s := by
  rcases h with h | ⟨mid, h⟩
  · subst h; intro c hc; simp at hc
  · subst h
    intro c hc
    simp at hc
    subst hc
    decide

theorem listTags_closeUl (b : Bool) :
    listTags (closeUl b) = if b then [.ulClose] else [] := by
  cases b <;> decide

theorem listTags_wrapped (o text c : Str) (ho : '<' ∉ o) :
    listTags (o ++ escapeHtml text ++ c) = listTags c := by
  rw [List.append_assoc, listTags_of_not_mem _ _ ho,
    listTags_of_not_mem _ _ (lt_not_mem_escapeHtml text)]

theorem listTags_headingHtml (level : Nat) (text : Str) (h1 : 1 ≤ level) (h3 : level ≤ 3) :
    listTags (headingHtml level text) = [] := by
  interval_cases level
  · have e : headingHtml 1 text = '<' :: ("h1>".toList ++ escapeHtml text ++ "</h1>\n".toList) := by
      simp [headingHtml, Nat.toDigits, Nat.toDigitsCore, Nat.digitChar]
    rw [e, listTags, listTags_wrapped _ _ _ (by decide)]
    simp [tagAt, List.isPrefixOf]
    decide
  · have e : headingHtml 2 text = '<' :: ("h2>".toList ++ escapeHtml text ++ "</h2>\n".toList) := by
      simp [headingHtml, Nat.toDigits, Nat.toDigitsCore, Nat.digitChar]
    rw [e, listTags, listTags_wrapped _ _ _ (by decide)]
    simp [tagAt, List.isPrefixOf]
    decide
  · have e : headingHtml 3 text = '<' :: ("h3>".toList ++ escapeHtml text ++ "</h3>\n".toList) := by
      simp [headingHtml, Nat.toDigits, Nat.toDigitsCore, Nat.digitChar]
    rw [e, listTags, listTags_wrapped _ _ _ (by decide)]
    simp [tagAt, List.isPrefixOf]
    decide

theorem listTags_pHtml (line : Str) : listTags (pHtml line) = [] := by
  have e : pHtml line = '<' :: ("p>".toList ++ escapeHtml line ++ "</p>\n".toList) := by
    simp [pHtml]
  rw [e, listTags, listTags_wrapped _ _ _ (by decide)]
  simp [tagAt, List.isPrefixOf]
  decide

theorem listTags_liHtml (text : Str) : listTags (liHtml text) = [.li] := by
  have e : liHtml text = '<' :: ("li>".toList ++ escapeHtml text ++ "</li>\n".toList) := by
    simp [liHtml]
  rw [e, listTags, listTags_wrapped _ _ _ (by decide)]
  simp [tagAt, List.isPrefixOf]
  decide

theorem listTags_emitText (b : Bool) (raw : Str) :
    listTags (emitText b (classify raw)) =
      match classify raw with
      | .item _ => (if b then [] else [.ulOpen]) ++ [.li]
      | _ => if b then [.ulClose] else [] := by
  cases hk : classify raw with
  | blank => exact listTags_closeUl b
  | heading level text =>
    obtain ⟨h1, h3⟩ := classify_heading_level raw level text hk
    simp only [emitText]
    rw [listTags_append _ _ (boundary_of_chunked _ (chunked_headingHtml _ _)),
      listTags_headingHtml _ _ h1 h3, listTags_closeUl, List.append_nil]
  | item text =>
    simp only [emitText]
    rw [listTags_append _ _ (boundary_of_chunked _ (chunked_liHtml _)), listTags_liHtml]
    cases b <;> simp <;> decide
  | para line =>
    simp only [emitText]
    rw [listTags_append _ _ (boundary_of_chunked _ (chunked_pHtml _)),
      listTags_pHtml, listTags_closeUl, List.append_nil]

theorem listBalanced_render (lines : List Str) (b : Bool) :
    listBalanced b (listTags (render b lines)) = true := by
  induction lines generalizing b with
  | nil => cases b <;> decide
  | cons raw rest ih =>
    rw [render, listTags_append _ _ (boundary_of_chunked _ (chunked_render _ _)),
      listTags_emitText]
    have ih' := ih (emitFlag (classify raw))
    cases hk : classify raw <;> rw [hk] at ih' <;> cases b <;>
      simpa [listBalanced, emitFlag] using ih'

theorem listTags_mdToHtml (md : Str) :
    listTags (mdToHtml md) = listTags (render false (splitLines (replaceCRLF md))) := by
  rw [mdToHtml_eq_dropLast]
  rcases chunked_render (splitLines (replaceCRLF md)) false with hc | ⟨mid, hc⟩
  · rw [hc]; rfl
  · rw [hc]
    have e : '<' :: (mid ++ ['>', '\n']) = ('<' :: mid ++ ['>']) ++ ['\n'] := by simp
    rw [e, List.dropLast_concat, listTags_append _ ['\n'] (by intro c hc; simp at hc; subst hc; decide)]
    simp [listTags, tagAt, List.isPrefixOf]

theorem listBalanced_count (evs : List ListTag) (b : Bool) (h : listBalanced b evs = true) :
    evs.count .ulOpen + (if b then 1 else 0) = evs.count .ulClose := by
  induction evs generalizing b with
  | nil => cases b <;> simp_all [listBalanced]
  | cons e r ih =>
    cases e <;> cases b <;> simp [listBalanced] at h
    · have := ih true h; simp at this; simp [List.count_cons]; omega
    · have := ih false h; simp at this; simp [List.count_cons]; omega
    · have := ih true h; simp at this; simp [List.count_cons]; omega

/-- C4: in the output of `mdToHtml` the occurrences of `<ul>` and `</ul>` alternate,
starting with `<ul>` and ending with `</ul>`, every `<li>` stands between a `<ul>` and
its `</ul>`, and there are as many `<ul>` as `</ul>`. -/
theorem mdToHtml_lists_closed (md : Str) :
    listBalanced false (listTags (mdToHtml md)) = true
    ∧ (listTags (mdToHtml md)).count .ulOpen = (listTags (mdToHtml md)).count .ulClose := by
  have h : listBalanced false (listTags (mdToHtml md)) = true := by
    rw [listTags_mdToHtml]
    exact listBalanced_render _ _
  exact ⟨h, by simpa using listBalanced_count _ _ h⟩

/-! ## The lexical order, the collation and the sort -/

theorem unitsLe_refl (a : Units) : unitsLe a a = true := by
  induction a with
  | nil => rfl
  | cons c r ih => simp [unitsLe, ih]

theorem lexLe_refl (a : Str) : lexLe a a = true := unitsLe_refl _

theorem strOr_nil (s : Str) : strOr s [] = s := by
  cases s <;> rfl

theorem jsSort_perm {α : Type} (cmp : α → α → Int) (l : List α) : (jsSort cmp l).Perm l :=
  List.perm_insertionSort _ l

theorem jsSort_pairwise {α : Type} (cmp : α → α → Int)
    (htot : ∀ a b, cmp a b ≤ 0 ∨ cmp b a ≤ 0)
    (htr : ∀ a b c, cmp a b ≤ 0 → cmp b c ≤ 0 → cmp a c ≤ 0) (l : List α) :
    (jsSort cmp l).Pairwise (fun a b => cmp a b ≤ 0) := by
  haveI : IsTotal α (fun a b => cmp a b ≤ 0) := ⟨htot⟩
  haveI : IsTrans α (fun a b => cmp a b ≤ 0) := ⟨htr⟩
  exact List.sorted_insertionSort (fun a b => cmp a b ≤ 0) l

theorem jsSort_stable {α : Type} (cmp : α → α → Int) (p : α → Bool)
    (hp : ∀ a b, p a = true → p b = true → cmp a b ≤ 0) (l : List α) :
    (jsSort cmp l).filter p = l.filter p := by
  have hpw : (l.filter p).Pairwise (fun a b => cmp a b ≤ 0) := by
    rw [List.pairwise_iff_forall_sublist]
    intro a b hab
    have ha : a ∈ l.filter p := hab.subset (by simp)
    have hb : b ∈ l.filter p := hab.subset (by simp)
    exact hp a b (List.mem_filter.mp ha).2 (List.mem_filter.mp hb).2
  have hsub : (l.filter p).Sublist (jsSort cmp l) :=
    List.sublist_insertionSort hpw (List.filter_sublist l)
  have hsub2 : (l.filter p).Sublist ((jsSort cmp l).filter p) := by
    have := hsub.filter p
    simpa [List.filter_filter] using this
  have hlen : ((jsSort cmp l).filter p).length = (l.filter p).length :=
    ((jsSort_perm cmp l).filter p).length_eq
  exact (hsub2.eq_of_length hlen.symm).symm

theorem jsSort_two_swap {α : Type} (cmp : α → α → Int) (a b : α) (hab : ¬ cmp a b ≤ 0) :
    jsSort cmp [a, b] = [b, a] := by
  simp [jsSort, List.insertionSort, List.orderedInsert, hab]

theorem jsSort_two_keep {α : Type} (cmp : α → α → Int) (a b : α) (hab : cmp a b ≤ 0) :
    jsSort cmp [a, b] = [a, b] := by
  simp [jsSort, List.insertionSort, List.orderedInsert, hab]

theorem jsSort_three_desc {α : Type} (cmp : α → α → Int) (a b c : α)
    (hab : cmp a b ≤ 0) (hbc : ¬ cmp b c ≤ 0) (hac : ¬ cmp a c ≤ 0) :
    jsSort cmp [a, b, c] = [c, a, b] := by
  simp [jsSort, List.insertionSort, List.orderedInsert, hab, hbc, hac]

theorem jsSort_three_asc {α : Type} (cmp : α → α → Int) (a b c : α)
    (hab : ¬ cmp a b ≤ 0) (hac : cmp a c ≤ 0) (hbc : cmp b c ≤ 0) :
    jsSort cmp [a, b, c] = [b, a, c] := by
  simp [jsSort, List.insertionSort, List.orderedInsert, hab, hbc, hac]

/-- A list sorted by a key in the order of the collation is sorted by that key in the
lexical order, if the collation orders the keys of the list as the lexical order does. -/
theorem pairwise_lexical {α : Type} (c : Collation) (key : α → Units) (l : List α)
    (hl : LexicalOn c (l.map key))
    (h : l.Pairwise (fun x y => c.compare (key x) (key y) ≤ 0)) :
    l.Pairwise (fun x y => unitsLe (key x) (key y) = true) :=
  h.imp_of_mem fun {x y} hx hy hxy =>
    (hl (key x) (List.mem_map_of_mem key hx) (key y) (List.mem_map_of_mem key hy)).mp hxy

theorem lexicalOn_perm {α : Type} (c : Collation) (key : α → Units) (l out : List α)
    (hp : out.Perm l) (hl : LexicalOn c (l.map key)) : LexicalOn c (out.map key) := by
  intro a ha b hb
  exact hl a ((hp.map key).mem_iff.mp ha) b ((hp.map key).mem_iff.mp hb)

/-! ## The content indexes, the merged feed and the activities list -/

theorem newestFirst_le_zero_iff (c : Collation) (a b : IndexItem) :
    newestFirst c a b ≤ 0 ↔ localeCompare c b.updated a.updated ≤ 0 := by
  unfold newestFirst
  rw [strOr_nil, strOr_nil]

theorem newestFirst_total (c : Collation) (a b : IndexItem) :
    newestFirst c a b ≤ 0 ∨ newestFirst c b a ≤ 0 := by
  rw [newestFirst_le_zero_iff, newestFirst_le_zero_iff]
  exact c.total _ _

theorem newestFirst_trans (c : Collation) (x y z : IndexItem) (h1 : newestFirst c x y ≤ 0)
    (h2 : newestFirst c y z ≤ 0) : newestFirst c x z ≤ 0 := by
  rw [newestFirst_le_zero_iff] at h1 h2 ⊢
  exact c.trans _ _ _ h2 h1

theorem jsSort_newestFirst_pairwise (c : Collation) (l : List IndexItem) :
    (jsSort (newestFirst c) l).Pairwise (fun x y => localeCompare c y.updated x.updated ≤ 0) := by
  have h := jsSort_pairwise (newestFirst c) (newestFirst_total c) (newestFirst_trans c) l
  exact h.imp (fun {a b} hab => (newestFirst_le_zero_iff c a b).mp hab)

theorem jsSort_newestFirst_lexical (c : Collation) (l : List IndexItem)
    (hl : LexicalOn c (l.map fun x => toUnits x.updated)) :
    (jsSort (newestFirst c) l).Pairwise (fun x y => lexLe y.updated x.updated = true) := by
  have hl2 := lexicalOn_perm c (fun x : IndexItem => toUnits x.updated) l _
    (jsSort_perm (newestFirst c) l) hl
  have h := jsSort_newestFirst_pairwise c l
  exact h.imp_of_mem fun {x y} hx hy hxy =>
    (hl2 _ (List.mem_map_of_mem _ hy) _ (List.mem_map_of_mem _ hx)).mp hxy

theorem jsSort_activities_pairwise (c : Collation) (l : List ActivityItem) :
    (jsSort (activityNewestFirst c) l).Pairwise
      (fun x y => localeCompare c y.updated.toJsString x.updated.toJsString ≤ 0) :=
  jsSort_pairwise (activityNewestFirst c) (fun _ _ => c.total _ _)
    (fun _ _ _ h1 h2 => c.trans _ _ _ h2 h1) l

theorem jsSort_activities_lexical (c : Collation) (l : List ActivityItem)
    (hl : LexicalOn c (l.map fun x => toUnits x.updated.toJsString)) :
    (jsSort (activityNewestFirst c) l).Pairwise
      (fun x y => lexLe y.updated.toJsString x.updated.toJsString = true) := by
  have hl2 := lexicalOn_perm c (fun x : ActivityItem => toUnits x.updated.toJsString) l _
    (jsSort_perm (activityNewestFirst c) l) hl
  have h := jsSort_activities_pairwise c l
  exact h.imp_of_mem fun {x y} hx hy hxy =>
    (hl2 _ (List.mem_map_of_mem _ hy) _ (List.mem_map_of_mem _ hx)).mp hxy

theorem jsSort_byDate_pairwise (c : Collation) (l : List CalendarItem) :
    (jsSort (byDate c) l).Pairwise (fun x y => c.compare x.date y.date ≤ 0) :=
  jsSort_pairwise (byDate c) (fun _ _ => c.total _ _) (fun _ _ _ h1 h2 => c.trans _ _ _ h1 h2) l

theorem jsSort_byDate_lexical (c : Collation) (l : List CalendarItem)
    (hl : LexicalOn c (l.map fun x => x.date)) :
    (jsSort (byDate c) l).Pairwise (fun x y => unitsLe x.date y.date = true) :=
  pairwise_lexical c (fun x : CalendarItem => x.date) _
    (lexicalOn_perm c (fun x : CalendarItem => x.date) l _ (jsSort_perm (byDate c) l) hl)
    (jsSort_byDate_pairwise c l)

theorem sortActivities_eq_some (c : Collation) (acts out : List ActivityItem)
    (h : sortActivities c acts = some out) : out = jsSort (activityNewestFirst c) acts := by
  unfold sortActivities at h
  split_ifs at h
  exact (Option.some.inj h).symm

theorem sortActivities_isSome (c : Collation) (acts : List ActivityItem)
    (h : ∀ a ∈ acts, a.updated.stringable = true) : (sortActivities c acts).isSome = true := by
  unfold sortActivities
  rw [if_neg]
  · rfl
  · rintro ⟨_, hany⟩
    rw [List.any_eq_true] at hany
    obtain ⟨a, ha, hna⟩ := hany
    rw [h a ha] at hna
    exact Bool.noConfusion hna

theorem buildBlogIndex_three_dates (c : Collation) (g : Str) (x y z : IndexItem)
    (hl : LexicalOn c [toUnits "2024-01-01".toList, toUnits "2023-05-05".toList,
      toUnits "2024-06-01".toList]) :
    (buildBlogIndex c g
        [{ x with updated := "2024-01-01".toList }, { y with updated := "2023-05-05".toList },
         { z with updated := "2024-06-01".toList }]).items
      = [{ z with updated := "2024-06-01".toList }, { x with updated := "2024-01-01".toList },
         { y with updated := "2023-05-05".toList }] := by
  unfold buildBlogIndex
  simp only
  have m1 : toUnits "2024-01-01".toList ∈ [toUnits "2024-01-01".toList,
      toUnits "2023-05-05".toList, toUnits "2024-06-01".toList] := List.mem_cons_self _ _
  have m2 : toUnits "2023-05-05".toList ∈ [toUnits "2024-01-01".toList,
      toUnits "2023-05-05".toList, toUnits "2024-06-01".toList] :=
    List.mem_cons_of_mem _ (List.mem_cons_self _ _)
  have m3 : toUnits "2024-06-01".toList ∈ [toUnits "2024-01-01".toList,
      toUnits "2023-05-05".toList, toUnits "2024-06-01".toList] :=
    List.mem_cons_of_mem _ (List.mem_cons_of_mem _ (List.mem_cons_self _ _))
  apply jsSort_three_desc
  · rw [newestFirst_le_zero_iff]
    show c.compare (toUnits "2023-05-05".toList) (toUnits "2024-01-01".toList) ≤ 0
    exact (hl _ m2 _ m1).mpr (by decide)
  · rw [newestFirst_le_zero_iff]
    show ¬ c.compare (toUnits "2024-06-01".toList) (toUnits "2023-05-05".toList) ≤ 0
    exact fun h => absurd ((hl _ m3 _ m2).mp h) (by decide)
  · rw [newestFirst_le_zero_iff]
    show ¬ c.compare (toUnits "2024-06-01".toList) (toUnits "2024-01-01".toList) ≤ 0
    exact fun h => absurd ((hl _ m3 _ m1).mp h) (by decide)

/-- C7 (amended): the items of the blog index, of the projects index and of the activities
list are a permutation of the resolved items in which each item's `updated` string is
greater than or equal to that of every item after it in the order of `localeCompare`; that
is the lexical order whenever the collation orders the `updated` strings of the items as
the lexical order does, and then resolved items with the `updated` values 2024-01-01,
2023-05-05, 2024-06-01 come out in the order third, first, second.  The sort of the
activities list returns whenever `String` returns on every `updated` value. -/
theorem content_index_sorted_desc (c : Collation) (g : Str) (items : List IndexItem)
    (acts : List ActivityItem) (x y z : IndexItem) :
    ((buildBlogIndex c g items).items.Perm items
      ∧ (buildBlogIndex c g items).items.Pairwise
          (fun a b => localeCompare c b.updated a.updated ≤ 0)
      ∧ (LexicalOn c (items.map fun a => toUnits a.updated) →
          (buildBlogIndex c g items).items.Pairwise
            (fun a b => lexLe b.updated a.updated = true)))
    ∧ ((buildProjectsIndex c g items).items.Perm items
      ∧ (buildProjectsIndex c g items).items.Pairwise
          (fun a b => localeCompare c b.updated a.updated ≤ 0)
      ∧ (LexicalOn c (items.map fun a => toUnits a.updated) →
          (buildProjectsIndex c g items).items.Pairwise
            (fun a b => lexLe b.updated a.updated = true)))
    ∧ ((∀ out, sortActivities c acts = some out →
          out.Perm acts
          ∧ out.Pairwise
              (fun a b => localeCompare c b.updated.toJsString a.updated.toJsString ≤ 0)
          ∧ (LexicalOn c (acts.map fun a => toUnits a.updated.toJsString) →
              out.Pairwise
                (fun a b => lexLe b.updated.toJsString a.updated.toJsString = true)))
      ∧ ((∀ a ∈ acts, a.updated.stringable = true) → (sortActivities c acts).isSome = true))
    ∧ (LexicalOn c [toUnits "2024-01-01".toList, toUnits "2023-05-05".toList,
          toUnits "2024-06-01".toList] →
        (buildBlogIndex c g
          [{ x with updated := "2024-01-01".toList }, { y with updated := "2023-05-05".toList },
           { z with updated := "2024-06-01".toList }]).items
        = [{ z with updated := "2024-06-01".toList }, { x with updated := "2024-01-01".toList },
           { y with updated := "2023-05-05".toList }]) := by
  refine ⟨⟨jsSort_perm _ _, jsSort_newestFirst_pairwise c _, jsSort_newestFirst_lexical c _⟩,
    ⟨jsSort_perm _ _, jsSort_newestFirst_pairwise c _, jsSort_newestFirst_lexical c _⟩,
    ⟨fun out hout => by
        rw [sortActivities_eq_some c acts out hout]
        exact ⟨jsSort_perm _ _, jsSort_activities_pairwise c _, jsSort_activities_lexical c _⟩,
      sortActivities_isSome c acts⟩,
    buildBlogIndex_three_dates c g x y z⟩

/-- C8: in the blog index and in the projects index the items that share an `updated`
value stand in the order they had among the resolved items, whatever the collation. -/
theorem content_index_stable (c : Collation) (g : Str) (items : List IndexItem) (u : Str) :
    (buildBlogIndex c g items).items.filter (fun x => x.updated == u)
        = items.filter (fun x => x.updated == u)
    ∧ (buildProjectsIndex c g items).items.filter (fun x => x.updated == u)
        = items.filter (fun x => x.updated == u) := by
  have h : (jsSort (newestFirst c) items).filter (fun x => x.updated == u)
      = items.filter (fun x => x.updated == u) := by
    apply jsSort_stable
    intro x y hx hy
    rw [newestFirst_le_zero_iff]
    simp only [beq_iff_eq] at hx hy
    rw [hx, hy]
    exact le_of_eq (c.self _)
  exact ⟨h, h⟩

/-- C9 (amended): the items of `mergeActivities` are a permutation of the blog items
followed by the project items (a missing `items` field counts as empty), each `updated`
string is greater than or equal to that of every later item in the order of
`localeCompare`, which is the lexical order whenever the collation orders the `updated`
strings of the items as the lexical order does, and among the items that share an
`updated` value the blog items come first, each group in its own order. -/
theorem mergeActivities_sorted (c : Collation) (g : Str) (blog project : Option (List IndexItem))
    (u : Str) :
    (mergeActivities c g blog project).items.Perm (blog.getD [] ++ project.getD [])
    ∧ (mergeActivities c g blog project).items.Pairwise
        (fun a b => localeCompare c b.updated a.updated ≤ 0)
    ∧ (LexicalOn c ((blog.getD [] ++ project.getD []).map fun a => toUnits a.updated) →
        (mergeActivities c g blog project).items.Pairwise
          (fun a b => lexLe b.updated a.updated = true))
    ∧ (mergeActivities c g blog project).items.filter (fun x => x.updated == u)
        = (blog.getD []).filter (fun x => x.updated == u)
          ++ (project.getD []).filter (fun x => x.updated == u) := by
  refine ⟨jsSort_perm _ _, jsSort_newestFirst_pairwise c _, jsSort_newestFirst_lexical c _, ?_⟩
  unfold mergeActivities
  simp only
  rw [← List.filter_append]
  apply jsSort_stable
  intro x y hx hy
  rw [newestFirst_le_zero_iff]
  simp only [beq_iff_eq] at hx hy
  rw [hx, hy]
  exact le_of_eq (c.self _)

/-! ## The calendar index -/

theorem calendarItem_dateOnly_date (f d : Str) (hd : d ≠ []) :
    (calendarItem f (dateOnlyEvent d)).date = slice10 d := by
  have ht : (Json.str d).truthy = true := by
    cases d with
    | nil => exact absurd rfl hd
    | cons c r => rfl
  simp [calendarItem, dateOnlyEvent, Json.getProp, jsOr, ht, Json.toJsString]

theorem calendarStep_dateOnly (items : List CalendarItem) (f d : Str) (hd : d ≠ []) :
    calendarStep items (f, some (dateOnlyEvent d))
      = some (items ++ [calendarItem f (dateOnlyEvent d)]) := by
  simp [calendarStep, dateOnlyEvent, Json.getProp, truthy?, Json.truthy, hd, jsOr,
    Json.stringable]

theorem buildCalendarIndex_eq_some (c : Collation) (g : Str)
    (dir : Option (List (Str × Option Json)))
    (idx : Index CalendarItem) (h : buildCalendarIndex c g dir = some idx) :
    idx.generatedAt = g ∧ ∃ items : List CalendarItem, idx.items = jsSort (byDate c) items := by
  cases dir with
  | none =>
    simp only [buildCalendarIndex, Option.some.injEq] at h
    subst h
    exact ⟨rfl, [], rfl⟩
  | some entries =>
    simp only [buildCalendarIndex, Option.map_eq_some'] at h
    obtain ⟨items, _, rfl⟩ := h
    exact ⟨rfl, items, rfl⟩

theorem buildCalendarIndex_three_dates (c : Collation) (g : Str)
    (hl : LexicalOn c [toUnits "2024-01-01".toList, toUnits "2023-05-05".toList,
      toUnits "2024-06-01".toList]) :
    (buildCalendarIndex c g (some
        [("a.json".toList, some (dateOnlyEvent "2024-01-01".toList)),
         ("b.json".toList, some (dateOnlyEvent "2023-05-05".toList)),
         ("c.json".toList, some (dateOnlyEvent "2024-06-01".toList))])).map
        (fun idx => idx.items.map (fun x => x.date))
      = some [toUnits "2023-05-05".toList, toUnits "2024-01-01".toList,
          toUnits "2024-06-01".toList] := by
  have hf : List.filter (fun e : Str × Option Json => isJsonFile e.1)
      [("a.json".toList, some (dateOnlyEvent "2024-01-01".toList)),
       ("b.json".toList, some (dateOnlyEvent "2023-05-05".toList)),
       ("c.json".toList, some (dateOnlyEvent "2024-06-01".toList))]
      = [("a.json".toList, some (dateOnlyEvent "2024-01-01".toList)),
       ("b.json".toList, some (dateOnlyEvent "2023-05-05".toList)),
       ("c.json".toList, some (dateOnlyEvent "2024-06-01".toList))] := by
    have h1 : isJsonFile "a.json".toList = true := by decide
    have h2 : isJsonFile "b.json".toList = true := by decide
    have h3 : isJsonFile "c.json".toList = true := by decide
    simp only [List.filter_cons, h1, h2, h3, if_true, List.filter_nil]
  have m1 : toUnits "2024-01-01".toList ∈ [toUnits "2024-01-01".toList,
      toUnits "2023-05-05".toList, toUnits "2024-06-01".toList] := List.mem_cons_self _ _
  have m2 : toUnits "2023-05-05".toList ∈ [toUnits "2024-01-01".toList,
      toUnits "2023-05-05".toList, toUnits "2024-06-01".toList] :=
    List.mem_cons_of_mem _ (List.mem_cons_self _ _)
  have m3 : toUnits "2024-06-01".toList ∈ [toUnits "2024-01-01".toList,
      toUnits "2023-05-05".toList, toUnits "2024-06-01".toList] :=
    List.mem_cons_of_mem _ (List.mem_cons_of_mem _ (List.mem_cons_self _ _))
  have s1 : slice10 "2024-01-01".toList = toUnits "2024-01-01".toList := by decide
  have s2 : slice10 "2023-05-05".toList = toUnits "2023-05-05".toList := by decide
  have s3 : slice10 "2024-06-01".toList = toUnits "2024-06-01".toList := by decide
  unfold buildCalendarIndex
  simp only [hf, List.foldlM_cons, List.foldlM_nil]
  rw [calendarStep_dateOnly _ _ _ (by decide)]
  simp only [Option.bind_eq_bind, Option.some_bind]
  rw [calendarStep_dateOnly _ _ _ (by decide)]
  simp only [Option.some_bind]
  rw [calendarStep_dateOnly _ _ _ (by decide)]
  simp only [Option.some_bind, List.nil_append, List.cons_append, pure, Option.map_some']
  rw [jsSort_three_asc]
  · simp only [List.map_cons, List.map_nil]
    rw [calendarItem_dateOnly_date _ _ (by decide), calendarItem_dateOnly_date _ _ (by decide),
      calendarItem_dateOnly_date _ _ (by decide), s1, s2, s3]
  · unfold byDate
    rw [calendarItem_dateOnly_date _ _ (by decide), calendarItem_dateOnly_date _ _ (by decide),
      s1, s2]
    exact fun h => absurd ((hl _ m1 _ m2).mp h) (by decide)
  · unfold byDate
    rw [calendarItem_dateOnly_date _ _ (by decide), calendarItem_dateOnly_date _ _ (by decide),
      s1, s3]
    exact (hl _ m1 _ m3).mpr (by decide)
  · unfold byDate
    rw [calendarItem_dateOnly_date _ _ (by decide), calendarItem_dateOnly_date _ _ (by decide),
      s2, s3]
    exact (hl _ m2 _ m3).mpr (by decide)

/-- C10 (amended): the items of the calendar index are in ascending order of their date
strings in the order of `localeCompare`: each date is less than or equal to that of every
later item.  That is the lexical order whenever the collation orders the dates of the
items as the lexical order does, and then event files with the dates 2024-01-01,
2023-05-05, 2024-06-01 come out as 2023-05-05, 2024-01-01, 2024-06-01. -/
theorem calendar_index_sorted_asc (c : Collation) (g : Str)
    (dir : Option (List (Str × Option Json))) :
    (∀ idx, buildCalendarIndex c g dir = some idx →
      idx.items.Pairwise (fun x y => c.compare x.date y.date ≤ 0)
      ∧ (LexicalOn c (idx.items.map fun x => x.date) →
          idx.items.Pairwise (fun x y => unitsLe x.date y.date = true)))
    ∧ (LexicalOn c [toUnits "2024-01-01".toList, toUnits "2023-05-05".toList,
          toUnits "2024-06-01".toList] →
        (buildCalendarIndex c g (some
          [("a.json".toList, some (dateOnlyEvent "2024-01-01".toList)),
           ("b.json".toList, some (dateOnlyEvent "2023-05-05".toList)),
           ("c.json".toList, some (dateOnlyEvent "2024-06-01".toList))])).map
          (fun idx => idx.items.map (fun x => x.date))
        = some [toUnits "2023-05-05".toList, toUnits "2024-01-01".toList,
            toUnits "2024-06-01".toList]) := by
  refine ⟨?_, buildCalendarIndex_three_dates c g⟩
  intro idx h
  obtain ⟨_, items, hi⟩ := buildCalendarIndex_eq_some c g dir idx h
  rw [hi]
  refine ⟨jsSort_byDate_pairwise c items, fun hl => ?_⟩
  exact pairwise_lexical c (fun x : CalendarItem => x.date) _ hl (jsSort_byDate_pairwise c items)

/-! ## The two line matchers accept the languages of their regular expressions -/

theorem greedy_split (ws text : Str) (hall : ∀ c ∈ ws, isWhiteSpace c = true)
    (hlt : ∀ c ∈ text, isLineTerminator c = false) :
    (∀ c ∈ ws ++ text.takeWhile isWhiteSpace, isWhiteSpace c = true)
    ∧ (∀ c ∈ (text.dropWhile isWhiteSpace).head?, isWhiteSpace c = false)
    ∧ (∀ c ∈ text.dropWhile isWhiteSpace, isLineTerminator c = false)
    ∧ ws ++ text = (ws ++ text.takeWhile isWhiteSpace) ++ text.dropWhile isWhiteSpace := by
  refine ⟨?_, ?_, ?_, ?_⟩
  · intro c hc
    rcases List.mem_append.mp hc with h | h
    · exact hall c h
    · exact List.mem_takeWhile_imp h
  · intro c hc
    have := List.head?_dropWhile_not isWhiteSpace text
    rw [Option.mem_def.mp hc] at this
    simpa using this
  · intro c hc
    exact hlt c ((List.dropWhile_sublist _).subset hc)
  · rw [List.append_assoc, List.takeWhile_append_dropWhile]

theorem hMatch_isSome_iff (line : Str) : (hMatch line).isSome = true ↔ HeadingRegex line := by
  constructor
  · intro h
    cases hm : hMatch line with
    | none => rw [hm] at h; exact absurd h (by simp)
    | some v =>
      obtain ⟨n, text⟩ := v
      have hc := hm
      unfold hMatch at hc
      simp only at hc
      split_ifs at hc with hcond
      obtain ⟨h1, h3, hws, hall⟩ := hcond
      simp only [Option.some.injEq, Prod.mk.injEq] at hc
      refine ⟨n, (line.dropWhile (· == '#')).takeWhile isWhiteSpace, text, ?_, ?_, ?_, ?_, ?_, ?_⟩
      · rw [← hc.1]; exact h1
      · rw [← hc.1]; exact h3
      · intro e
        cases hd : line.dropWhile (· == '#') with
        | nil => rw [hd] at hws; simp at hws
        | cons c r =>
          rw [hd] at hws e
          have hcw : isWhiteSpace c = true := by simpa using hws
          simp [List.takeWhile_cons, hcw] at e
      · intro c hcm
        exact List.mem_takeWhile_imp hcm
      · intro c hcm
        rw [← hc.2] at hcm
        have := List.all_eq_true.mp hall c hcm
        simpa using this
      · rw [← hc.1, ← hc.2, List.takeWhile_append_dropWhile, ← takeWhile_eq_replicate,
          List.takeWhile_append_dropWhile]
  · rintro ⟨n, ws, text, h1, h3, hws, hall, hlt, rfl⟩
    obtain ⟨g1, g2, g3, g4⟩ := greedy_split ws text hall hlt
    rw [g4, hMatch_of_shape n _ _ h1 h3 (by simp [hws]) g1 g2 g3]
    rfl

theorem liMatch_isSome_iff (line : Str) : (liMatch line).isSome = true ↔ ListItemRegex line := by
  constructor
  · intro h
    unfold liMatch at h
    split at h
    · rename_i rest
      simp only at h
      split_ifs at h with hcond
      swap
      · exact absurd h (by simp)
      obtain ⟨hws, hall⟩ := hcond
      refine ⟨rest.takeWhile isWhiteSpace, rest.dropWhile isWhiteSpace, ?_, ?_, ?_, ?_⟩
      · intro e
        cases rest with
        | nil => simp at hws
        | cons c r =>
          have hcw : isWhiteSpace c = true := by simpa using hws
          simp [List.takeWhile_cons, hcw] at e
      · intro c hcm
        exact List.mem_takeWhile_imp hcm
      · intro c hcm
        have := List.all_eq_true.mp hall c hcm
        simpa using this
      · rw [List.takeWhile_append_dropWhile]
    · exact absurd h (by simp)
  · rintro ⟨ws, text, hws, hall, hlt, rfl⟩
    obtain ⟨g1, g2, g3, g4⟩ := greedy_split ws text hall hlt
    rw [g4, liMatch_of_shape _ _ (by simp [hws]) g1 g2 g3]
    rfl

/-! ## One calendar item for each dated event file -/

theorem calendarStep_eq (items : List CalendarItem) (e : Str × Option Json)
    (hs : ∀ ev d, e.2 = some ev → ev.getProp "date".toList = some d → d.stringable = true) :
    calendarStep items e = some (items ++ (if calendarKeeps e then [calendarItemOf e] else [])) := by
  obtain ⟨f, o⟩ := e
  cases o with
  | none => simp [calendarStep, calendarKeeps]
  | some ev =>
    unfold calendarStep calendarKeeps calendarItemOf
    simp only [Option.getD_some]
    cases hd : ev.getProp "date".toList with
    | none => simp [truthy?]
    | some d =>
      have hsd := hs ev d rfl hd
      by_cases ht : ev.truthy = true
      · by_cases htd : d.truthy = true
        · simp [truthy?, ht, htd, jsOr, hsd]
        · simp [truthy?, ht, htd]
      · simp [truthy?, ht]

theorem foldlM_calendarStep (files : List (Str × Option Json)) (acc : List CalendarItem)
    (hs : DatesStringable files) :
    files.foldlM calendarStep acc
      = some (acc ++ (files.filter calendarKeeps).map calendarItemOf) := by
  induction files generalizing acc with
  | nil => simp
  | cons e rest ih =>
    have he := calendarStep_eq acc e (fun ev d h1 h2 => hs e (List.mem_cons_self _ _) ev d h1 h2)
    have hrest : DatesStringable rest := fun x hx => hs x (List.mem_cons_of_mem _ hx)
    rw [List.foldlM_cons, he]
    simp only [Option.bind_eq_bind, Option.some_bind]
    rw [ih _ hrest]
    by_cases hk : calendarKeeps e = true
    · simp [hk, List.filter_cons]
    · simp [hk, List.filter_cons]

theorem datesStringable_filter (entries : List (Str × Option Json))
    (p : Str × Option Json → Bool) (hs : DatesStringable entries) :
    DatesStringable (entries.filter p) :=
  fun e he => hs e (List.mem_filter.mp he).1

theorem buildCalendarIndex_eq (c : Collation) (g : Str) (entries : List (Str × Option Json))
    (hs : DatesStringable entries) :
    buildCalendarIndex c g (some entries)
      = some { generatedAt := g,
               items := jsSort (byDate c) ((entries.filter calendarValid).map calendarItemOf) } := by
  unfold buildCalendarIndex
  simp only
  rw [foldlM_calendarStep _ [] (datesStringable_filter _ _ hs)]
  simp only [Option.map_some', List.nil_append, List.filter_filter]
  have e : (fun a => calendarKeeps a && isJsonFile a.1) = calendarValid := by
    funext a
    simp [calendarValid, Bool.and_comm]
  rw [e]

theorem filter_calendarValid_idem (entries : List (Str × Option Json)) :
    (entries.filter calendarValid).filter calendarValid = entries.filter calendarValid := by
  rw [List.filter_filter]
  congr 1
  funext a
  simp

theorem calendarExample_stringable : DatesStringable calendarExample := by
  intro e he ev d h1 h2
  simp only [calendarExample, List.mem_cons, List.mem_singleton, List.not_mem_nil, or_false] at he
  rcases he with rfl | rfl | rfl | rfl
  · simp only [Option.some.injEq] at h1
    subst h1
    simp only [dateOnlyEvent, Json.getProp, List.find?, beq_self_eq_true, Option.map_some',
      Option.some.injEq] at h2
    subst h2
    simp [Json.stringable]
  · cases h1
  · simp only [Option.some.injEq] at h1
    subst h1
    simp only [Json.getProp, List.find?, beq_self_eq_true, Option.map_some',
      Option.some.injEq] at h2
    subst h2
    simp [Json.stringable]
  · simp only [Option.some.injEq] at h1
    subst h1
    simp only [dateOnlyEvent, Json.getProp, List.find?, beq_self_eq_true, Option.map_some',
      Option.some.injEq] at h2
    subst h2
    simp [Json.stringable]

theorem calendarExample_valid :
    calendarExample.filter calendarValid
      = [("a.json".toList, some (dateOnlyEvent "2024-01-01".toList))] := by
  have h1 : calendarValid ("a.json".toList, some (dateOnlyEvent "2024-01-01".toList)) = true := by
    decide
  have h2 : calendarValid ("b.json".toList, none) = false := by decide
  have h3 : calendarValid ("c.json".toList, some (.obj [("date".toList, .str [])])) = false := by
    decide
  have h4 : calendarValid ("notes.txt".toList, some (dateOnlyEvent "2023-01-01".toList))
      = false := by
    decide
  simp only [calendarExample, List.filter_cons, h1, h2, h3, h4, if_true, List.filter_nil]
  simp

/-- C11 (as amended): when `String` returns on every `date` value, `buildCalendarIndex`
returns, and its items are the sorted list of one item for each `.json` file that parsed
to a truthy value with a truthy `date`, hence a permutation of those items; every other
file gives no item, and leaving the skipped files out changes nothing.  Without a
calendar folder the index is empty. -/
theorem calendar_index_one_item_per_dated_file (c : Collation) (g : Str)
    (entries : List (Str × Option Json)) (hs : DatesStringable entries) :
    buildCalendarIndex c g (some entries)
      = some { generatedAt := g,
               items := jsSort (byDate c) ((entries.filter calendarValid).map calendarItemOf) }
    ∧ (jsSort (byDate c) ((entries.filter calendarValid).map calendarItemOf)).Perm
        ((entries.filter calendarValid).map calendarItemOf)
    ∧ buildCalendarIndex c g (some (entries.filter calendarValid))
        = buildCalendarIndex c g (some entries)
    ∧ buildCalendarIndex c g none = some { generatedAt := g, items := [] } := by
  refine ⟨buildCalendarIndex_eq c g entries hs, jsSort_perm _ _, ?_, rfl⟩
  rw [buildCalendarIndex_eq c g entries hs,
    buildCalendarIndex_eq c g _ (datesStringable_filter _ _ hs), filter_calendarValid_idem]

/-- C11 (as amended) at a folder with one dated event, one file that does not parse, one
event with an empty date and one file that is not `.json`: the index holds the one
event. -/
theorem calendar_index_one_item_per_dated_file_witness :
    (buildCalendarIndex caseBlindCollation [] (some calendarExample)).map
        (fun idx => idx.items.map (fun x => x.date))
      = some [toUnits "2024-01-01".toList] := by
  rw [(calendar_index_one_item_per_dated_file caseBlindCollation [] calendarExample
      calendarExample_stringable).1,
    calendarExample_valid]
  simp only [Option.map_some', List.map_cons, List.map_nil, jsSort, List.insertionSort,
    List.orderedInsert, calendarItemOf, Option.getD_some]
  rw [calendarItem_dateOnly_date _ _ (by decide)]
  rfl

/-- C11 as written fails twice: a `.json` file that parses and has a `date` field whose
value is the empty string gives no item, and a `.json` file whose `date` is an object
with an own `toString` property makes `buildCalendarIndex` throw. -/
theorem calendar_index_counterexample :
    (isJsonFile "a.json".toList = true
      ∧ hasDateField (.obj [("date".toList, .str [])]) = true
      ∧ (buildCalendarIndex caseBlindCollation []
          (some [("a.json".toList, some (.obj [("date".toList, .str [])]))])).map
            (fun idx => idx.items.length) = some 0)
    ∧ buildCalendarIndex caseBlindCollation []
        (some [("a.json".toList,
          some (.obj [("date".toList, .obj [("toString".toList, .null)])]))]) = none := by
  have hj : isJsonFile "a.json".toList = true := by decide
  have hs : (Json.obj [("toString".toList, Json.null)]).stringable = false := by
    simp [Json.stringable]
  refine ⟨⟨hj, by decide, by decide⟩, ?_⟩
  simp only [buildCalendarIndex, List.filter_cons, hj, if_true, List.filter_nil,
    List.foldlM_cons, List.foldlM_nil, calendarStep]
  have hd : (Json.obj [("date".toList, Json.obj [("toString".toList, Json.null)])]).getProp
      "date".toList = some (Json.obj [("toString".toList, Json.null)]) := by
    rfl
  rw [hd]
  simp only [truthy?, Json.truthy, jsOr, hs]
  rfl

/-! ## Titles of folders without metadata -/

theorem activitiesExample_stringable :
    ∀ x ∈ activitiesExample, x.updated.stringable = true := by
  intro x hx
  simp only [activitiesExample, List.mem_cons, List.mem_singleton, List.not_mem_nil,
    or_false] at hx
  rcases hx with rfl | rfl <;> simp [Json.stringable]

/-- With any collation that puts the `updated` string of a blog item before that of a
project item, the two are merged with the project item first. -/
theorem mergeActivities_two_swap (c : Collation) (g : Str) (x y : IndexItem)
    (h : ¬ localeCompare c y.updated x.updated ≤ 0) :
    (mergeActivities c g (some [x]) (some [y])).items = [y, x] := by
  unfold mergeActivities
  simp only [Option.getD_some, List.singleton_append]
  rw [jsSort_two_swap]
  rw [newestFirst_le_zero_iff]
  exact h

theorem lexicalOn_example_dates :
    LexicalOn caseBlindCollation [toUnits "2024-01-01".toList, toUnits "2023-05-05".toList,
      toUnits "2024-06-01".toList] := by
  unfold LexicalOn
  decide

/-- C7 (amended) at the example collation: it orders the three dates of the claim as the
lexical order does, the blog index lists them newest first, and the sort of the example
activities returns. -/
theorem content_index_sorted_desc_witness :
    LexicalOn caseBlindCollation [toUnits "2024-01-01".toList, toUnits "2023-05-05".toList,
      toUnits "2024-06-01".toList]
    ∧ (buildBlogIndex caseBlindCollation []
        [{ indexItemExample with updated := "2024-01-01".toList },
         { indexItemExample with updated := "2023-05-05".toList },
         { indexItemExample with updated := "2024-06-01".toList }]).items.map (fun x => x.updated)
      = ["2024-06-01".toList, "2024-01-01".toList, "2023-05-05".toList]
    ∧ (∀ a ∈ activitiesExample, a.updated.stringable = true)
    ∧ (sortActivities caseBlindCollation activitiesExample).isSome = true :=
  ⟨lexicalOn_example_dates,
   by
    rw [(content_index_sorted_desc caseBlindCollation [] [] activitiesExample indexItemExample
      indexItemExample indexItemExample).2.2.2 lexicalOn_example_dates]
    rfl,
   activitiesExample_stringable,
   (content_index_sorted_desc caseBlindCollation [] [] activitiesExample indexItemExample
      indexItemExample indexItemExample).2.2.1.2 activitiesExample_stringable⟩

/-- With any collation that puts the `updated` string of the first of two items before
that of the second, the blog index lists the second item first. -/
theorem buildBlogIndex_two_swap (c : Collation) (g : Str) (x y : IndexItem)
    (h : ¬ localeCompare c y.updated x.updated ≤ 0) :
    (buildBlogIndex c g [x, y]).items = [y, x] := by
  unfold buildBlogIndex
  simp only
  rw [jsSort_two_swap]
  rw [newestFirst_le_zero_iff]
  exact h

/-- C7 as written fails: with a collation that puts `a` before `B`, as the collation of
the host does, the blog index lists the item updated `B` before the item updated `a`,
and `B` is not lexically greater than or equal to `a`. -/
theorem content_index_sorted_desc_counterexample :
    (buildBlogIndex caseBlindCollation []
        [{ indexItemExample with updated := "a".toList },
         { indexItemExample with updated := "B".toList }]).items.map (fun x => x.updated)
      = ["B".toList, "a".toList]
    ∧ lexLe "a".toList "B".toList = false := by
  constructor
  · rw [buildBlogIndex_two_swap]
    · rfl
    · show ¬ caseBlindCollation.compare (toUnits "B".toList) (toUnits "a".toList) ≤ 0
      decide
  · decide

/-- C9 (amended) at the example collation, a blog item updated 2023-05-05 and a project
item updated 2024-01-01: the merged list is lexically descending, the project item
first. -/
theorem mergeActivities_sorted_witness :
    LexicalOn caseBlindCollation [toUnits "2023-05-05".toList, toUnits "2024-01-01".toList]
    ∧ (mergeActivities caseBlindCollation []
        (some [{ indexItemExample with updated := "2023-05-05".toList }])
        (some [{ indexItemExample with type := "project".toList,
                                       updated := "2024-01-01".toList }])).items.Pairwise
        (fun a b => lexLe b.updated a.updated = true)
    ∧ (mergeActivities caseBlindCollation []
        (some [{ indexItemExample with updated := "2023-05-05".toList }])
        (some [{ indexItemExample with type := "project".toList,
                                       updated := "2024-01-01".toList }])).items.map
        (fun x => x.type)
      = ["project".toList, "blog".toList] :=
  have hl : LexicalOn caseBlindCollation
      [toUnits "2023-05-05".toList, toUnits "2024-01-01".toList] := by
    unfold LexicalOn
    decide
  ⟨hl,
   (mergeActivities_sorted caseBlindCollation []
      (some [{ indexItemExample with updated := "2023-05-05".toList }])
      (some [{ indexItemExample with type := "project".toList,
                                     updated := "2024-01-01".toList }]) []).2.2.1 hl,
   by
    rw [mergeActivities_two_swap]
    · rfl
    · show ¬ caseBlindCollation.compare (toUnits "2024-01-01".toList)
        (toUnits "2023-05-05".toList) ≤ 0
      decide⟩

/-- C9 as written fails: with a collation that puts `a` before `B`, as the collation of
the host does, a blog item updated `a` and a project item updated `B` are merged with
the project item first, and `B` is not lexically greater than or equal to `a`. -/
theorem mergeActivities_sorted_counterexample :
    (mergeActivities caseBlindCollation []
        (some [{ indexItemExample with updated := "a".toList }])
        (some [{ indexItemExample with type := "project".toList,
                                       updated := "B".toList }])).items.map
        (fun x => (x.type, x.updated))
      = [("project".toList, "B".toList), ("blog".toList, "a".toList)]
    ∧ lexLe "a".toList "B".toList = false := by
  constructor
  · rw [mergeActivities_two_swap]
    · rfl
    · show ¬ caseBlindCollation.compare (toUnits "B".toList) (toUnits "a".toList) ≤ 0
      decide
  · decide

/-- C10 (amended) at the example collation: it orders the three dates of the claim as the
lexical order does, and the calendar index lists them oldest first. -/
theorem calendar_index_sorted_asc_witness :
    LexicalOn caseBlindCollation [toUnits "2024-01-01".toList, toUnits "2023-05-05".toList,
      toUnits "2024-06-01".toList]
    ∧ (buildCalendarIndex caseBlindCollation [] (some
        [("a.json".toList, some (dateOnlyEvent "2024-01-01".toList)),
         ("b.json".toList, some (dateOnlyEvent "2023-05-05".toList)),
         ("c.json".toList, some (dateOnlyEvent "2024-06-01".toList))])).map
        (fun idx => idx.items.map (fun x => x.date))
      = some [toUnits "2023-05-05".toList, toUnits "2024-01-01".toList,
          toUnits "2024-06-01".toList] :=
  ⟨lexicalOn_example_dates,
   (calendar_index_sorted_asc caseBlindCollation [] none).2 lexicalOn_example_dates⟩

/-- C10 as written fails: with a collation that puts `april 2024` before `Mai 2024`, as
the collation of the host does, the calendar index lists the two dates in that order, and
`april 2024` is not lexically less than or equal to `Mai 2024`. -/
theorem calendar_index_sorted_asc_counterexample :
    (buildCalendarIndex caseBlindCollation [] (some
        [("a.json".toList, some (dateOnlyEvent "Mai 2024".toList)),
         ("b.json".toList, some (dateOnlyEvent "april 2024".toList))])).map
        (fun idx => idx.items.map (fun x => x.date))
      = some [toUnits "april 2024".toList, toUnits "Mai 2024".toList]
    ∧ unitsLe (toUnits "april 2024".toList) (toUnits "Mai 2024".toList) = false := by
  have hf : List.filter (fun e : Str × Option Json => isJsonFile e.1)
      [("a.json".toList, some (dateOnlyEvent "Mai 2024".toList)),
       ("b.json".toList, some (dateOnlyEvent "april 2024".toList))]
      = [("a.json".toList, some (dateOnlyEvent "Mai 2024".toList)),
         ("b.json".toList, some (dateOnlyEvent "april 2024".toList))] := by
    have h1 : isJsonFile "a.json".toList = true := by decide
    have h2 : isJsonFile "b.json".toList = true := by decide
    simp only [List.filter_cons, h1, h2, if_true, List.filter_nil]
  have s1 : slice10 "Mai 2024".toList = toUnits "Mai 2024".toList := by decide
  have s2 : slice10 "april 2024".toList = toUnits "april 2024".toList := by decide
  refine ⟨?_, by decide⟩
  unfold buildCalendarIndex
  simp only [hf, List.foldlM_cons, List.foldlM_nil]
  rw [calendarStep_dateOnly _ _ _ (by decide)]
  simp only [Option.bind_eq_bind, Option.some_bind]
  rw [calendarStep_dateOnly _ _ _ (by decide)]
  simp only [Option.some_bind, List.nil_append, List.cons_append, pure, Option.map_some']
  rw [jsSort_two_swap]
  · simp only [List.map_cons, List.map_nil]
    rw [calendarItem_dateOnly_date _ _ (by decide), calendarItem_dateOnly_date _ _ (by decide),
      s1, s2]
  · unfold byDate
    rw [calendarItem_dateOnly_date _ _ (by decide), calendarItem_dateOnly_date _ _ (by decide),
      s1, s2]
    decide

theorem metaOrEmpty_none : metaOrEmpty none = .obj [] := rfl

theorem getProp_empty (key : Str) : (Json.obj []).getProp key = none := rfl

theorem jsOr_none (b : Json) : jsOr none b = b := rfl

theorem buildBlogItem_title_no_meta (f : Folder) (h : f.meta = none) :
    (buildBlogItem f).title = .str f.slug := by
  simp only [buildBlogItem, h, metaOrEmpty_none, getProp_empty, jsOr_none]

theorem buildProjectItem_title_no_meta (f : Folder) (h : f.meta = none) :
    (buildProjectItem f).title = .str f.slug := by
  simp only [buildProjectItem, h, metaOrEmpty_none, getProp_empty, jsOr_none]

theorem metaOr_none (key : Str) (fallback : Json) : metaOr none key fallback = fallback := rfl

theorem buildItem_no_meta (type : Str) (f : ItemFolder) (h : f.meta = none) :
    ∃ r, buildItem type f = some r ∧ r.item.title = .str f.slug := by
  unfold buildItem
  simp only [h, metaOr_none]
  split_ifs <;> exact ⟨_, rfl, rfl⟩

/-- C12: for a content folder without `meta.json` the item has its slug as title: in the
callbacks of `buildBlogIndex` and `buildProjectsIndex`, in the indexes they sort, and in
`buildItem`, which returns on such a folder. -/
theorem title_is_slug_without_meta (c : Collation) (g : Str) (folders : List Folder)
    (f : Folder) (type : Str) (a : ItemFolder) (hf : f ∈ folders) (hmeta : f.meta = none)
    (ha : a.meta = none) :
    ((buildBlogItem f).title = .str f.slug ∧ buildBlogItem f ∈ (blogIndex c g folders).items)
    ∧ ((buildProjectItem f).title = .str f.slug
        ∧ buildProjectItem f ∈ (projectsIndex c g folders).items)
    ∧ ∃ r, buildItem type a = some r ∧ r.item.title = .str a.slug := by
  refine ⟨⟨buildBlogItem_title_no_meta f hmeta, ?_⟩,
    ⟨buildProjectItem_title_no_meta f hmeta, ?_⟩, buildItem_no_meta type a ha⟩
  · exact (jsSort_perm _ _).mem_iff.mpr (List.mem_map_of_mem _ hf)
  · exact (jsSort_perm _ _).mem_iff.mpr (List.mem_map_of_mem _ hf)

/-- C12 at the example folders. -/
theorem title_is_slug_without_meta_witness :
    (buildBlogItem folderExample).title = .str "post".toList
    ∧ ∃ r, buildItem "blog".toList itemFolderExample = some r
        ∧ r.item.title = .str "post".toList :=
  have h := title_is_slug_without_meta caseBlindCollation [] [folderExample] folderExample
    "blog".toList
    itemFolderExample (List.mem_singleton.mpr rfl) rfl rfl
  ⟨h.1.1, h.2.2⟩

/-! ## The `updated` field is never empty -/

theorem folderStamp_ne_nil (iso : Str) : folderStamp (some iso) ≠ [] := by
  simp [folderStamp]

theorem normalizeUpdated_cases (meta : Json) (mtimeIso : Option Str) :
    normalizeUpdated meta mtimeIso = folderStamp mtimeIso
    ∨ ∃ s, normalizeUpdated meta mtimeIso = trim s ∧ (trim s).isEmpty = false := by
  unfold normalizeUpdated
  simp only
  split
  · rename_i s _
    by_cases h : (trim s).isEmpty = true
    · left; rw [if_pos h]
    · right
      rw [if_neg h]
      exact ⟨s, rfl, by simpa using h⟩
  · left; rfl

theorem normalizeUpdated_ne_nil (meta : Json) (iso : Str) :
    normalizeUpdated meta (some iso) ≠ [] := by
  rcases normalizeUpdated_cases meta (some iso) with h | ⟨s, h, hs⟩
  · rw [h]; exact folderStamp_ne_nil iso
  · rw [h]
    intro e
    rw [e] at hs
    exact Bool.noConfusion hs

theorem jsOr_truthy (a : Option Json) (b : Json) (hb : b.truthy = true) :
    (jsOr a b).truthy = true := by
  unfold jsOr
  cases a with
  | none => exact hb
  | some v =>
    by_cases hv : v.truthy = true
    · simp only [hv, if_true]
    · simp only [hv, if_false]
      exact hb

theorem metaOr_truthy (meta : Option Json) (key : Str) (b : Json) (hb : b.truthy = true) :
    (metaOr meta key b).truthy = true := by
  unfold metaOr
  cases meta with
  | none => exact hb
  | some m =>
    by_cases hm : m.truthy = true
    · simp only [hm, if_true]
      exact jsOr_truthy _ _ hb
    · simp only [hm, if_false]
      exact hb

theorem buildItem_item_updated (type : Str) (f : ItemFolder) (r : BuiltItem)
    (h : buildItem type f = some r) :
    r.item.updated = metaOr f.meta "updated".toList (.str (f.mtimeIso.take 10)) := by
  unfold buildItem at h
  simp only at h
  split_ifs at h
  all_goals first
    | (simp only [Option.some.injEq] at h; rw [← h])
    | (split at h
       · simp only [Option.some.injEq] at h
         rw [← h]
       · cases h)

theorem str_truthy_iff (s : Str) : (Json.str s).truthy = true ↔ s ≠ [] := by
  cases s <;> simp [Json.truthy]

/-- When the folder's modification time can be read, `normalizeUpdated` returns a
non-empty string, and so the `updated` of the blog and project index items is not empty;
the `updated` of an item returned by `buildItem` is the metadata's `updated` value when
that is truthy, whatever its type, and the date part of the modification time
otherwise. -/
theorem updated_of_items (meta : Json) (iso : Str) (fo : Folder) (type : Str)
    (f : ItemFolder) (r : BuiltItem) (hfo : fo.mtimeIso = some iso)
    (hr : buildItem type f = some r) :
    normalizeUpdated meta (some iso) ≠ []
    ∧ (buildBlogItem fo).updated ≠ [] ∧ (buildProjectItem fo).updated ≠ []
    ∧ r.item.updated = metaOr f.meta "updated".toList (.str (f.mtimeIso.take 10)) := by
  refine ⟨normalizeUpdated_ne_nil meta iso, ?_, ?_, buildItem_item_updated type f r hr⟩
  · simp only [buildBlogItem, hfo]
    exact normalizeUpdated_ne_nil _ iso
  · simp only [buildProjectItem, hfo]
    exact normalizeUpdated_ne_nil _ iso

/-- C13 (code defect): with `"updated": 2024` in `meta.json`, the item that `buildItem` of
generate-activities returns has the number 2024 as `updated`, not a string, for the blog
and for the projects folder alike; `normalizeUpdated` of generate-indexes, which tests
`typeof mUpdated === "string"`, returns the folder's modification time for the same
metadata. -/
theorem buildItem_updated_not_string :
    (∀ type, ∃ r, buildItem type numberUpdatedFolder = some r
      ∧ r.item.updated = .num { isZero := false, text := "2024".toList })
    ∧ normalizeUpdated (.obj [("updated".toList, .num { isZero := false, text := "2024".toList })])
        (some "2024-05-06T07:08:09.123Z".toList)
      = "2024-05-06T07:08:09Z".toList := by
  refine ⟨fun type => ⟨_, rfl, rfl⟩, by decide⟩

/-! ## The order of preference of `normalizeUpdated` -/

theorem getProp_of_not_truthy (meta : Json) (key : Str) (h : meta.truthy = false) :
    meta.getProp key = none := by
  cases meta with
  | obj fields => simp [Json.truthy] at h
  | null => rfl
  | bool b => rfl
  | num n => rfl
  | str s => rfl
  | arr items => rfl

theorem normalizeUpdated_eq (meta : Json) (mtimeIso : Option Str) :
    normalizeUpdated meta mtimeIso =
      match metaDate meta with
      | some (.str s) => if (trim s).isEmpty then folderStamp mtimeIso else trim s
      | _ => folderStamp mtimeIso := by
  unfold normalizeUpdated metaDate
  by_cases ht : meta.truthy = true
  · simp only [ht, if_true]
    try rfl
  · have hf : meta.truthy = false := by simpa using ht
    simp only [ht, if_false, getProp_of_not_truthy meta _ hf, firstTruthy, truthy?]
    try rfl

theorem trim_ne_nil_truthy (s : Str) (h : (trim s).isEmpty = false) :
    (Json.str s).truthy = true := by
  rw [str_truthy_iff]
  intro e
  subst e
  exact absurd h (by decide)

/-- What `normalizeUpdated` returns: it takes the first truthy value among the metadata's
`updated`, `date`, `lastEdited` and `last_edit`; when that value is a string that is not
blank it returns it trimmed, and in every other case it returns the folder's modification
time as an ISO string without milliseconds.  So a non-blank string `updated` wins, then
a non-blank string `date` when `updated` is missing or falsy, and the folder's time is
returned when none of the four is truthy. -/
theorem normalizeUpdated_cases_of_meta (meta : Json) (mtimeIso : Option Str) :
    (normalizeUpdated meta mtimeIso =
      match metaDate meta with
      | some (.str s) => if (trim s).isEmpty then folderStamp mtimeIso else trim s
      | _ => folderStamp mtimeIso)
    ∧ (∀ s, meta.getProp "updated".toList = some (.str s) → (trim s).isEmpty = false →
        normalizeUpdated meta mtimeIso = trim s)
    ∧ (∀ s, truthy? (meta.getProp "updated".toList) = false →
        meta.getProp "date".toList = some (.str s) → (trim s).isEmpty = false →
        normalizeUpdated meta mtimeIso = trim s)
    ∧ (metaDate meta = none → normalizeUpdated meta mtimeIso = folderStamp mtimeIso)
    ∧ (∀ iso, folderStamp (some iso) = iso.take 19 ++ "Z".toList) := by
  refine ⟨normalizeUpdated_eq meta mtimeIso, ?_, ?_, ?_, fun _ => rfl⟩
  · intro s hu hs
    have ht : truthy? (some (Json.str s)) = true := trim_ne_nil_truthy s hs
    rw [normalizeUpdated_eq]
    unfold metaDate
    rw [firstTruthy, hu, if_pos ht]
    simp only [hs, Bool.false_eq_true, if_false]
  · intro s hu hd hs
    have ht : truthy? (some (Json.str s)) = true := trim_ne_nil_truthy s hs
    rw [normalizeUpdated_eq]
    unfold metaDate
    rw [firstTruthy, if_neg (by rw [hu]; exact Bool.false_ne_true), firstTruthy, hd, if_pos ht]
    simp only [hs, Bool.false_eq_true, if_false]
  · intro hn
    rw [normalizeUpdated_eq, hn]

/-- C14 (code defect): metadata that holds only `lastEdited` gives neither an `updated`
nor a `date` value, so the claim, like the comment on the function, promises the folder's
modification time; `normalizeUpdated` returns the `lastEdited` value.  Metadata with a
blank `updated` and a `date` has a `date` value to fall back on, yet the folder's time is
returned. -/
theorem normalizeUpdated_lastEdited :
    (Json.obj [("lastEdited".toList, .str "2020-01-01".toList)]).getProp "updated".toList = none
    ∧ (Json.obj [("lastEdited".toList, .str "2020-01-01".toList)]).getProp "date".toList = none
    ∧ normalizeUpdated (.obj [("lastEdited".toList, .str "2020-01-01".toList)])
        (some "2024-05-06T07:08:09.123Z".toList)
      = "2020-01-01".toList
    ∧ folderStamp (some "2024-05-06T07:08:09.123Z".toList) = "2024-05-06T07:08:09Z".toList
    ∧ normalizeUpdated
        (.obj [("updated".toList, .str " ".toList), ("date".toList, .str "2020-01-01".toList)])
        (some "2024-05-06T07:08:09.123Z".toList)
      = "2024-05-06T07:08:09Z".toList := by
  refine ⟨rfl, rfl, by decide, by decide, by decide⟩

/-! ## The cover image -/

theorem find?_first {α : Type} (p : α → Bool) (pre : List α) (x : α) (post : List α)
    (hpre : ∀ a ∈ pre, p a = false) (hx : p x = true) :
    (pre ++ x :: post).find? p = some x := by
  induction pre with
  | nil => simp [List.find?, hx]
  | cons a rest ih =>
    have ha := hpre a (List.mem_cons_self _ _)
    simp only [List.cons_append, List.find?, ha]
    exact ih (fun b hb => hpre b (List.mem_cons_of_mem _ hb))

theorem find?_none_of_all {α : Type} (p : α → Bool) (l : List α)
    (h : ∀ a ∈ l, p a = false) : l.find? p = none := by
  rw [List.find?_eq_none]
  intro a ha
  simp [h a ha]

theorem pickFirstByExt_eq_find (files exts : List Str) :
    pickFirstByExt files exts
      = (files.find? fun f => exts.contains (toLowerCase (extname f))).getD [] := by
  induction files with
  | nil => rfl
  | cons f rest ih =>
    by_cases h : exts.contains (toLowerCase (extname f)) = true
    · rw [pickFirstByExt, if_pos h]
      simp only [List.find?, h, Option.getD_some]
    · have h' : exts.contains (toLowerCase (extname f)) = false := by simpa using h
      rw [pickFirstByExt, if_neg h]
      simp only [List.find?, h']
      exact ih

theorem isImageFile_ne_nil (f : Str) (h : isImageFile f = true) : f.isEmpty = false := by
  cases f with
  | nil => exact absurd h (by decide)
  | cons c r => rfl

theorem pickCoverImage_eq (files : List Str) :
    pickCoverImage files =
      match files.find? (fun f => isImageFile f && containsCover f) with
      | some f => f
      | none => (files.find? isImageFile).getD [] := by
  unfold pickCoverImage
  rw [pickFirstByExt_eq_find]
  cases hc : files.find? (fun f => IMAGE_EXT.contains (toLowerCase (extname f)) && containsCover f) with
  | none =>
    have hc' : files.find? (fun f => isImageFile f && containsCover f) = none := hc
    rw [hc']
    rfl
  | some f =>
    have hc' : files.find? (fun f => isImageFile f && containsCover f) = some f := hc
    rw [hc']
    have hp := List.find?_some hc'
    simp only [Bool.and_eq_true] at hp
    simp only [isImageFile_ne_nil f hp.1, Bool.false_eq_true, if_false]

/-- C15: `pickCoverImage` returns the first file that has an image extension (`.png`,
`.jpg`, `.jpeg`, `.webp`, `.gif`, in any case of letters) and whose name contains `cover`
in any case, if there is one; otherwise the first file with an image extension; otherwise
the empty string. -/
theorem pickCoverImage_spec (files pre post : List Str) (f : Str) :
    (files = pre ++ f :: post → isImageFile f = true → containsCover f = true →
        (∀ x ∈ pre, (isImageFile x && containsCover x) = false) →
        pickCoverImage files = f)
    ∧ (files = pre ++ f :: post → isImageFile f = true →
        (∀ x ∈ files, (isImageFile x && containsCover x) = false) →
        (∀ x ∈ pre, isImageFile x = false) →
        pickCoverImage files = f)
    ∧ ((∀ x ∈ files, isImageFile x = false) → pickCoverImage files = [])
    ∧ (∀ x, isImageFile x = true ↔
        toLowerCase (extname x) ∈
          [".png".toList, ".jpg".toList, ".jpeg".toList, ".webp".toList, ".gif".toList]) := by
  refine ⟨?_, ?_, ?_, ?_⟩
  · intro hf hi hc hpre
    rw [pickCoverImage_eq, hf,
      find?_first (fun f => isImageFile f && containsCover f) pre f post hpre (by simp [hi, hc])]
  · intro hf hi hall hpre
    rw [pickCoverImage_eq, find?_none_of_all _ files hall]
    simp only
    rw [hf, find?_first isImageFile pre f post hpre hi]
    rfl
  · intro hall
    rw [pickCoverImage_eq, find?_none_of_all _ files (fun x hx => by simp [hall x hx])]
    simp only
    rw [find?_none_of_all _ files hall]
    rfl
  · intro x
    simp [isImageFile, IMAGE_EXT]

/-- C15 at a folder where an image without `cover` in its name is listed before the
cover. -/
theorem pickCoverImage_spec_witness :
    pickCoverImage ["a.txt".toList, "x.PNG".toList, "My-Cover.jpeg".toList]
      = "My-Cover.jpeg".toList :=
  (pickCoverImage_spec ["a.txt".toList, "x.PNG".toList, "My-Cover.jpeg".toList]
    ["a.txt".toList, "x.PNG".toList] [] "My-Cover.jpeg".toList).1 rfl (by decide) (by decide)
    (by decide)

/-! ## The article and excerpt files of a blog folder -/

theorem pickFirstByExt_single (files : List Str) (ext : Str) :
    pickFirstByExt files [ext] = (files.find? (hasExt ext)).getD [] := by
  rw [pickFirstByExt_eq_find]
  have e : (fun f => [ext].contains (toLowerCase (extname f))) = hasExt ext := by
    funext f
    simp only [hasExt, List.contains, List.elem]
    cases toLowerCase (extname f) == ext <;> rfl
  rw [e]

theorem hasExt_ne_nil (ext f : Str) (hext : ext ≠ []) (h : hasExt ext f = true) :
    f.isEmpty = false := by
  cases f with
  | nil =>
    have : hasExt ext [] = (([] : Str) == ext) := rfl
    rw [this] at h
    simp at h
    exact absurd h hext
  | cons c r => rfl

theorem strOr_of_ne_nil (s d : Str) (h : s.isEmpty = false) : strOr s d = s := by
  simp [strOr, h]

theorem blogArticleFile_eq (files : List Str) :
    blogArticleFile files =
      if files.contains "article.html".toList then "article.html".toList
      else
        match files.find? (hasExt ".html".toList) with
        | some f => f
        | none => (files.find? (hasExt ".md".toList)).getD [] := by
  unfold blogArticleFile
  rw [pickFirstByExt_single, pickFirstByExt_single]
  split_ifs
  · rfl
  · cases hh : files.find? (hasExt ".html".toList) with
    | none => simp [strOr]
    | some f =>
      have hp := List.find?_some hh
      simp only [Option.getD_some]
      exact strOr_of_ne_nil _ _ (hasExt_ne_nil _ _ (by decide) hp)

theorem blogExcerptFile_eq (files : List Str) :
    blogExcerptFile files =
      if files.contains "excerpt.txt".toList then "excerpt.txt".toList
      else (files.find? (hasExt ".txt".toList)).getD [] := by
  unfold blogExcerptFile
  rw [pickFirstByExt_single]

theorem find?_isSome_of_mem {α : Type} (p : α → Bool) (l : List α) (x : α) (hx : x ∈ l)
    (hp : p x = true) : ∃ y, l.find? p = some y := by
  cases h : l.find? p with
  | some y => exact ⟨y, rfl⟩
  | none =>
    rw [List.find?_eq_none] at h
    exact absurd hp (h x hx)

theorem hasExt_md_not_html (f : Str) (h : hasExt ".md".toList f = true) :
    hasExt ".html".toList f = false := by
  simp only [hasExt, beq_iff_eq] at h
  simp only [hasExt, h]
  decide

theorem blogArticleFile_eq_article_iff (files : List Str) :
    blogArticleFile files = "article.html".toList ↔ "article.html".toList ∈ files := by
  rw [blogArticleFile_eq]
  by_cases hc : files.contains "article.html".toList = true
  · rw [if_pos hc]
    simpa using hc
  · rw [if_neg hc]
    have hn : "article.html".toList ∉ files := by simpa using hc
    constructor
    · intro h
      cases hh : files.find? (hasExt ".html".toList) with
      | some f =>
        rw [hh] at h
        simp only at h
        rw [← h]
        exact List.mem_of_find?_eq_some hh
      | none =>
        rw [hh] at h
        simp only at h
        cases hm : files.find? (hasExt ".md".toList) with
        | some f =>
          rw [hm] at h
          simp only [Option.getD_some] at h
          rw [← h]
          exact List.mem_of_find?_eq_some hm
        | none =>
          rw [hm] at h
          exact absurd h (by decide)
    · intro h
      exact absurd h hn

theorem blogArticleFile_html_iff (files : List Str) :
    hasExt ".html".toList (blogArticleFile files) = true
      ↔ ∃ x ∈ files, hasExt ".html".toList x = true := by
  rw [blogArticleFile_eq]
  by_cases hc : files.contains "article.html".toList = true
  · rw [if_pos hc]
    constructor
    · intro _
      exact ⟨"article.html".toList, by simpa using hc, by decide⟩
    · intro _
      decide
  · rw [if_neg hc]
    cases hh : files.find? (hasExt ".html".toList) with
    | some f =>
      simp only
      constructor
      · intro h
        exact ⟨f, List.mem_of_find?_eq_some hh, h⟩
      · intro _
        exact List.find?_some hh
    | none =>
      simp only
      have hall := List.find?_eq_none.mp hh
      constructor
      · intro h
        cases hm : files.find? (hasExt ".md".toList) with
        | some f =>
          rw [hm] at h
          simp only [Option.getD_some] at h
          rw [hasExt_md_not_html f (List.find?_some hm)] at h
          exact Bool.noConfusion h
        | none =>
          rw [hm] at h
          exact absurd h (by decide)
      · rintro ⟨x, hx, hxh⟩
        exact absurd hxh (hall x hx)

theorem blogArticleFile_nil_iff (files : List Str) :
    blogArticleFile files = []
      ↔ (∀ x ∈ files, hasExt ".html".toList x = false)
        ∧ (∀ x ∈ files, hasExt ".md".toList x = false) := by
  rw [blogArticleFile_eq]
  by_cases hc : files.contains "article.html".toList = true
  · rw [if_pos hc]
    constructor
    · intro h
      exact absurd h (by decide)
    · rintro ⟨h, _⟩
      have := h "article.html".toList (by simpa using hc)
      exact absurd this (by decide)
  · rw [if_neg hc]
    cases hh : files.find? (hasExt ".html".toList) with
    | some f =>
      simp only
      have hf := List.find?_some hh
      constructor
      · intro h
        subst h
        exact absurd hf (by decide)
      · rintro ⟨h, _⟩
        rw [h f (List.mem_of_find?_eq_some hh)] at hf
        exact Bool.noConfusion hf
    | none =>
      simp only
      have hall := List.find?_eq_none.mp hh
      cases hm : files.find? (hasExt ".md".toList) with
      | some f =>
        simp only [Option.getD_some]
        have hf := List.find?_some hm
        constructor
        · intro h
          subst h
          exact absurd hf (by decide)
        · rintro ⟨_, h⟩
          rw [h f (List.mem_of_find?_eq_some hm)] at hf
          exact Bool.noConfusion hf
      | none =>
        simp only [Option.getD_none, true_iff]
        have hallm := List.find?_eq_none.mp hm
        exact ⟨fun x hx => by simpa using hall x hx, fun x hx => by simpa using hallm x hx⟩

theorem blogArticleFile_perm (files files' : List Str) (hp : files'.Perm files) :
    (blogArticleFile files' = "article.html".toList
        ↔ blogArticleFile files = "article.html".toList)
    ∧ (hasExt ".html".toList (blogArticleFile files') = true
        ↔ hasExt ".html".toList (blogArticleFile files) = true)
    ∧ (blogArticleFile files' = [] ↔ blogArticleFile files = []) := by
  refine ⟨?_, ?_, ?_⟩
  · rw [blogArticleFile_eq_article_iff, blogArticleFile_eq_article_iff, hp.mem_iff]
  · rw [blogArticleFile_html_iff, blogArticleFile_html_iff]
    constructor
    · rintro ⟨x, hx, h⟩
      exact ⟨x, hp.mem_iff.mp hx, h⟩
    · rintro ⟨x, hx, h⟩
      exact ⟨x, hp.mem_iff.mpr hx, h⟩
  · rw [blogArticleFile_nil_iff, blogArticleFile_nil_iff]
    constructor
    · rintro ⟨h1, h2⟩
      exact ⟨fun x hx => h1 x (hp.mem_iff.mpr hx), fun x hx => h2 x (hp.mem_iff.mpr hx)⟩
    · rintro ⟨h1, h2⟩
      exact ⟨fun x hx => h1 x (hp.mem_iff.mp hx), fun x hx => h2 x (hp.mem_iff.mp hx)⟩

/-- C16: in a blog folder the full-content file is `article.html` if it is listed,
wherever it stands; else the first file with the extension `.html`; else the first file
with the extension `.md`; else none.  The excerpt file is `excerpt.txt` if it is listed;
else the first file with the extension `.txt`; else none.  Which of the four cases
applies to the full-content file does not depend on the order of the listing. -/
theorem blog_file_priority (files files' pre post : List Str) (f : Str) :
    ("article.html".toList ∈ files → blogArticleFile files = "article.html".toList)
    ∧ ("article.html".toList ∉ files → files = pre ++ f :: post →
        hasExt ".html".toList f = true → (∀ x ∈ pre, hasExt ".html".toList x = false) →
        blogArticleFile files = f)
    ∧ ("article.html".toList ∉ files → (∀ x ∈ files, hasExt ".html".toList x = false) →
        files = pre ++ f :: post →
        hasExt ".md".toList f = true → (∀ x ∈ pre, hasExt ".md".toList x = false) →
        blogArticleFile files = f)
    ∧ ("article.html".toList ∉ files → (∀ x ∈ files, hasExt ".html".toList x = false) →
        (∀ x ∈ files, hasExt ".md".toList x = false) → blogArticleFile files = [])
    ∧ ("excerpt.txt".toList ∈ files → blogExcerptFile files = "excerpt.txt".toList)
    ∧ ("excerpt.txt".toList ∉ files → files = pre ++ f :: post →
        hasExt ".txt".toList f = true → (∀ x ∈ pre, hasExt ".txt".toList x = false) →
        blogExcerptFile files = f)
    ∧ ("excerpt.txt".toList ∉ files → (∀ x ∈ files, hasExt ".txt".toList x = false) →
        blogExcerptFile files = [])
    ∧ (files'.Perm files →
        (blogArticleFile files' = "article.html".toList
          ↔ blogArticleFile files = "article.html".toList)
        ∧ (hasExt ".html".toList (blogArticleFile files') = true
          ↔ hasExt ".html".toList (blogArticleFile files) = true)
        ∧ (blogArticleFile files' = [] ↔ blogArticleFile files = [])) := by
  refine ⟨?_, ?_, ?_, ?_, ?_, ?_, ?_, blogArticleFile_perm files files'⟩
  · intro h
    rw [blogArticleFile_eq, if_pos (by simpa using h)]
  · intro h hf hx hpre
    rw [blogArticleFile_eq, if_neg (by simpa using h), hf, find?_first _ pre f post hpre hx]
  · intro h hall hf hx hpre
    rw [blogArticleFile_eq, if_neg (by simpa using h), find?_none_of_all _ files hall]
    simp only
    rw [hf, find?_first _ pre f post hpre hx]
    rfl
  · intro h hall hmd
    rw [blogArticleFile_eq, if_neg (by simpa using h), find?_none_of_all _ files hall]
    simp only
    rw [find?_none_of_all _ files hmd]
    rfl
  · intro h
    rw [blogExcerptFile_eq, if_pos (by simpa using h)]
  · intro h hf hx hpre
    rw [blogExcerptFile_eq, if_neg (by simpa using h), hf, find?_first _ pre f post hpre hx]
    rfl
  · intro h hall
    rw [blogExcerptFile_eq, if_neg (by simpa using h), find?_none_of_all _ files hall]
    rfl

/-- C16 at a folder where a Markdown file is listed before the HTML file. -/
theorem blog_file_priority_witness :
    blogArticleFile ["a.md".toList, "x.HTML".toList, "b.html".toList] = "x.HTML".toList :=
  (blog_file_priority ["a.md".toList, "x.HTML".toList, "b.html".toList] [] ["a.md".toList]
    ["b.html".toList] "x.HTML".toList).2.1 (by decide) rfl (by decide) (by decide)

/-! ## The page shell -/

/-- C17: the document written by `writeContentHtml` is the fixed shell, in this order:
the charset meta, the viewport meta, the `<title>` with the escaped title, the stylesheet
link, then (after the colour-scheme meta and the `<h1>` with the escaped title) the
`<img>` of the cover URL exactly when that URL is not empty, then the body fragment as
it is; the returned path is `/assets/content/<type>/<slug>.html` and depends on nothing
but the type and the slug. -/
theorem writeContentHtml_shell (type slug title coverUrl bodyHtml title' coverUrl'
    bodyHtml' : Str) :
    (writeContentHtml type slug title coverUrl bodyHtml).1
      = "<!doctype html>\n<html lang=\"de\">\n<head>\n  ".toList
        ++ "<meta charset=\"utf-8\" />".toList
        ++ "\n  ".toList
        ++ "<meta name=\"viewport\" content=\"width=device-width, initial-scale=1\" />".toList
        ++ "\n  ".toList
        ++ "<title>".toList ++ escapeHtml title ++ "</title>".toList
        ++ "\n  ".toList
        ++ "<link rel=\"stylesheet\" href=\"/assets/styles.css\" />".toList
        ++ "\n  <meta name=\"color-scheme\" content=\"light dark\" />\n</head>\n".toList
        ++ "<body class=\"page-content\">\n  <main class=\"container\">\n".toList
        ++ "    <article class=\"section\">\n      <h1>".toList
        ++ escapeHtml title ++ "</h1>\n      ".toList
        ++ (if coverUrl.isEmpty then []
            else "<img src=\"".toList ++ coverUrl
              ++ "\" alt=\"\" style=\"width:100%;height:auto;border-radius:16px;margin:14px 0;\" />".toList)
        ++ "\n      <div class=\"prose\">\n        ".toList
        ++ bodyHtml
        ++ "\n      </div>\n    </article>\n  </main>\n</body>\n</html>".toList
    ∧ (writeContentHtml type slug title coverUrl bodyHtml).2
      = "/assets/content/".toList ++ type ++ "/".toList ++ slug ++ ".html".toList
    ∧ (writeContentHtml type slug title' coverUrl' bodyHtml').2
      = (writeContentHtml type slug title coverUrl bodyHtml).2 := by
  refine ⟨?_, rfl, rfl⟩
  have h1 : shellHead
      = "<!doctype html>\n<html lang=\"de\">\n<head>\n  ".toList
        ++ "<meta charset=\"utf-8\" />".toList
        ++ "\n  ".toList
        ++ "<meta name=\"viewport\" content=\"width=device-width, initial-scale=1\" />".toList
        ++ "\n  ".toList
        ++ "<title>".toList := by
    rfl
  have h2 : shellAfterTitle
      = "</title>".toList
        ++ "\n  ".toList
        ++ "<link rel=\"stylesheet\" href=\"/assets/styles.css\" />".toList
        ++ "\n  <meta name=\"color-scheme\" content=\"light dark\" />\n</head>\n".toList
        ++ "<body class=\"page-content\">\n  <main class=\"container\">\n".toList
        ++ "    <article class=\"section\">\n      <h1>".toList := by
    rfl
  unfold writeContentHtml
  simp only
  rw [h1, h2]
  simp only [shellAfterH1, shellImgOpen, shellImgClose, shellAfterCover, shellTail,
    List.append_assoc]
  rfl

/-! ## The cover URL in the page shell -/

theorem pickFiles_scriptFolder :
    pickFiles scriptFolder.fileNames
      = { files := ["a.png".toList, "post.md".toList], cover := "a.png".toList,
          excerptFile := [], contentFile := "post.md".toList } := by
  decide

theorem buildItem_scriptFolder :
    (buildItem "blog".toList scriptFolder).map (fun r => r.written)
      = some (some scriptFolderPage) := by
  have hmd : mdToHtml (trim "# Hi".toList) = "<h1>Hi</h1>".toList := by decide
  have hesc : escapeHtml "<script>".toList = "&lt;script&gt;".toList := by decide
  have hhtml : HTML_RE "post.md".toList = false := by decide
  have hmdre : MD_RE "post.md".toList = true := by decide
  unfold buildItem
  simp only [pickFiles_scriptFolder]
  simp only [scriptFolder, metaOr_none, hhtml, hmdre, hmd, List.isEmpty_cons, if_true, if_false,
    Bool.false_eq_true, Option.map_some', writeContentHtml, hesc, webPathFor]
  rfl

/-- C18, the code at a failing input: for a blog folder named `<script>` that holds a
cover image and a Markdown file, the document that `buildItem` writes has the raw folder
name in the `src` of the cover image, so `<script>` occurs in it. -/
theorem buildItem_script_in_cover_url :
    (buildItem "blog".toList scriptFolder).map (fun r => r.written)
      = some (some scriptFolderPage)
    ∧ "<script>".toList <:+: scriptFolderPage :=
  ⟨buildItem_scriptFolder,
    ⟨shellHead ++ "&lt;script&gt;".toList ++ shellAfterTitle ++ "&lt;script&gt;".toList
        ++ shellAfterH1 ++ "<img src=\"/assets/blog/".toList,
      "/a.png".toList ++ shellImgClose ++ shellAfterCover ++ "<h1>Hi</h1>".toList ++ shellTail,
      by simp only [scriptFolderPage, List.append_assoc]⟩⟩

/-! ## The variants of a product -/

theorem arrayOrStandard_of_not_array (v : Option Json)
    (h : ∀ items, v ≠ some (.arr items)) : arrayOrStandard v = [.str "Standard".toList] := by
  unfold arrayOrStandard
  split
  · rename_i items
    exact absurd rfl (h items)
  · rfl

theorem arrayOrStandard_eq_nil_iff (v : Option Json) :
    arrayOrStandard v = [] ↔ v = some (.arr []) := by
  constructor
  · intro h
    unfold arrayOrStandard at h
    split at h
    · rw [h]
    · cases h
  · intro h
    rw [h]
    rfl

/-- C19 (as amended): the variants of a product are the `variants` array of the metadata
when the metadata gives an array, and the single placeholder `Standard` in every other
case, in particular when `meta.json` is absent or malformed or has no `variants`; so they
are empty only when the metadata gives the empty array. -/
theorem product_variants (slug : Str) (meta : Option Json) (fileNames : List Str) :
    (∀ items, optProp meta "variants".toList = some (.arr items) →
        (buildProduct slug meta fileNames).variants = items)
    ∧ ((∀ items, optProp meta "variants".toList ≠ some (.arr items)) →
        (buildProduct slug meta fileNames).variants = [.str "Standard".toList])
    ∧ (meta = none → (buildProduct slug meta fileNames).variants = [.str "Standard".toList])
    ∧ ((buildProduct slug meta fileNames).variants = []
        ↔ optProp meta "variants".toList = some (.arr [])) := by
  have h : (buildProduct slug meta fileNames).variants
      = arrayOrStandard (optProp meta "variants".toList) := rfl
  refine ⟨?_, ?_, ?_, ?_⟩
  · intro items hi
    rw [h, hi]
    rfl
  · intro hn
    rw [h]
    exact arrayOrStandard_of_not_array _ hn
  · intro hm
    rw [h, hm]
    rfl
  · rw [h]
    exact arrayOrStandard_eq_nil_iff _

/-- C19 (as amended) at a shop folder without `meta.json`. -/
theorem product_variants_witness :
    (buildProduct "saft".toList none ["saft.jpg".toList]).variants
      = [.str "Standard".toList] :=
  (product_variants "saft".toList none ["saft.jpg".toList]).2.2.1 rfl

/-- C19 as written fails: with `"variants": []` in `meta.json` the product has no
variant. -/
theorem product_variants_counterexample :
    (buildProduct "saft".toList (some (.obj [("variants".toList, .arr [])])) []).variants
      = [] :=
  rfl

/-! ## Metadata that does not parse -/

theorem find?_filter_of_imp {α : Type} (p q : α → Bool) (l : List α)
    (h : ∀ x, p x = true → q x = true) : (l.filter q).find? p = l.find? p := by
  induction l with
  | nil => rfl
  | cons a rest ih =>
    by_cases hq : q a = true
    · rw [List.filter_cons_of_pos hq]
      by_cases hp : p a = true
      · simp only [List.find?, hp]
      · have hp' : p a = false := by simpa using hp
        simp only [List.find?, hp']
        exact ih
    · rw [List.filter_cons_of_neg hq]
      have hp' : p a = false := by
        cases hpa : p a with
        | false => rfl
        | true => exact absurd (h a hpa) hq
      simp only [List.find?, hp']
      exact ih

theorem contains_filter_of_pos (q : Str → Bool) (l : List Str) (a : Str) (h : q a = true) :
    (l.filter q).contains a = l.contains a := by
  rw [Bool.eq_iff_iff]
  simp [List.mem_filter, h]

theorem pickFirstByExt_withoutMeta (files exts : List Str)
    (h : exts.contains ".json".toList = false) :
    pickFirstByExt (files.filter notMetaFile) exts = pickFirstByExt files exts := by
  rw [pickFirstByExt_eq_find, pickFirstByExt_eq_find, find?_filter_of_imp]
  intro x hx
  simp only [notMetaFile, bne_iff_ne, ne_eq]
  intro e
  subst e
  have he : toLowerCase (extname "meta.json".toList) = ".json".toList := by decide
  rw [he, h] at hx
  exact Bool.noConfusion hx

theorem pickCoverImage_withoutMeta (files : List Str) :
    pickCoverImage (files.filter notMetaFile) = pickCoverImage files := by
  unfold pickCoverImage
  rw [pickFirstByExt_withoutMeta files IMAGE_EXT (by decide), find?_filter_of_imp]
  intro x hx
  simp only [notMetaFile, bne_iff_ne, ne_eq]
  intro e
  subst e
  exact absurd hx (by decide)

theorem blogArticleFile_withoutMeta (files : List Str) :
    blogArticleFile (files.filter notMetaFile) = blogArticleFile files := by
  unfold blogArticleFile
  rw [contains_filter_of_pos notMetaFile files _ (by decide),
    pickFirstByExt_withoutMeta files _ (by decide),
    pickFirstByExt_withoutMeta files _ (by decide)]

theorem blogExcerptFile_withoutMeta (files : List Str) :
    blogExcerptFile (files.filter notMetaFile) = blogExcerptFile files := by
  unfold blogExcerptFile
  rw [contains_filter_of_pos notMetaFile files _ (by decide),
    pickFirstByExt_withoutMeta files _ (by decide)]

theorem projectText_withoutMeta (files : List Str) :
    (files.filter notMetaFile).find? isProjectText = files.find? isProjectText := by
  apply find?_filter_of_imp
  intro x hx
  simp only [notMetaFile, bne_iff_ne, ne_eq]
  intro e
  subst e
  exact absurd hx (by decide)

theorem buildBlogItem_malformed (f : Folder) (h : f.meta = none) :
    buildBlogItem f =
      { buildBlogItem (withoutMetaFile f) with
        metaUrl :=
          if f.metaExists then toWebPath "blog".toList f.slug "meta.json".toList else [] } := by
  have e : (withoutMetaFile f).files = f.files.filter notMetaFile := rfl
  simp only [buildBlogItem, e, blogArticleFile_withoutMeta, blogExcerptFile_withoutMeta,
    pickCoverImage_withoutMeta, h]
  rfl

theorem buildProjectItem_malformed (f : Folder) (h : f.meta = none) :
    buildProjectItem f =
      { buildProjectItem (withoutMetaFile f) with
        metaUrl :=
          if f.metaExists then toWebPath "projects".toList f.slug "meta.json".toList
          else [] } := by
  have e : (withoutMetaFile f).files = f.files.filter notMetaFile := rfl
  simp only [buildProjectItem, e, projectText_withoutMeta, pickCoverImage_withoutMeta, h]
  rfl

/-- C20 (as amended): a `meta.json` that does not parse never makes the index builders
fail, and the item built for the folder equals, in every field but `metaUrl`, the item
built for the same folder without `meta.json`; `metaUrl` is the web path of `meta.json`
as soon as the file exists. -/
theorem malformed_meta_as_absent (f : Folder) (hmeta : f.meta = none)
    (hex : f.metaExists = true) :
    buildBlogItem f =
      { buildBlogItem (withoutMetaFile f) with
        metaUrl := toWebPath "blog".toList f.slug "meta.json".toList }
    ∧ buildProjectItem f =
      { buildProjectItem (withoutMetaFile f) with
        metaUrl := toWebPath "projects".toList f.slug "meta.json".toList }
    ∧ (buildBlogItem (withoutMetaFile f)).metaUrl = []
    ∧ (buildProjectItem (withoutMetaFile f)).metaUrl = [] := by
  refine ⟨?_, ?_, rfl, rfl⟩
  · rw [buildBlogItem_malformed f hmeta, hex]
    rfl
  · rw [buildProjectItem_malformed f hmeta, hex]
    rfl

/-- C20 (as amended) at the example folder. -/
theorem malformed_meta_as_absent_witness :
    (buildBlogItem malformedMetaFolder).title
      = (buildBlogItem (withoutMetaFile malformedMetaFolder)).title
    ∧ (buildBlogItem malformedMetaFolder).contentUrl
      = (buildBlogItem (withoutMetaFile malformedMetaFolder)).contentUrl := by
  have h := (malformed_meta_as_absent malformedMetaFolder rfl rfl).1
  constructor
  · rw [h]
  · rw [h]

/-- C20 as written fails: for the example folder the item built with the malformed
`meta.json` has the web path of the file as `metaUrl`, the item built without the file
has the empty string, so the two items differ. -/
theorem malformed_meta_as_absent_counterexample :
    (buildBlogItem malformedMetaFolder).metaUrl = "/assets/blog/post/meta.json".toList
    ∧ (buildBlogItem (withoutMetaFile malformedMetaFolder)).metaUrl = []
    ∧ buildBlogItem malformedMetaFolder ≠ buildBlogItem (withoutMetaFile malformedMetaFolder) := by
  have h1 : (buildBlogItem malformedMetaFolder).metaUrl = "/assets/blog/post/meta.json".toList := by
    decide
  have h2 : (buildBlogItem (withoutMetaFile malformedMetaFolder)).metaUrl = [] := rfl
  refine ⟨h1, h2, ?_⟩
  intro e
  rw [e, h2] at h1
  exact absurd h1 (by decide)

/-! ## The origin check of the mail handler -/

theorem esc_none : esc none = some [] := by
  simp [esc, jsOr, Json.stringable, Json.toJsString, replaceAllChar, trim, trimStart, trimEnd]

theorem esc_str (s : Str) : esc (some (.str s)) = some (trim (replaceAllChar '\r' [] s)) := by
  cases s with
  | nil => simp [esc, jsOr, Json.truthy, Json.stringable, Json.toJsString]
  | cons c cs => simp [esc, jsOr, Json.truthy, Json.stringable, Json.toJsString]

theorem readFields_orderPayload :
    readFields orderPayload
      = some { to_ := "anfrage@weichware-lohr.de".toList, replyTo := "kundin@example.org".toList,
               subject := "Bestellung".toList, text := "Zwei Flaschen Saft".toList } := by
  have h1 : payloadProp orderPayload "to".toList
      = some (some (.str "anfrage@weichware-lohr.de".toList)) := rfl
  have h2 : payloadProp orderPayload "replyTo".toList
      = some (some (.str "kundin@example.org".toList)) := rfl
  have h3 : payloadProp orderPayload "subject".toList = some (some (.str "Bestellung".toList)) := rfl
  have h4 : payloadProp orderPayload "text".toList
      = some (some (.str "Zwei Flaschen Saft".toList)) := rfl
  simp only [readFields, h1, h2, h3, h4, esc_str, Option.bind_eq_bind, Option.some_bind,
    Option.pure_def]
  decide

theorem onRequestPost_of_cross_origin (mailer : Draft → Delivery) (request : Request) (o : Str)
    (ho : request.origin = some o) (hne : o ≠ []) (hdiff : o ≠ request.host) :
    onRequestPost mailer request = { response := some forbidden, mail := none } := by
  have h1 : o.isEmpty = false := by cases o <;> simp_all
  have h2 : (o != request.host) = true := by simpa using hdiff
  simp only [onRequestPost, ho, Option.getD_some, h1, h2, Bool.not_false, Bool.and_self, if_true]
  rfl

theorem sendMail_status (mailer : Draft → Delivery) (f : Fields) (r : Response)
    (h : (sendMail mailer f).response = some r) : r.status = 200 ∨ r.status = 500 := by
  unfold sendMail at h
  cases hm : mailer (draftOf f) with
  | sent =>
    simp only [hm] at h
    rw [← Option.some.inj h]
    exact Or.inl rfl
  | failed e =>
    simp only [hm] at h
    rw [← Option.some.inj h]
    exact Or.inr rfl
  | threw =>
    simp only [hm] at h
    exact absurd h (by simp)

theorem onRequestPost_of_same_origin (mailer : Draft → Delivery) (request : Request)
    (h : request.origin.getD [] = [] ∨ request.origin = some request.host) :
    onRequestPost mailer request =
      match request.json with
      | none => { response := some (jsonResponse 400 (errorBody "bad json".toList)), mail := none }
      | some payload =>
        match readFields payload with
        | none => { response := none, mail := none }
        | some f =>
          if f.to_.isEmpty || f.subject.isEmpty || f.text.isEmpty then
            { response := some missingFields, mail := none }
          else sendMail mailer f := by
  have hc : (!(request.origin.getD []).isEmpty && request.origin.getD [] != request.host)
      = false := by
    rcases h with h | h
    · rw [h]; rfl
    · rw [h]; simp
  simp only [onRequestPost, hc]
  rfl

theorem onRequestPost_status_of_same_origin (mailer : Draft → Delivery) (request : Request)
    (h : request.origin.getD [] = [] ∨ request.origin = some request.host) (r : Response)
    (hr : (onRequestPost mailer request).response = some r) : r.status ≠ 403 := by
  rw [onRequestPost_of_same_origin mailer request h] at hr
  cases hj : request.json with
  | none =>
    simp only [hj] at hr
    rw [← Option.some.inj hr]
    decide
  | some payload =>
    simp only [hj] at hr
    cases hf : readFields payload with
    | none =>
      simp only [hf] at hr
      exact absurd hr (by simp)
    | some f =>
      simp only [hf] at hr
      split_ifs at hr
      · rw [← Option.some.inj hr]
        decide
      · rcases sendMail_status mailer f r hr with h2 | h2 <;> omega

/-- For every request that carries a non-empty `Origin` header different from the origin
of the request URL, the handler answers with status 403 and the body
`{"ok":false,"error":"forbidden"}` and hands no message to the mail API; a request without
an `Origin` header, with an empty one, or with the origin of the request URL is never
answered with status 403. -/
theorem cross_origin_forbidden (mailer : Draft → Delivery) (request : Request) :
    (∀ o, request.origin = some o → o ≠ [] → o ≠ request.host →
      onRequestPost mailer request = { response := some forbidden, mail := none })
    ∧ ((request.origin.getD [] = [] ∨ request.origin = some request.host) →
      ∀ r, (onRequestPost mailer request).response = some r → r.status ≠ 403) :=
  ⟨fun o ho hne hdiff => onRequestPost_of_cross_origin mailer request o ho hne hdiff,
   fun h r hr => onRequestPost_status_of_same_origin mailer request h r hr⟩

/-- C21 (code defect): a request without an `Origin` header, and one whose `Origin`
header is empty, does not carry the origin of the request URL, and the comment on the
check says that only same-origin requests are accepted; the handler does not answer it
with status 403 but goes on, with a complete payload, to build the message for the mail
API, whatever that API then does. -/
theorem missing_origin_not_rejected (mailer : Draft → Delivery) (host : Str) :
    ((onRequestPost mailer { origin := none, host := host, json := some orderPayload }).mail
        = some orderDraft
      ∧ ∀ r, (onRequestPost mailer
          { origin := none, host := host, json := some orderPayload }).response = some r →
        r.status ≠ 403)
    ∧ ((onRequestPost mailer { origin := some [], host := host, json := some orderPayload }).mail
        = some orderDraft
      ∧ ∀ r, (onRequestPost mailer
          { origin := some [], host := host, json := some orderPayload }).response = some r →
        r.status ≠ 403) := by
  have hm : ∀ request : Request, request.origin.getD [] = [] →
      request.json = some orderPayload → (onRequestPost mailer request).mail = some orderDraft := by
    intro request h hj
    rw [onRequestPost_of_same_origin mailer request (Or.inl h)]
    simp only [hj, readFields_orderPayload]
    have he : (List.isEmpty "anfrage@weichware-lohr.de".toList
        || List.isEmpty "Bestellung".toList || List.isEmpty "Zwei Flaschen Saft".toList)
        = false := by decide
    rw [if_neg (by rw [he]; exact Bool.false_ne_true)]
    unfold sendMail
    have hd : draftOf { to_ := "anfrage@weichware-lohr.de".toList,
                        replyTo := "kundin@example.org".toList,
                        subject := "Bestellung".toList,
                        text := "Zwei Flaschen Saft".toList } = orderDraft := by decide
    simp only [hd]
    split <;> rfl
  exact ⟨⟨hm _ rfl rfl, fun r hr =>
      onRequestPost_status_of_same_origin mailer
        { origin := none, host := host, json := some orderPayload } (Or.inl rfl) r hr⟩,
    ⟨hm _ rfl rfl, fun r hr =>
      onRequestPost_status_of_same_origin mailer
        { origin := some [], host := host, json := some orderPayload } (Or.inl rfl) r hr⟩⟩

/-! ## The field check of the mail handler -/

theorem esc_eq (payload : Json) (key : Str) (h : fieldStringable payload key = true) :
    esc (payload.getProp key) = some (fieldText payload key) := by
  unfold fieldStringable at h
  simp only [esc, h, if_true, fieldText]

theorem readFields_null : readFields .null = none := rfl

theorem payloadProp_of_ne_null (payload : Json) (key : Str) (h : payload ≠ .null) :
    payloadProp payload key = some (payload.getProp key) := by
  cases payload <;> first | rfl | exact absurd rfl h

theorem readFields_eq_some (payload : Json) (hnull : payload ≠ .null)
    (h1 : fieldStringable payload "to".toList = true)
    (h2 : fieldStringable payload "replyTo".toList = true)
    (h3 : fieldStringable payload "subject".toList = true)
    (h4 : fieldStringable payload "text".toList = true) :
    readFields payload
      = some { to_ := fieldText payload "to".toList, replyTo := fieldText payload "replyTo".toList,
               subject := fieldText payload "subject".toList,
               text := fieldText payload "text".toList } := by
  simp only [readFields, payloadProp_of_ne_null _ _ hnull, esc_eq _ _ h1, esc_eq _ _ h2,
    esc_eq _ _ h3, esc_eq _ _ h4, Option.bind_eq_bind, Option.some_bind, Option.pure_def]

/-- On a same-origin request whose payload is not `null` and whose four fields `String`
can convert, the handler answers "missing fields" with status 400 and hands no message to
the mail API as soon as `to`, `subject` or `text` is empty after `esc`; otherwise it goes
on to the mail API, whatever `replyTo` is. -/
theorem missing_fields_rejected (mailer : Draft → Delivery) (request : Request) (payload : Json)
    (horigin : request.origin = some request.host) (hjson : request.json = some payload)
    (hnull : payload ≠ .null)
    (h1 : fieldStringable payload "to".toList = true)
    (h2 : fieldStringable payload "replyTo".toList = true)
    (h3 : fieldStringable payload "subject".toList = true)
    (h4 : fieldStringable payload "text".toList = true) :
    ((fieldText payload "to".toList = [] ∨ fieldText payload "subject".toList = []
        ∨ fieldText payload "text".toList = []) →
      onRequestPost mailer request = { response := some missingFields, mail := none })
    ∧ (fieldText payload "to".toList ≠ [] → fieldText payload "subject".toList ≠ []
        → fieldText payload "text".toList ≠ [] →
      (onRequestPost mailer request).mail
        = some { from_ := "anfrage@weichware-lohr.de".toList
                 to_ := fieldText payload "to".toList
                 text := fieldText payload "text".toList
                 subject := fieldText payload "subject".toList
                 replyTo := if fieldText payload "replyTo".toList = [] then none
                            else some (fieldText payload "replyTo".toList) }) := by
  rw [onRequestPost_of_same_origin mailer request (Or.inr horigin)]
  simp only [hjson, readFields_eq_some payload hnull h1 h2 h3 h4]
  constructor
  · intro h
    have : (List.isEmpty (fieldText payload "to".toList)
        || List.isEmpty (fieldText payload "subject".toList)
        || List.isEmpty (fieldText payload "text".toList)) = true := by
      rcases h with h | h | h <;> rw [h] <;> simp
    rw [if_pos this]
  · intro ha hb hc
    have hne : ∀ s : Str, s ≠ [] → s.isEmpty = false := fun s hs => by
      cases s with
      | nil => exact absurd rfl hs
      | cons c cs => rfl
    rw [hne _ ha, hne _ hb, hne _ hc]
    simp only [Bool.or_self, Bool.false_eq_true, if_false]
    unfold sendMail
    have hd : draftOf
        { to_ := fieldText payload "to".toList
          replyTo := fieldText payload "replyTo".toList
          subject := fieldText payload "subject".toList
          text := fieldText payload "text".toList }
        = { from_ := "anfrage@weichware-lohr.de".toList
            to_ := fieldText payload "to".toList
            text := fieldText payload "text".toList
            subject := fieldText payload "subject".toList
            replyTo := if fieldText payload "replyTo".toList = [] then none
                       else some (fieldText payload "replyTo".toList) } := by
      simp only [draftOf, List.isEmpty_iff]
    simp only [hd]
    split <;> rfl

/-- C22 (code defect): a same-origin request whose JSON payload is `null` has no `to`,
`subject` or `text`, and so has one whose `to` is an object that `String` cannot convert
and whose `subject` is missing; on both the handler throws while it reads the fields, so
it gives no response at all where the claim promises status 400 and "missing fields".  It
hands no message to the mail API. -/
theorem missing_fields_handler_throws (mailer : Draft → Delivery) (host : Str) :
    onRequestPost mailer { origin := some host, host := host, json := some .null }
      = { response := none, mail := none }
    ∧ onRequestPost mailer
        { origin := some host, host := host, json := some brokenRecipientPayload }
      = { response := none, mail := none } := by
  constructor
  · rw [onRequestPost_of_same_origin mailer _ (Or.inr rfl)]
    rfl
  · rw [onRequestPost_of_same_origin mailer _ (Or.inr rfl)]
    have h : readFields brokenRecipientPayload = none := by
      have hp : payloadProp brokenRecipientPayload "to".toList
          = some (some (.obj [("toString".toList, .null)])) := rfl
      have he : esc (some (.obj [("toString".toList, .null)])) = none := by
        simp [esc, jsOr, Json.truthy, Json.stringable]
      simp only [readFields, hp, he, Option.bind_eq_bind, Option.some_bind, Option.none_bind]
    simp only [h]

/-! ## The date of a calendar item -/

theorem calendarStep_some (items out : List CalendarItem) (e : Str × Option Json)
    (h : calendarStep items e = some out) :
    out = items ∨ ∃ ev d, e.2 = some ev ∧ ev.getProp "date".toList = some d
      ∧ d.truthy = true ∧ out = items ++ [calendarItem e.1 ev] := by
  obtain ⟨f, o⟩ := e
  cases o with
  | none =>
    simp only [calendarStep] at h
    exact Or.inl (Option.some.inj h).symm
  | some ev =>
    unfold calendarStep at h
    simp only at h
    cases hd : ev.getProp "date".toList with
    | none =>
      rw [hd] at h
      simp only [truthy?, Bool.not_false, Bool.or_true, if_true] at h
      exact Or.inl (Option.some.inj h).symm
    | some d =>
      rw [hd] at h
      by_cases ht : d.truthy = true
      · by_cases hev : ev.truthy = true
        · simp only [truthy?, ht, hev, Bool.not_true, Bool.or_self, Bool.false_eq_true,
            if_false] at h
          split_ifs at h
          exact Or.inr ⟨ev, d, rfl, hd, ht, (Option.some.inj h).symm⟩
        · simp only [truthy?, hev, Bool.not_false, Bool.true_or, if_true] at h
          exact Or.inl (Option.some.inj h).symm
      · simp only [truthy?, ht, Bool.not_false, Bool.or_true, if_true] at h
        exact Or.inl (Option.some.inj h).symm

theorem foldlM_calendarStep_mem (files : List (Str × Option Json)) (acc out : List CalendarItem)
    (h : files.foldlM calendarStep acc = some out) (item : CalendarItem) (hi : item ∈ out) :
    item ∈ acc ∨ ∃ e ∈ files, ∃ ev d, e.2 = some ev ∧ ev.getProp "date".toList = some d
      ∧ d.truthy = true ∧ item = calendarItem e.1 ev := by
  induction files generalizing acc with
  | nil =>
    simp only [List.foldlM_nil, Option.pure_def, Option.some.injEq] at h
    exact Or.inl (h ▸ hi)
  | cons e rest ih =>
    rw [List.foldlM_cons] at h
    cases hstep : calendarStep acc e with
    | none =>
      rw [hstep] at h
      exact absurd h (by simp)
    | some mid =>
      rw [hstep] at h
      simp only [Option.bind_eq_bind, Option.some_bind] at h
      rcases ih mid h with hm | ⟨e2, he2, rest2⟩
      · rcases calendarStep_some acc mid e hstep with hsame | ⟨ev, d, h1, h2, h3, h4⟩
        · exact Or.inl (hsame ▸ hm)
        · rw [h4, List.mem_append, List.mem_singleton] at hm
          rcases hm with hm | hm
          · exact Or.inl hm
          · exact Or.inr ⟨e, List.mem_cons_self _ _, ev, d, h1, h2, h3, hm⟩
      · exact Or.inr ⟨e2, List.mem_cons_of_mem _ he2, rest2⟩

theorem calendarItem_date (f : Str) (ev d : Json) (hd : ev.getProp "date".toList = some d)
    (ht : d.truthy = true) : (calendarItem f ev).date = (toUnits d.toJsString).take 10 := by
  simp only [calendarItem, hd, jsOr, ht, if_true, slice10]

theorem toUnits_eq_nil_iff (s : Str) : toUnits s = [] ↔ s = [] := by
  cases s with
  | nil => exact ⟨fun _ => rfl, fun _ => rfl⟩
  | cons c r =>
    constructor
    · intro h
      simp only [toUnits, List.flatMap_cons, List.append_eq_nil, utf16] at h
      split_ifs at h <;> simp at h
    · intro h
      cases h

theorem take_ten_eq_nil_iff (u : Units) : u.take 10 = [] ↔ u = [] := by
  cases u with
  | nil => exact ⟨fun _ => rfl, fun _ => rfl⟩
  | cons a r => simp

theorem toJsString_ne_nil (d : Json) (ht : d.truthy = true) (ha : d.isArray = false)
    (hn : numberTextPresent d = true) : d.toJsString ≠ [] := by
  cases d with
  | null => simp [Json.truthy] at ht
  | bool b =>
    cases b
    · simp [Json.truthy] at ht
    · simp [Json.toJsString]
  | num n =>
    simp only [numberTextPresent, Bool.not_eq_true', List.isEmpty_eq_false] at hn
    simpa [Json.toJsString] using hn
  | str s =>
    simp only [Json.truthy, Bool.not_eq_true', List.isEmpty_eq_false] at ht
    simpa [Json.toJsString] using ht
  | arr items => simp [Json.isArray] at ha
  | obj fields => simp [Json.toJsString]

theorem buildCalendarIndex_item (c : Collation) (g : Str)
    (dir : Option (List (Str × Option Json)))
    (idx : Index CalendarItem) (h : buildCalendarIndex c g dir = some idx)
    (item : CalendarItem) (hi : item ∈ idx.items) :
    ∃ entries, dir = some entries ∧ ∃ e ∈ entries, ∃ ev d, e.2 = some ev
      ∧ ev.getProp "date".toList = some d ∧ d.truthy = true ∧ item = calendarItem e.1 ev := by
  cases dir with
  | none =>
    simp only [buildCalendarIndex, Option.some.injEq] at h
    rw [← h] at hi
    exact absurd hi (List.not_mem_nil _)
  | some entries =>
    refine ⟨entries, rfl, ?_⟩
    simp only [buildCalendarIndex] at h
    cases hf : (entries.filter fun e => isJsonFile e.1).foldlM calendarStep [] with
    | none =>
      rw [hf] at h
      exact absurd h (by simp)
    | some out =>
      rw [hf] at h
      simp only [Option.map_some', Option.some.injEq] at h
      rw [← h] at hi
      have hm : item ∈ out := (jsSort_perm (byDate c) out).mem_iff.mp hi
      rcases foldlM_calendarStep_mem _ [] out hf item hm with hnil | ⟨e, he, rest⟩
      · exact absurd hnil (List.not_mem_nil _)
      · exact ⟨e, (List.mem_filter.mp he).1, rest⟩

/-- C23 (amended): whenever `buildCalendarIndex` returns, every item of the index comes
from an event file with a truthy `date`, and the item's date is a string of at most 10
UTF-16 code units, equal to the first 10 code units of `String(date)`.  It is empty
exactly when `String(date)` is empty, which does not happen for a date that is not an
array. -/
theorem calendar_item_date (c : Collation) (g : Str) (dir : Option (List (Str × Option Json)))
    (idx : Index CalendarItem) (h : buildCalendarIndex c g dir = some idx) :
    ∀ item ∈ idx.items, ∃ entries, dir = some entries ∧ ∃ e ∈ entries, ∃ ev d,
      e.2 = some ev ∧ ev.getProp "date".toList = some d
      ∧ item.date = (toUnits d.toJsString).take 10
      ∧ item.date.length ≤ 10
      ∧ (item.date = [] ↔ d.toJsString = [])
      ∧ (d.isArray = false → numberTextPresent d = true → item.date ≠ []) := by
  intro item hi
  obtain ⟨entries, hdir, e, he, ev, d, h1, h2, h3, h4⟩ :=
    buildCalendarIndex_item c g dir idx h item hi
  have hdate : item.date = (toUnits d.toJsString).take 10 := by
    rw [h4]; exact calendarItem_date e.1 ev d h2 h3
  have hiff : item.date = [] ↔ d.toJsString = [] := by
    rw [hdate, take_ten_eq_nil_iff, toUnits_eq_nil_iff]
  refine ⟨entries, hdir, e, he, ev, d, h1, h2, hdate, ?_, hiff, ?_⟩
  · rw [hdate]
    exact List.length_take_le _ _
  · intro ha hn h0
    exact toJsString_ne_nil d h3 ha hn (hiff.mp h0)

theorem emojiDateExample_stringable : DatesStringable emojiDateExample := by
  intro e he ev d h1 h2
  simp only [emojiDateExample, List.mem_singleton] at he
  subst he
  simp only [Option.some.injEq] at h1
  subst h1
  simp only [dateOnlyEvent, Json.getProp, List.find?, beq_self_eq_true, Option.map_some',
    Option.some.injEq] at h2
  subst h2
  simp [Json.stringable]

theorem emojiDateExample_date :
    (calendarItemOf ("a.json".toList, some (dateOnlyEvent ('a' :: emojiDate)))).date
      = [0x61, 0xd83d, 0xde00, 0xd83d, 0xde00, 0xd83d, 0xde00, 0xd83d, 0xde00, 0xd83d] := by
  simp only [calendarItemOf, Option.getD_some]
  rw [calendarItem_dateOnly_date _ _ (by simp)]
  decide

/-- C23 (amended) at a calendar folder with one event whose date is the letter `a`
followed by six times U+1F600: the index holds one item, and its date is the first ten
code units of that text, the last one being half of a surrogate pair. -/
theorem calendar_item_date_witness :
    buildCalendarIndex caseBlindCollation [] (some emojiDateExample)
      = some { generatedAt := [],
               items := [calendarItemOf
                 ("a.json".toList, some (dateOnlyEvent ('a' :: emojiDate)))] }
    ∧ (calendarItemOf ("a.json".toList, some (dateOnlyEvent ('a' :: emojiDate)))).date
      = [0x61, 0xd83d, 0xde00, 0xd83d, 0xde00, 0xd83d, 0xde00, 0xd83d, 0xde00, 0xd83d]
    ∧ ∀ item ∈ [calendarItemOf ("a.json".toList, some (dateOnlyEvent ('a' :: emojiDate)))],
        ∃ entries, some emojiDateExample = some entries ∧ ∃ e ∈ entries, ∃ ev d,
          e.2 = some ev ∧ ev.getProp "date".toList = some d
          ∧ item.date = (toUnits d.toJsString).take 10
          ∧ item.date.length ≤ 10
          ∧ (item.date = [] ↔ d.toJsString = [])
          ∧ (d.isArray = false → numberTextPresent d = true → item.date ≠ []) :=
  have hb : buildCalendarIndex caseBlindCollation [] (some emojiDateExample)
      = some { generatedAt := [],
               items := [calendarItemOf
                 ("a.json".toList, some (dateOnlyEvent ('a' :: emojiDate)))] } := by
    rw [buildCalendarIndex_eq caseBlindCollation [] emojiDateExample emojiDateExample_stringable]
    have hv : emojiDateExample.filter calendarValid = emojiDateExample := by
      have h1 : calendarValid ("a.json".toList, some (dateOnlyEvent ('a' :: emojiDate)))
          = true := by
        decide
      simp only [emojiDateExample, List.filter_cons, h1, if_true, List.filter_nil]
    rw [hv]
    rfl
  ⟨hb, emojiDateExample_date,
   calendar_item_date caseBlindCollation [] (some emojiDateExample) _ hb⟩

/-- C23 as written fails: an event file whose `date` is the empty array passes the test
`!ev.date`, and `String([])` is the empty string, so the item's date is empty. -/
theorem calendar_item_date_counterexample :
    (buildCalendarIndex caseBlindCollation [] (some arrayDateExample)).map
        (fun idx => idx.items.map (·.date))
      = some [[]] := by
  have hj : isJsonFile "a.json".toList = true := by decide
  have hd : (Json.obj [("date".toList, Json.arr [])]).getProp "date".toList
      = some (Json.arr []) := rfl
  have hs : (Json.arr []).stringable = true := by simp [Json.stringable, Json.allStringable]
  have hstr : (Json.arr []).toJsString = [] := by simp [Json.toJsString, Json.joinItems]
  simp only [buildCalendarIndex, arrayDateExample, List.filter_cons, hj, if_true,
    List.filter_nil, List.foldlM_cons, List.foldlM_nil, calendarStep, hd, truthy?, Json.truthy,
    jsOr, hs, calendarItem, hstr]
  rfl

/-! ## The denylist of `pickFiles` -/

theorem endsWithDotExt_apart (as bs : List Str) (name : Str) (h : extsApart as bs = true)
    (ha : endsWithDotExt as name = true) : endsWithDotExt bs name = false := by
  cases hb : endsWithDotExt bs name with
  | false => rfl
  | true =>
    exfalso
    simp only [endsWithDotExt, List.any_eq_true, List.isSuffixOf_iff_suffix] at ha hb
    obtain ⟨a, hamem, hasuf⟩ := ha
    obtain ⟨b, hbmem, hbsuf⟩ := hb
    simp only [extsApart, List.all_eq_true, Bool.and_eq_true, Bool.not_eq_true',
      ← Bool.not_eq_true, List.isSuffixOf_iff_suffix] at h
    have hab := h a hamem b hbmem
    rcases List.suffix_or_suffix_of_suffix hasuf hbsuf with h1 | h1
    · exact hab.1 h1
    · exact hab.2 h1

theorem IGNORE_RE_eq (name : Str) : IGNORE_RE name = endsWithDotExt ignoredExts name := rfl

theorem not_IMG_of_ignored (name : Str) (h : IGNORE_RE name = true) : IMG_RE name = false :=
  endsWithDotExt_apart ignoredExts _ name (by decide) h

theorem not_TXT_of_ignored (name : Str) (h : IGNORE_RE name = true) : TXT_RE name = false :=
  endsWithDotExt_apart ignoredExts _ name (by decide) h

theorem not_HTML_of_ignored (name : Str) (h : IGNORE_RE name = true) : HTML_RE name = false :=
  endsWithDotExt_apart ignoredExts _ name (by decide) h

theorem not_MD_of_ignored (name : Str) (h : IGNORE_RE name = true) : MD_RE name = false :=
  endsWithDotExt_apart ignoredExts _ name (by decide) h

theorem TXT_of_excerpt (name : Str) (h : (toLowerCase name == "excerpt.txt".toList) = true) :
    TXT_RE name = true := by
  have e : toLowerCase name = "excerpt.txt".toList := by simpa using h
  simp only [TXT_RE, endsWithDotExt, e]
  decide

theorem not_excerpt_of_ignored (name : Str) (h : IGNORE_RE name = true) :
    (toLowerCase name == "excerpt.txt".toList) = false := by
  cases he : (toLowerCase name == "excerpt.txt".toList) with
  | false => rfl
  | true =>
    have := not_TXT_of_ignored name h
    rw [TXT_of_excerpt name he] at this
    exact absurd this (by decide)

theorem find?_filter_ignored (p : Str → Bool) (l : List Str)
    (h : ∀ x, IGNORE_RE x = true → p x = false) :
    (l.filter fun name => !IGNORE_RE name).find? p = l.find? p := by
  apply find?_filter_of_imp
  intro x hp
  cases hi : IGNORE_RE x with
  | false => rfl
  | true =>
    rw [h x hi] at hp
    exact absurd hp (by decide)

theorem find?_getD_of_imp (p : Str → Bool) (l : List Str) (q : Str → Prop) (h0 : q [])
    (h : ∀ x, p x = true → q x) : q ((l.find? p).getD []) := by
  cases hf : l.find? p with
  | none => exact h0
  | some x => exact h x (List.find?_some hf)

theorem strOr_cases (q : Str → Prop) (s d : Str) (hs : q s) (hd : q d) : q (strOr s d) := by
  unfold strOr
  split_ifs
  · exact hd
  · exact hs

theorem not_ignored_of (p : Str → Bool) (h : ∀ x, IGNORE_RE x = true → p x = false) (x : Str)
    (hp : p x = true) : IGNORE_RE x = false := by
  cases hi : IGNORE_RE x with
  | false => rfl
  | true =>
    rw [h x hi] at hp
    exact absurd hp (by decide)

theorem pickFiles_roles_eq (fileNames : List Str) :
    (pickFiles fileNames).roles = (pickFilesUnfiltered fileNames).roles := by
  simp only [PickedFiles.roles, pickFiles, pickFilesUnfiltered,
    find?_filter_ignored _ _ not_IMG_of_ignored, find?_filter_ignored _ _ not_TXT_of_ignored,
    find?_filter_ignored _ _ not_HTML_of_ignored, find?_filter_ignored _ _ not_MD_of_ignored,
    find?_filter_ignored _ _ not_excerpt_of_ignored]

theorem pickFiles_not_ignored (fileNames : List Str) :
    IGNORE_RE (pickFiles fileNames).cover = false
    ∧ IGNORE_RE (pickFiles fileNames).excerptFile = false
    ∧ IGNORE_RE (pickFiles fileNames).contentFile = false := by
  have h0 : IGNORE_RE [] = false := by decide
  refine ⟨?_, ?_, ?_⟩
  · exact find?_getD_of_imp IMG_RE _ (fun x => IGNORE_RE x = false) h0
      (not_ignored_of IMG_RE not_IMG_of_ignored)
  · exact strOr_cases (fun x => IGNORE_RE x = false) _ _
      (find?_getD_of_imp _ _ (fun x => IGNORE_RE x = false) h0
        (not_ignored_of _ not_excerpt_of_ignored))
      (find?_getD_of_imp TXT_RE _ (fun x => IGNORE_RE x = false) h0
        (not_ignored_of TXT_RE not_TXT_of_ignored))
  · exact strOr_cases (fun x => IGNORE_RE x = false) _ _
      (find?_getD_of_imp HTML_RE _ (fun x => IGNORE_RE x = false) h0
        (not_ignored_of HTML_RE not_HTML_of_ignored))
      (find?_getD_of_imp MD_RE _ (fun x => IGNORE_RE x = false) h0
        (not_ignored_of MD_RE not_MD_of_ignored))

theorem pickFiles_remove_ignored (a b : List Str) (d : Str) (hd : IGNORE_RE d = true) :
    pickFiles (a ++ b) = pickFiles (a ++ d :: b) := by
  have hf : (a ++ d :: b).filter (fun name => !IGNORE_RE name)
      = (a ++ b).filter (fun name => !IGNORE_RE name) := by
    rw [List.filter_append, List.filter_append, List.filter_cons_of_neg (by simp [hd])]
  simp only [pickFiles, hf]

/-- C24: for every list of file names, the cover, the excerpt file and the content file
chosen by `pickFiles` are the ones chosen when the denylist filter is left out; none of
the three is a denylisted name; and taking a denylisted name out of the list changes
neither the result of `pickFiles` nor the three files chosen without the filter. -/
theorem pickFiles_denylist (fileNames : List Str) :
    (pickFiles fileNames).roles = (pickFilesUnfiltered fileNames).roles
    ∧ (IGNORE_RE (pickFiles fileNames).cover = false
      ∧ IGNORE_RE (pickFiles fileNames).excerptFile = false
      ∧ IGNORE_RE (pickFiles fileNames).contentFile = false)
    ∧ ∀ a d b, fileNames = a ++ d :: b → IGNORE_RE d = true →
        pickFiles (a ++ b) = pickFiles fileNames
        ∧ (pickFilesUnfiltered (a ++ b)).roles = (pickFilesUnfiltered fileNames).roles := by
  refine ⟨pickFiles_roles_eq fileNames, pickFiles_not_ignored fileNames, ?_⟩
  intro a d b hl hd
  subst hl
  refine ⟨pickFiles_remove_ignored a b d hd, ?_⟩
  rw [← pickFiles_roles_eq, ← pickFiles_roles_eq, pickFiles_remove_ignored a b d hd]

/-- C24 at a folder with a denylisted document before a cover, an excerpt and a Markdown
file. -/
theorem pickFiles_denylist_witness :
    IGNORE_RE "notes.docx".toList = true
    ∧ pickFiles ["cover.png".toList, "excerpt.txt".toList, "post.md".toList]
      = pickFiles ["notes.docx".toList, "cover.png".toList, "excerpt.txt".toList,
          "post.md".toList]
    ∧ (pickFilesUnfiltered ["cover.png".toList, "excerpt.txt".toList, "post.md".toList]).roles
      = (pickFilesUnfiltered ["notes.docx".toList, "cover.png".toList, "excerpt.txt".toList,
          "post.md".toList]).roles :=
  ⟨by decide,
   (pickFiles_denylist ["notes.docx".toList, "cover.png".toList, "excerpt.txt".toList,
      "post.md".toList]).2.2 [] "notes.docx".toList
      ["cover.png".toList, "excerpt.txt".toList, "post.md".toList] rfl (by decide)⟩

/-! ## `mdToHtml` and the line-ending convention -/

theorem withCRLF_cons (c : Char) (s : Str) :
    withCRLF (c :: s) = (if c = '\n' then "\r\n".toList else [c]) ++ withCRLF s := rfl

theorem withCRLF_ne_lf_cons (s r : Str) : withCRLF s ≠ '\n' :: r := by
  cases s with
  | nil => exact fun h => by cases h
  | cons c t =>
    rw [withCRLF_cons]
    by_cases hc : c = '\n'
    · rw [if_pos hc]
      intro h
      have := (List.cons.inj h).1
      exact absurd this (by decide)
    · rw [if_neg hc]
      intro h
      exact hc (List.cons.inj h).1

theorem replaceCRLF_withCRLF (s : Str) : replaceCRLF (withCRLF s) = s := by
  induction s with
  | nil => rfl
  | cons c t ih =>
    rw [withCRLF_cons]
    by_cases hc : c = '\n'
    · rw [if_pos hc, hc]
      show replaceCRLF ('\r' :: '\n' :: withCRLF t) = '\n' :: t
      rw [replaceCRLF, ih]
    · rw [if_neg hc]
      show replaceCRLF (c :: withCRLF t) = c :: t
      rw [replaceCRLF, ih]
      intro r _ e
      exact withCRLF_ne_lf_cons t r e

theorem trimEnd_append_all_ws (s w : Str) (h : ∀ c ∈ w, isWhiteSpace c = true) :
    trimEnd (s ++ w) = trimEnd s := by
  induction w using List.reverseRecOn with
  | nil => simp
  | append_singleton w c ih =>
    rw [← List.append_assoc, trimEnd_append_ws _ c (h c (by simp))]
    exact ih fun x hx => h x (by simp [hx])

theorem trimEnd_decomp (s : Str) : ∃ w, s = trimEnd s ++ w ∧ ∀ c ∈ w, isWhiteSpace c = true := by
  induction s using List.reverseRecOn with
  | nil => exact ⟨[], rfl, fun c hc => absurd hc (List.not_mem_nil _)⟩
  | append_singleton t c ih =>
    obtain ⟨w, hw, hall⟩ := ih
    by_cases hc : isWhiteSpace c = true
    · refine ⟨w ++ [c], ?_, ?_⟩
      · rw [trimEnd_append_ws t c hc, ← List.append_assoc, ← hw]
      · intro x hx
        rcases List.mem_append.mp hx with hx | hx
        · exact hall x hx
        · rw [List.mem_singleton.mp hx]; exact hc
    · have hc' : isWhiteSpace c = false := by simpa using hc
      refine ⟨[], ?_, fun c hc => absurd hc (List.not_mem_nil _)⟩
      rw [trimEnd_append_not_ws t c hc', List.append_nil]

theorem trimEnd_append_trimEnd (a l : Str) : trimEnd (a ++ trimEnd l) = trimEnd (a ++ l) := by
  obtain ⟨w, hw, hall⟩ := trimEnd_decomp l
  conv_rhs => rw [hw, ← List.append_assoc]
  rw [trimEnd_append_all_ws _ w hall]

theorem trimEnd_cons_congr (c : Char) (l1 l2 : Str) (h : trimEnd l1 = trimEnd l2) :
    trimEnd (c :: l1) = trimEnd (c :: l2) := by
  have e1 := trimEnd_append_trimEnd [c] l1
  have e2 := trimEnd_append_trimEnd [c] l2
  simp only [List.singleton_append] at e1 e2
  rw [← e1, ← e2, h]

theorem classify_congr (a b : Str) (h : trimEnd a = trimEnd b) : classify a = classify b := by
  unfold classify
  rw [h]

theorem render_congr (b : Bool) (l1 l2 : List Str) (h : l1.map trimEnd = l2.map trimEnd) :
    render b l1 = render b l2 := by
  induction l1 generalizing b l2 with
  | nil =>
    cases l2 with
    | nil => rfl
    | cons x xs => simp at h
  | cons a as ih =>
    cases l2 with
    | nil => simp at h
    | cons x xs =>
      simp only [List.map_cons, List.cons.injEq] at h
      simp only [render, classify_congr a x h.1, ih _ xs h.2]

theorem splitLines_lf (s : Str) : splitLines ('\n' :: s) = [] :: splitLines s := by
  rw [splitLines, if_pos rfl]

theorem splitLines_cons_of_ne (c : Char) (s : Str) (hc : c ≠ '\n') :
    splitLines (c :: s) = (c :: (splitLines s).headD []) :: (splitLines s).tail := by
  rw [splitLines, if_neg hc]
  split <;> rename_i h <;> rw [h] <;> rfl

theorem splitLines_cons_congr (c : Char) (s1 s2 : Str)
    (h : (splitLines s1).map trimEnd = (splitLines s2).map trimEnd) :
    (splitLines (c :: s1)).map trimEnd = (splitLines (c :: s2)).map trimEnd := by
  by_cases hc : c = '\n'
  · rw [hc, splitLines_lf, splitLines_lf, List.map_cons, List.map_cons, h]
  · rw [splitLines_cons_of_ne c s1 hc, splitLines_cons_of_ne c s2 hc]
    cases h1 : splitLines s1 with
    | nil =>
      cases h2 : splitLines s2 with
      | nil => rfl
      | cons x xs => rw [h1, h2] at h; simp at h
    | cons a as =>
      cases h2 : splitLines s2 with
      | nil => rw [h1, h2] at h; simp at h
      | cons x xs =>
        rw [h1, h2] at h
        simp only [List.map_cons, List.cons.injEq] at h
        simp only [List.map_cons, List.headD_cons, List.tail_cons,
          trimEnd_cons_congr c a x h.1, h.2]

theorem splitLines_replaceCRLF (s : Str) :
    (splitLines (replaceCRLF s)).map trimEnd = (splitLines s).map trimEnd := by
  induction s using replaceCRLF.induct with
  | case1 rest ih =>
    rw [replaceCRLF, splitLines_lf, splitLines_cons_of_ne '\r' _ (by decide), splitLines_lf]
    simp only [List.map_cons, List.headD_cons, List.tail_cons, ih]
    congr 1
  | case2 c rest hne ih =>
    rw [replaceCRLF]
    · exact splitLines_cons_congr c _ _ ih
    · exact hne
  | case3 => rfl

/-- C25: for every Markdown text, `mdToHtml` gives the same output for the text and for
the text with every line feed replaced by a carriage return and a line feed. -/
theorem mdToHtml_line_endings (md : Str) : mdToHtml (withCRLF md) = mdToHtml md := by
  rw [mdToHtml_eq_render, mdToHtml_eq_render, replaceCRLF_withCRLF,
    render_congr false _ _ (splitLines_replaceCRLF md)]

/-! ## List lines followed by a paragraph -/

theorem trimEnd_append_of_ne_nil (a x : Str) (h : trimEnd x ≠ []) :
    trimEnd (a ++ x) = a ++ trimEnd x := by
  obtain ⟨w, hw, hall⟩ := trimEnd_decomp x
  conv_lhs => rw [hw, ← List.append_assoc]
  rw [trimEnd_append_all_ws _ w hall]
  apply trimEnd_eq_self
  intro c hc
  rw [List.getLast?_append_of_ne_nil _ h] at hc
  exact trimEnd_getLast_not_ws x c hc

theorem trimStart_trimEnd (x : Str) : trimStart (trimEnd x) = trim x := by
  unfold trim
  by_cases hall : ∀ c ∈ x, isWhiteSpace c = true
  · rw [(trimEnd_eq_nil_iff x).mpr hall, (trimStart_eq_nil_iff x).mpr hall]
    rfl
  · have ht : trimStart x ≠ [] := fun e => hall ((trimStart_eq_nil_iff x).mp e)
    have hx : x = x.takeWhile isWhiteSpace ++ trimStart x :=
      (List.takeWhile_append_dropWhile isWhiteSpace x).symm
    have hv : ∀ c ∈ x.takeWhile isWhiteSpace, isWhiteSpace c = true :=
      fun c hc => List.mem_takeWhile_imp hc
    have hhead : ∀ c ∈ (trimStart x).head?, isWhiteSpace c = false := by
      intro c hc
      have := List.head?_dropWhile_not isWhiteSpace x
      unfold trimStart at hc
      rw [Option.mem_def] at hc
      rw [hc] at this
      simpa using this
    have hte : trimEnd (trimStart x) ≠ [] := by
      intro e
      rw [trimEnd_eq_nil_iff] at e
      cases hts : trimStart x with
      | nil => exact ht hts
      | cons c r =>
        have h1 := hhead c (by rw [hts]; simp)
        have h2 := e c (by rw [hts]; simp)
        rw [h1] at h2
        exact Bool.noConfusion h2
    conv_lhs => rw [hx]
    rw [trimEnd_append_of_ne_nil _ _ hte]
    unfold trimStart
    rw [List.dropWhile_append_of_pos hv]
    apply dropWhile_ws_of_head
    intro c hc
    obtain ⟨t, htt⟩ := trimEnd_initial (x.dropWhile isWhiteSpace)
    cases hd : trimEnd (x.dropWhile isWhiteSpace) with
    | nil => rw [hd] at hc; simp at hc
    | cons a r =>
      rw [hd] at hc htt
      simp only [List.head?_cons, Option.mem_def, Option.some.injEq] at hc
      subst hc
      apply hhead
      unfold trimStart
      rw [← htt]
      simp

theorem classify_item_line (x : Str) (hx : ItemText x) :
    classify ("- ".toList ++ x) = .item (trim x) := by
  obtain ⟨_, hne, hlt⟩ := hx
  have hte : trimEnd x ≠ [] := by
    intro e
    exact hne ((trim_eq_nil_iff x).mpr ((trimEnd_eq_nil_iff x).mp e))
  have htrim : trimEnd ("- ".toList ++ x) = "- ".toList ++ trimEnd x :=
    trimEnd_append_of_ne_nil _ _ hte
  have hnb : ¬ (trim (trimEnd ("- ".toList ++ x))).isEmpty = true := by
    rw [blank_iff]
    intro hall
    have := hall '-' (by simp)
    exact absurd this (by decide)
  have hsplit : trimEnd x = (trimEnd x).takeWhile isWhiteSpace ++ trim x := by
    rw [← trimStart_trimEnd]
    exact (List.takeWhile_append_dropWhile isWhiteSpace (trimEnd x)).symm
  have hhead : ∀ c ∈ (trim x).head?, isWhiteSpace c = false := by
    intro c hc
    rw [← trimStart_trimEnd] at hc
    have := List.head?_dropWhile_not isWhiteSpace (trimEnd x)
    unfold trimStart at hc
    rw [Option.mem_def] at hc
    rw [hc] at this
    simpa using this
  have hli : liMatch ("- ".toList ++ trimEnd x) = some (trim x) := by
    have e : "- ".toList ++ trimEnd x
        = '-' :: ((' ' :: (trimEnd x).takeWhile isWhiteSpace) ++ trim x) := by
      conv_lhs => rw [hsplit]
      rfl
    rw [e]
    apply liMatch_of_shape _ _ (by simp) _ hhead hlt
    intro c hc
    rcases List.mem_cons.mp hc with hc | hc
    · rw [hc]; decide
    · exact List.mem_takeWhile_imp hc
  have hh : hMatch ("- ".toList ++ trimEnd x) = none := hMatch_dash _
  unfold classify
  simp only
  rw [if_neg hnb, htrim, hh, hli]

theorem classify_para_line (p : Str) (hnb : ∃ c ∈ p, isWhiteSpace c = false)
    (hh : ¬ HeadingRegex (trimEnd p)) (hl : ¬ ListItemRegex (trimEnd p)) :
    classify p = .para (trimEnd p) := by
  have hb : ¬ (trim (trimEnd p)).isEmpty = true := by
    rw [blank_iff]
    intro hall
    obtain ⟨c, hc, hw⟩ := hnb
    rw [hall c hc] at hw
    exact Bool.noConfusion hw
  have h1 : hMatch (trimEnd p) = none := by
    cases hm : hMatch (trimEnd p) with
    | none => rfl
    | some v => exact absurd ((hMatch_isSome_iff _).mp (by rw [hm]; rfl)) hh
  have h2 : liMatch (trimEnd p) = none := by
    cases hm : liMatch (trimEnd p) with
    | none => rfl
    | some v => exact absurd ((liMatch_isSome_iff _).mp (by rw [hm]; rfl)) hl
  unfold classify
  simp only
  rw [if_neg hb, h1, h2]

theorem splitLines_intercalate (ls : List Str) (p : Str) (hls : ∀ l ∈ ls, '\n' ∉ l)
    (hp : '\n' ∉ p) : splitLines (List.intercalate ['\n'] (ls ++ [p])) = ls ++ [p] := by
  induction ls with
  | nil =>
    simp only [List.nil_append, List.intercalate, List.intersperse, List.flatten_cons,
      List.flatten_nil, List.append_nil]
    exact splitLines_of_no_lf _ hp
  | cons l rest ih =>
    rw [List.cons_append, intercalate_cons_append, splitLines_line _ _ (hls l (by simp)),
      ih (fun m hm => hls m (List.mem_cons_of_mem _ hm))]

theorem render_item_lines (xs : List Str) (p : Str) (hx : ∀ x ∈ xs, ItemText x)
    (hnb : ∃ c ∈ p, isWhiteSpace c = false)
    (hh : ¬ HeadingRegex (trimEnd p)) (hl : ¬ ListItemRegex (trimEnd p)) :
    render true (xs.map (fun x => "- ".toList ++ x) ++ [p]) =
      xs.flatMap (fun x => liHtml (trim x)) ++ ("</ul>\n".toList ++ pHtml (trimEnd p)) := by
  induction xs with
  | nil =>
    simp [render, classify_para_line p hnb hh hl, emitText, emitFlag, closeUl]
  | cons x rest ih =>
    rw [List.map_cons, List.cons_append, render, classify_item_line x (hx x (by simp))]
    simp only [emitText, emitFlag, if_true, List.nil_append]
    rw [ih (fun m hm => hx m (List.mem_cons_of_mem _ hm)), List.flatMap_cons, List.append_assoc]

/-- C2 (amended): list-entry lines `- x1`, ..., `- xk` (`k` at least 1, each text on one
line, not blank, and without a line terminator inside its trimmed text) followed by a
line `p` that is not blank and, with the white space at its end removed, matches neither
the heading nor the list pattern, render as one `<ul>` block with the `k` trimmed texts
as entries in input order, closed by `</ul>` before the paragraph of `p`. -/
theorem mdToHtml_list_then_paragraph (xs : List Str) (p : Str) (hxs : xs ≠ [])
    (hx : ∀ x ∈ xs, ItemText x) (hp : '\n' ∉ p)
    (hnb : ∃ c ∈ p, isWhiteSpace c = false)
    (hh : ¬ HeadingRegex (trimEnd p)) (hl : ¬ ListItemRegex (trimEnd p)) :
    mdToHtml (List.intercalate ['\n'] (xs.map (fun x => "- ".toList ++ x) ++ [p])) =
      "<ul>\n".toList
        ++ xs.flatMap (fun x => "<li>".toList ++ escapeHtml (trim x) ++ "</li>\n".toList)
        ++ "</ul>\n".toList
        ++ "<p>".toList ++ escapeHtml (trimEnd p) ++ "</p>".toList := by
  have hlines : ∀ l ∈ xs.map (fun x => "- ".toList ++ x), '\n' ∉ l := by
    intro l hlm
    obtain ⟨x, hxm, rfl⟩ := List.mem_map.mp hlm
    intro hm
    rcases List.mem_append.mp hm with hm | hm
    · exact absurd hm (by decide)
    · exact (hx x hxm).1 hm
  rw [mdToHtml_eq_dropLast, render_congr false _ _ (splitLines_replaceCRLF _),
    splitLines_intercalate _ _ hlines hp]
  obtain ⟨x, rest, rfl⟩ := List.exists_cons_of_ne_nil hxs
  rw [List.map_cons, List.cons_append, render, classify_item_line x (hx x (by simp))]
  simp only [emitText, emitFlag, Bool.false_eq_true, if_false]
  rw [render_item_lines rest p (fun m hm => hx m (List.mem_cons_of_mem _ hm)) hnb hh hl]
  have e : "<ul>\n".toList ++ liHtml (trim x)
      ++ (rest.flatMap (fun x => liHtml (trim x)) ++ ("</ul>\n".toList ++ pHtml (trimEnd p)))
      = ("<ul>\n".toList
        ++ (x :: rest).flatMap
            (fun x => "<li>".toList ++ escapeHtml (trim x) ++ "</li>\n".toList)
        ++ "</ul>\n".toList
        ++ "<p>".toList ++ escapeHtml (trimEnd p) ++ "</p>".toList) ++ ['\n'] := by
    simp [pHtml, liHtml, List.flatMap_cons]
  rw [e, List.dropLast_concat]

theorem itemText_a : ItemText "a".toList := ⟨by decide, by decide, by decide⟩

theorem itemText_b : ItemText "b".toList := ⟨by decide, by decide, by decide⟩

theorem itemText_b_spaces : ItemText " b \r".toList := ⟨by decide, by decide, by decide⟩

theorem para_not_heading : ¬ HeadingRegex (trimEnd "para".toList) :=
  fun h => absurd ((hMatch_isSome_iff _).mpr h) (by decide)

theorem para_not_list : ¬ ListItemRegex (trimEnd "para".toList) :=
  fun h => absurd ((liMatch_isSome_iff _).mpr h) (by decide)

/-- C2 (amended) at the lines `- a`, `- b`, `para` of the claim, and at the same lines
with white space around `b` and a carriage return at the end of that line. -/
theorem mdToHtml_list_then_paragraph_witness :
    mdToHtml "- a\n- b\npara".toList
      = "<ul>\n<li>a</li>\n<li>b</li>\n</ul>\n<p>para</p>".toList
    ∧ mdToHtml "- a\n-  b \r\npara".toList
      = "<ul>\n<li>a</li>\n<li>b</li>\n</ul>\n<p>para</p>".toList :=
  ⟨mdToHtml_list_then_paragraph ["a".toList, "b".toList] "para".toList (by decide)
    (by
      intro x hxm
      simp only [List.mem_cons, List.mem_singleton, List.not_mem_nil, or_false] at hxm
      rcases hxm with rfl | rfl
      · exact itemText_a
      · exact itemText_b)
    (by decide) ⟨'p', by decide, by decide⟩ para_not_heading para_not_list,
   mdToHtml_list_then_paragraph ["a".toList, " b \r".toList] "para".toList (by decide)
    (by
      intro x hxm
      simp only [List.mem_cons, List.mem_singleton, List.not_mem_nil, or_false] at hxm
      rcases hxm with rfl | rfl
      · exact itemText_a
      · exact itemText_b_spaces)
    (by decide) ⟨'p', by decide, by decide⟩ para_not_heading para_not_list⟩

/-- C2 as written fails at the lines `- a`, `- `, `- b`, `para`: the second line has an
empty text, it loses its space to `trimEnd` and renders as the paragraph `-`, so the
output holds two `<ul>` blocks with one entry each. -/
theorem mdToHtml_list_then_paragraph_counterexample :
    mdToHtml (List.intercalate ['\n']
        (["a".toList, [], "b".toList].map (fun x => "- ".toList ++ x) ++ ["para".toList]))
      = "<ul>\n<li>a</li>\n</ul>\n<p>-</p>\n<ul>\n<li>b</li>\n</ul>\n<p>para</p>".toList := by
  decide

end Publ
